import Mathlib

/-!
# Run decoding in `structrun.go`

A shallow embedding of `Run.UnmarshalXML` and `RunProperties.UnmarshalXML`
(package `docxlib`, file `structrun.go`) together with the part of
`encoding/xml` they are written against: a decoder that hands out tokens one
at a time, skips a subtree, or decodes the element just opened into a value.

The decoder is a list of tokens still to be read plus the error that
`Token` reports once the list is exhausted (`io.EOF` at the end of the
enclosing element, or a read error).
-/

set_option linter.dupNamespace false

namespace Docx

/-! ## Tokens of `encoding/xml` -/

/-- An XML name: namespace and local part (`xml.Name`). -/
structure Name where
  Space : String := ""
  Local : String := ""
deriving DecidableEq, Repr

/-- An attribute of a start element (`xml.Attr`). -/
structure Attr where
  Name : Name
  Value : String
deriving DecidableEq, Repr

/-- A start element with its attributes (`xml.StartElement`). -/
structure StartElement where
  Name : Name
  Attr : List Attr := []
deriving DecidableEq, Repr

/-- The tokens `Decoder.Token` can return (`xml.Token`). -/
inductive Token where
  | StartElement (tt : StartElement)
  | EndElement (name : Name)
  | CharData (data : String)
  | Comment (data : String)
  | ProcInst (target : String) (inst : String)
  | Directive (data : String)
deriving DecidableEq, Repr

/-- A Go `error` value: `io.EOF`, or any other error, known by its message. -/
inductive Error where
  | EOF
  | other (msg : String)
deriving DecidableEq, Repr

/-- The message of an error (`err.Error()`). -/
def Error.Error : Error → String
  | .EOF => "EOF"
  | .other msg => msg

/-- Whether `s` starts with `p` (`strings.HasPrefix(s, p)`), compared character
by character; for the ASCII prefix the code tests this is the comparison of
bytes Go makes. -/
def HasPrefix (s p : String) : Bool :=
  p.data.isPrefixOf s.data

/-! ## The decoder -/

/-- State of an `xml.Decoder` inside one element: the tokens `Token` will still
return, and the error it returns after them (`io.EOF` when the enclosing
element has ended, any other error when reading fails). -/
structure Decoder where
  toks : List Token
  final : Error := Error.EOF
deriving DecidableEq, Repr

/-- The call `d.Token()`: the next token, or the final error. -/
def Decoder.Token (d : Decoder) : Except Error Token × Decoder :=
  match d.toks with
  | [] => (.error d.final, d)
  | t :: rest => (.ok t, { d with toks := rest })

/-- The loop of `d.Skip()`: read tokens until the end element matching the
start element already consumed; nested elements raise and lower `depth`.
Running out of tokens returns the error of the failing `Token` call. -/
def skipLoop (final : Error) : Nat → List Token → Option Error × List Token
  | _, [] => (some final, [])
  | depth, .StartElement _ :: rest => skipLoop final (depth + 1) rest
  | 0, .EndElement _ :: rest => (none, rest)
  | depth + 1, .EndElement _ :: rest => skipLoop final depth rest
  | depth, .CharData _ :: rest => skipLoop final depth rest
  | depth, .Comment _ :: rest => skipLoop final depth rest
  | depth, .ProcInst _ _ :: rest => skipLoop final depth rest
  | depth, .Directive _ :: rest => skipLoop final depth rest

/-- The call `d.Skip()`. -/
def Decoder.Skip (d : Decoder) : Option Error × Decoder :=
  let res := skipLoop d.final 0 d.toks
  (res.1, { d with toks := res.2 })

/-- Number of tokens up to and including the end element that closes the
element open at nesting `depth`; `none` when the tokens end before it. -/
def endIdx : Nat → List Token → Option Nat
  | _, [] => none
  | depth, .StartElement _ :: rest => (endIdx (depth + 1) rest).map (· + 1)
  | 0, .EndElement _ :: _ => some 1
  | depth + 1, .EndElement _ :: rest => (endIdx depth rest).map (· + 1)
  | depth, .CharData _ :: rest => (endIdx depth rest).map (· + 1)
  | depth, .Comment _ :: rest => (endIdx depth rest).map (· + 1)
  | depth, .ProcInst _ _ :: rest => (endIdx depth rest).map (· + 1)
  | depth, .Directive _ :: rest => (endIdx depth rest).map (· + 1)

/-- The decoder as seen from inside the element whose start element was just
read: its tokens are the element's content up to and including its end
element, after which `Token` reports `io.EOF`; an element that is never
closed runs to the end of the stream and ends in the stream's own error. -/
def Decoder.element (d : Decoder) : Decoder :=
  match endIdx 0 d.toks with
  | some n => { toks := d.toks.take n, final := Error.EOF }
  | none => d

/-- What is left of a token list after the element whose start element was
just read. -/
def dropElement (toks : List Token) : List Token :=
  match endIdx 0 toks with
  | some n => toks.drop n
  | none => []

/-- A decoder for one element, as `DecodeElement` runs it for a given target
type: from the start element and the decoder scoped to that element it
produces the value left in the target, the error, and the number of tokens
it read. -/
abbrev ElemDecoder (α : Type) := StartElement → Decoder → α × Option Error × Nat

/-- The call `d.DecodeElement(&value, &tt)`: run the target type's decoder on
the element and advance the decoder by the tokens it read (never past the
element's end). -/
def Decoder.DecodeElement {α : Type} (dec : ElemDecoder α) (tt : StartElement)
    (d : Decoder) : (α × Option Error) × Decoder :=
  let sub := d.element
  let res := dec tt sub
  ((res.1, res.2.1), { d with toks := d.toks.drop (min res.2.2 sub.toks.length) })

/-! ## Data model of `structrun.go` -/

/-- The Go struct `WTab`: the literal tab. -/
structure WTab where
  XMLName : Name := {}
deriving DecidableEq, Repr

/-- The Go struct `RunStyle`. -/
structure RunStyle where
  XMLName : Name := {}
  Val : String := ""
deriving DecidableEq, Repr

/-- The Go struct `Style`. -/
structure Style where
  XMLName : Name := {}
  Val : String := ""
deriving DecidableEq, Repr

/-- The Go struct `Color`. -/
structure Color where
  XMLName : Name := {}
  Val : String := ""
deriving DecidableEq, Repr

/-- The Go struct `Size`. -/
structure Size where
  XMLName : Name := {}
  Val : String := ""
deriving DecidableEq, Repr

/-- The Go struct `RunProperties`; a nil pointer field is `none`. -/
structure RunProperties where
  XMLName : Name := {}
  Color : Option Color := none
  Size : Option Size := none
  RunStyle : Option RunStyle := none
  Style : Option Style := none
deriving DecidableEq, Repr

/-- An entry of `Run.Children` (`[]interface{}`): a `*Text`, a `*Drawing` or a
`*WTab`. The types `Text` and `Drawing` are declared outside `structrun.go`
and are parameters here. -/
inductive Child (T D : Type) where
  | text (value : T)
  | drawing (value : D)
  | tab (value : WTab)
deriving DecidableEq, Repr

/-- The Go struct `Run`. -/
structure Run (T D : Type) where
  XMLName : Name := {}
  RunProperties : Option RunProperties := none
  InstrText : String := ""
  Children : List (Child T D) := []
deriving DecidableEq, Repr

/-- Modelled from the spec: `getAtt` is declared outside `structrun.go`; the
spec describes it as returning "the string value of a named attribute on the
current start element, or empty/absent if not present (never fails)". The
attribute is looked up by local name. -/
def getAtt (atts : List Attr) (name : String) : String :=
  match atts with
  | [] => ""
  | a :: rest => if a.Name.Local = name then a.Value else getAtt rest name

/-! ## `RunProperties.UnmarshalXML` -/

/-- The `for` loop of `RunProperties.UnmarshalXML`; `fuel` bounds the number of
iterations. The result is the returned error (`none` for `nil`), the receiver
as the loop left it, and the decoder. -/
def RunProperties.UnmarshalXML.loop :
    Nat → Decoder → RunProperties → Option ((Option Error × RunProperties) × Decoder)
  | 0, _, _ => none
  | fuel + 1, d, r =>
    match d.Token with
    | (.error Error.EOF, d) => some ((none, r), d)
    | (.error err, d) => some ((some err, r), d)
    | (.ok (Token.StartElement tt), d) =>
      if tt.Name.Local = "color" then
        loop fuel d { r with Color := some { Val := getAtt tt.Attr "val" } }
      else if tt.Name.Local = "sz" then
        loop fuel d { r with Size := some { Val := getAtt tt.Attr "val" } }
      else if tt.Name.Local = "rStyle" then
        loop fuel d { r with RunStyle := some { Val := getAtt tt.Attr "val" } }
      else if tt.Name.Local = "pStyle" then
        loop fuel d { r with Style := some { Val := getAtt tt.Attr "val" } }
      else
        match d.Skip with
        | (some err, d) => some ((some err, r), d)
        | (none, d) => loop fuel d r
    | (.ok _, d) => loop fuel d r

/-- The method `(r *RunProperties) UnmarshalXML(d, start)`; `start` is not used
by the Go code. Every iteration reads at least one token, so one more
iteration than there are tokens is enough. -/
def RunProperties.UnmarshalXML (d : Decoder) (r : RunProperties) :
    Option ((Option Error × RunProperties) × Decoder) :=
  RunProperties.UnmarshalXML.loop (d.toks.length + 1) d r

/-! ## `Run.UnmarshalXML` -/

/-- The decoders `DecodeElement` runs for the four target types used by
`Run.UnmarshalXML`: `RunProperties` (tag `rPr`), `string` (tag `instrText`),
`Text` (tag `t`) and `Drawing` (tag `drawing`). -/
structure Env (T D : Type) where
  rPr : ElemDecoder RunProperties
  instrText : ElemDecoder String
  t : ElemDecoder T
  drawing : ElemDecoder D

/-- The test `err != nil && !strings.HasPrefix(err.Error(), "expected")`. -/
def fatal (err : Option Error) : Bool :=
  match err with
  | none => false
  | some e => !HasPrefix e.Error "expected"

/-- The `for` loop of `Run.UnmarshalXML`; `fuel` bounds the number of
iterations. The result is the returned error (`none` for `nil`) and the
receiver as the loop left it. -/
def Run.UnmarshalXML.loop {T D : Type} (env : Env T D) :
    Nat → Decoder → Run T D → Option (Option Error × Run T D)
  | 0, _, _ => none
  | fuel + 1, d, r =>
    match d.Token with
    | (.error Error.EOF, _) => some (none, r)
    | (.error err, _) => some (some err, r)
    | (.ok (Token.StartElement tt), d) =>
      if tt.Name.Local = "rPr" then
        match d.DecodeElement env.rPr tt with
        | ((value, err), d) =>
          if fatal err then some (err, r)
          else loop env fuel d { r with RunProperties := some value }
      else if tt.Name.Local = "instrText" then
        match d.DecodeElement env.instrText tt with
        | ((value, err), d) =>
          if fatal err then some (err, r)
          else loop env fuel d { r with InstrText := value }
      else if tt.Name.Local = "t" then
        match d.DecodeElement env.t tt with
        | ((value, err), d) =>
          if fatal err then some (err, r)
          else loop env fuel d { r with Children := r.Children ++ [Child.text value] }
      else if tt.Name.Local = "drawing" then
        match d.DecodeElement env.drawing tt with
        | ((value, err), d) =>
          if fatal err then some (err, r)
          else loop env fuel d { r with Children := r.Children ++ [Child.drawing value] }
      else if tt.Name.Local = "tab" then
        loop env fuel d { r with Children := r.Children ++ [Child.tab {}] }
      else
        match d.Skip with
        | (some err, _) => some (some err, r)
        | (none, d) => loop env fuel d r
    | (.ok _, d) => loop env fuel d r

/-- The method `(r *Run) UnmarshalXML(d, start)`; `start` is not used by the Go
code. Every iteration reads at least one token, so one more iteration than
there are tokens is enough. -/
def Run.UnmarshalXML {T D : Type} (env : Env T D) (d : Decoder) (r : Run T D) :
    Option (Option Error × Run T D) :=
  Run.UnmarshalXML.loop env (d.toks.length + 1) d r

/-! ## Structure of a token stream -/

/-- Nesting depth after reading `toks` when starting at depth `k`: a start
element opens a level, an end element closes one (an end element at depth 0,
such as the run's own, leaves the depth at 0). -/
def depthAfter : Nat → List Token → Nat
  | k, [] => k
  | k, .StartElement _ :: rest => depthAfter (k + 1) rest
  | k, .EndElement _ :: rest => depthAfter (k - 1) rest
  | k, .CharData _ :: rest => depthAfter k rest
  | k, .Comment _ :: rest => depthAfter k rest
  | k, .ProcInst _ _ :: rest => depthAfter k rest
  | k, .Directive _ :: rest => depthAfter k rest

/-- The start elements met at depth 0 when reading `toks` from depth `k`, each
with the tokens that follow it: for `k = 0` the direct children of the
element being decoded, in document order. -/
def directStarts : Nat → List Token → List (StartElement × List Token)
  | _, [] => []
  | 0, .StartElement tt :: rest => (tt, rest) :: directStarts 1 rest
  | k + 1, .StartElement _ :: rest => directStarts (k + 2) rest
  | k, .EndElement _ :: rest => directStarts (k - 1) rest
  | k, .CharData _ :: rest => directStarts k rest
  | k, .Comment _ :: rest => directStarts k rest
  | k, .ProcInst _ _ :: rest => directStarts k rest
  | k, .Directive _ :: rest => directStarts k rest

/-- One iteration of the loop of `Run.UnmarshalXML`: either the method returns
(left) or the loop goes round again with a new decoder and receiver (right). -/
def Run.step {T D : Type} (env : Env T D) (d : Decoder) (r : Run T D) :
    (Option Error × Run T D) ⊕ (Decoder × Run T D) :=
  match d.Token with
  | (.error Error.EOF, _) => .inl (none, r)
  | (.error err, _) => .inl (some err, r)
  | (.ok (Token.StartElement tt), d) =>
    if tt.Name.Local = "rPr" then
      match d.DecodeElement env.rPr tt with
      | ((value, err), d) =>
        if fatal err then .inl (err, r)
        else .inr (d, { r with RunProperties := some value })
    else if tt.Name.Local = "instrText" then
      match d.DecodeElement env.instrText tt with
      | ((value, err), d) =>
        if fatal err then .inl (err, r)
        else .inr (d, { r with InstrText := value })
    else if tt.Name.Local = "t" then
      match d.DecodeElement env.t tt with
      | ((value, err), d) =>
        if fatal err then .inl (err, r)
        else .inr (d, { r with Children := r.Children ++ [Child.text value] })
    else if tt.Name.Local = "drawing" then
      match d.DecodeElement env.drawing tt with
      | ((value, err), d) =>
        if fatal err then .inl (err, r)
        else .inr (d, { r with Children := r.Children ++ [Child.drawing value] })
    else if tt.Name.Local = "tab" then
      .inr (d, { r with Children := r.Children ++ [Child.tab {}] })
    else
      match d.Skip with
      | (some err, _) => .inl (some err, r)
      | (none, d) => .inr (d, r)
  | (.ok _, d) => .inr (d, r)

/-- What one iteration of the loop of `Run.UnmarshalXML` does once `Token` has
returned the start element `tt`, as a function of the decoder `sub` scoped to
that element: either the method returns (left) or the loop goes on after
reading some number of the element's tokens (right). -/
def Run.onStart {T D : Type} (env : Env T D) (tt : StartElement) (sub : Decoder) (r : Run T D) :
    (Option Error × Run T D) ⊕ (Nat × Run T D) :=
  if tt.Name.Local = "rPr" then
    if fatal (env.rPr tt sub).2.1 then .inl ((env.rPr tt sub).2.1, r)
    else .inr ((env.rPr tt sub).2.2, { r with RunProperties := some (env.rPr tt sub).1 })
  else if tt.Name.Local = "instrText" then
    if fatal (env.instrText tt sub).2.1 then .inl ((env.instrText tt sub).2.1, r)
    else .inr ((env.instrText tt sub).2.2, { r with InstrText := (env.instrText tt sub).1 })
  else if tt.Name.Local = "t" then
    if fatal (env.t tt sub).2.1 then .inl ((env.t tt sub).2.1, r)
    else .inr ((env.t tt sub).2.2,
      { r with Children := r.Children ++ [Child.text (env.t tt sub).1] })
  else if tt.Name.Local = "drawing" then
    if fatal (env.drawing tt sub).2.1 then .inl ((env.drawing tt sub).2.1, r)
    else .inr ((env.drawing tt sub).2.2,
      { r with Children := r.Children ++ [Child.drawing (env.drawing tt sub).1] })
  else if tt.Name.Local = "tab" then
    .inr (0, { r with Children := r.Children ++ [Child.tab {}] })
  else
    match endIdx 0 sub.toks with
    | some n => .inr (n, r)
    | none => .inl (some sub.final, r)

/-- A token that is not a start element. -/
def Token.isStart : Token → Bool
  | .StartElement _ => true
  | _ => false

/-! ## The decoders behind `DecodeElement` -/

/-- Character data directly inside the element open at nesting depth 0 (data
of nested elements is left out), up to the element's end. -/
def charData : Nat → List Token → String
  | _, [] => ""
  | k, .StartElement _ :: rest => charData (k + 1) rest
  | 0, .EndElement _ :: _ => ""
  | k + 1, .EndElement _ :: rest => charData k rest
  | 0, .CharData s :: rest => s ++ charData 0 rest
  | k + 1, .CharData _ :: rest => charData (k + 1) rest
  | k, .Comment _ :: rest => charData k rest
  | k, .ProcInst _ _ :: rest => charData k rest
  | k, .Directive _ :: rest => charData k rest

/-- The call `DecodeElement` into a Go `string` (`encoding/xml`): tokens are read up to
the element's end, nested elements are skipped, and the value is the character
data read on the way; when the element is never closed the failing `Token` or
`Skip` call's error is returned and the target stays empty. -/
def decodeString : ElemDecoder String := fun _ sub =>
  match endIdx 0 sub.toks with
  | some n => (charData 0 sub.toks, none, n)
  | none => ("", some sub.final, sub.toks.length)

/-- The call `DecodeElement` into a `RunProperties`: `encoding/xml` calls the
type's own `UnmarshalXML` on the decoder scoped to the element, starting from
the zero value `var value RunProperties`. That method returns `nil` only once
`Token` has reported the end of the element, so the library's check that the
element was consumed entirely never fails after it. -/
def decodeRunProperties : ElemDecoder RunProperties := fun _ sub =>
  match RunProperties.UnmarshalXML sub {} with
  | some ((err, value), d) => (value, err, sub.toks.length - d.toks.length)
  | none => ({}, none, 0)

/-- The decoders of `Run.UnmarshalXML` when `rPr` and `instrText` are decoded
as `structrun.go` and `encoding/xml` do it, with the decoders of the absent
types `Text` and `Drawing` left as parameters. -/
def stdEnv {T D : Type} (text : ElemDecoder T) (drawing : ElemDecoder D) : Env T D :=
  { rPr := decodeRunProperties, instrText := decodeString, t := text, drawing := drawing }

/-- Modelled from the spec: the `Text` decoder is declared outside
`structrun.go`; the spec describes it as "a Text-span decoder (turns a `t`
subtree into a plain string)". -/
def decodeText : ElemDecoder String := decodeString

/-- Modelled from the spec: the `Drawing` decoder is declared outside
`structrun.go`; the spec describes it as turning "a `drawing` subtree into an
opaque embedded-object representation", here the tokens of the subtree. -/
def decodeDrawing : ElemDecoder (List Token) := fun _ sub =>
  match endIdx 0 sub.toks with
  | some n => (sub.toks.take n, none, n)
  | none => ([], some sub.final, sub.toks.length)

/-- The decoders of a run whose text spans are plain strings and whose drawings
are kept as raw subtrees. -/
def docEnv : Env String (List Token) := stdEnv decodeText decodeDrawing

/-- The name `w:local`, as a token carries it. -/
def w (name : String) : Name := { Space := "w", Local := name }

/-- The local names `Run.UnmarshalXML` dispatches on. -/
def runTags : List String := ["rPr", "instrText", "t", "drawing", "tab"]

/-- Whether a start element with local name `name` occurs anywhere in `toks`. -/
def hasStart (name : String) : List Token → Bool
  | [] => false
  | .StartElement tt :: rest => decide (tt.Name.Local = name) || hasStart name rest
  | _ :: rest => hasStart name rest

/-- One iteration of the loop of `RunProperties.UnmarshalXML`: either the
method returns (left) or the loop goes round again (right). -/
def RunProperties.step (d : Decoder) (r : RunProperties) :
    ((Option Error × RunProperties) × Decoder) ⊕ (Decoder × RunProperties) :=
  match d.Token with
  | (.error Error.EOF, d) => .inl ((none, r), d)
  | (.error err, d) => .inl ((some err, r), d)
  | (.ok (Token.StartElement tt), d) =>
    if tt.Name.Local = "color" then
      .inr (d, { r with Color := some { Val := getAtt tt.Attr "val" } })
    else if tt.Name.Local = "sz" then
      .inr (d, { r with Size := some { Val := getAtt tt.Attr "val" } })
    else if tt.Name.Local = "rStyle" then
      .inr (d, { r with RunStyle := some { Val := getAtt tt.Attr "val" } })
    else if tt.Name.Local = "pStyle" then
      .inr (d, { r with Style := some { Val := getAtt tt.Attr "val" } })
    else
      match d.Skip with
      | (some err, d) => .inl ((some err, r), d)
      | (none, d) => .inr (d, r)
  | (.ok _, d) => .inr (d, r)

/-- The field a recognized start element populates in `RunProperties`; `none`
for a start element the switch sends to `default`. -/
def RunProperties.assign (tt : StartElement) (r : RunProperties) : Option RunProperties :=
  if tt.Name.Local = "color" then
    some { r with Color := some { Val := getAtt tt.Attr "val" } }
  else if tt.Name.Local = "sz" then
    some { r with Size := some { Val := getAtt tt.Attr "val" } }
  else if tt.Name.Local = "rStyle" then
    some { r with RunStyle := some { Val := getAtt tt.Attr "val" } }
  else if tt.Name.Local = "pStyle" then
    some { r with Style := some { Val := getAtt tt.Attr "val" } }
  else none

/-! ## Content children, as the specification describes them -/

/-- Whether `DecodeElement` with decoder `dec`, called after the start element
`tt` with `rest` still to read, succeeds and reads exactly the element. -/
def decodesExactly {α : Type} (dec : ElemDecoder α) (tt : StartElement) (rest : List Token)
    (final : Error) : Bool :=
  decide ((Decoder.DecodeElement dec tt ⟨rest, final⟩).1.2 = none) &&
    decide ((Decoder.DecodeElement dec tt ⟨rest, final⟩).2 = ⟨dropElement rest, final⟩)

/-- Whether the next token is an end element: the element just opened is
empty. -/
def startsWithEnd : List Token → Bool
  | .EndElement _ :: _ => true
  | _ => false

/-- For a direct child `c` (start element and the tokens after it): a `t` or
`drawing` is decoded successfully and exactly, a `tab` is empty. -/
def childOk {T D : Type} (env : Env T D) (final : Error) (c : StartElement × List Token) : Bool :=
  if c.1.Name.Local = "t" then decodesExactly env.t c.1 c.2 final
  else if c.1.Name.Local = "drawing" then decodesExactly env.drawing c.1 c.2 final
  else if c.1.Name.Local = "tab" then startsWithEnd c.2
  else true

/-- The content child a direct child element stands for: a `Text` for `t`, a
`Drawing` for `drawing` (the value its decoder produces), a `WTab` for `tab`,
nothing for any other element. -/
def contentChild {T D : Type} (env : Env T D) (final : Error) (c : StartElement × List Token) :
    Option (Child T D) :=
  if c.1.Name.Local = "t" then
    some (Child.text (Decoder.DecodeElement env.t c.1 ⟨c.2, final⟩).1.1)
  else if c.1.Name.Local = "drawing" then
    some (Child.drawing (Decoder.DecodeElement env.drawing c.1 ⟨c.2, final⟩).1.1)
  else if c.1.Name.Local = "tab" then some (Child.tab {})
  else none

/-- One content child per direct child element named `t`, `drawing` or `tab`,
in document order. -/
def contentChildren {T D : Type} (env : Env T D) (final : Error) (toks : List Token) :
    List (Child T D) :=
  (directStarts 0 toks).filterMap (contentChild env final)

/-- A decoder that reads its element to the end and cannot fail on an element
that is closed. -/
def ReadsElement {α : Type} (dec : ElemDecoder α) : Prop :=
  ∀ tt rest final,
    (dec tt (Decoder.element ⟨rest, final⟩)).2.2 = (Decoder.element ⟨rest, final⟩).toks.length ∧
    (endIdx 0 rest ≠ none → (dec tt (Decoder.element ⟨rest, final⟩)).2.1 = none)

/-- The run `<rPr><sz val="24"/></rPr><t>Hello</t><ext><t>x</t></ext><tab/>
<drawing><inline/></drawing><t>World</t>`, up to the run's end element. -/
def sampleRun : List Token :=
  [.StartElement ⟨w "rPr", []⟩, .StartElement ⟨w "sz", [⟨w "val", "24"⟩]⟩, .EndElement (w "sz"),
    .EndElement (w "rPr"),
    .StartElement ⟨w "t", []⟩, .CharData "Hello", .EndElement (w "t"),
    .StartElement ⟨w "ext", []⟩, .StartElement ⟨w "t", []⟩, .CharData "x", .EndElement (w "t"),
    .EndElement (w "ext"),
    .StartElement ⟨w "tab", []⟩, .EndElement (w "tab"),
    .StartElement ⟨w "drawing", []⟩, .StartElement ⟨w "inline", []⟩, .EndElement (w "inline"),
    .EndElement (w "drawing"),
    .StartElement ⟨w "t", []⟩, .CharData "World", .EndElement (w "t"),
    .EndElement (w "r")]

/-- A start element named `rPr` or `instrText`. -/
def isMeta (tt : StartElement) : Bool :=
  decide (tt.Name.Local = "rPr") || decide (tt.Name.Local = "instrText")

/-- The token stream without its `rPr` and `instrText` elements: reading at
depth `k`, a direct child (depth 0) named `rPr` or `instrText` is left out with
its whole subtree; `some j` means the tokens being read belong to an element
that is left out, `j` levels below its start element. -/
def removeMeta : Nat → Option Nat → List Token → List Token
  | _, _, [] => []
  | k, some j, .StartElement _ :: rest => removeMeta k (some (j + 1)) rest
  | k, some 0, .EndElement _ :: rest => removeMeta k none rest
  | k, some (j + 1), .EndElement _ :: rest => removeMeta k (some j) rest
  | k, some j, .CharData _ :: rest => removeMeta k (some j) rest
  | k, some j, .Comment _ :: rest => removeMeta k (some j) rest
  | k, some j, .ProcInst _ _ :: rest => removeMeta k (some j) rest
  | k, some j, .Directive _ :: rest => removeMeta k (some j) rest
  | 0, none, .StartElement tt :: rest =>
    if isMeta tt then removeMeta 0 (some 0) rest
    else .StartElement tt :: removeMeta 1 none rest
  | k + 1, none, .StartElement tt :: rest => .StartElement tt :: removeMeta (k + 2) none rest
  | k, none, .EndElement name :: rest => .EndElement name :: removeMeta (k - 1) none rest
  | k, none, .CharData s :: rest => .CharData s :: removeMeta k none rest
  | k, none, .Comment s :: rest => .Comment s :: removeMeta k none rest
  | k, none, .ProcInst s i :: rest => .ProcInst s i :: removeMeta k none rest
  | k, none, .Directive s :: rest => .Directive s :: removeMeta k none rest

/-- The run `<tab><t>x</t><rPr><sz val="24"/></rPr></tab>`, up to the run's end
element: a `tab` that is not empty. -/
def tabRun : List Token :=
  [.StartElement ⟨w "tab", []⟩,
    .StartElement ⟨w "t", []⟩, .CharData "x", .EndElement (w "t"),
    .StartElement ⟨w "rPr", []⟩, .StartElement ⟨w "sz", [⟨w "val", "24"⟩]⟩, .EndElement (w "sz"),
    .EndElement (w "rPr"),
    .EndElement (w "tab"), .EndElement (w "r")]

/-- Whether no direct child of the stream has one of the local names the run
decoder dispatches on. -/
def noRunTags (toks : List Token) : Bool :=
  (directStarts 0 toks).all (fun c => decide (c.1.Name.Local ∉ runTags))

/-- The run `<proofErr type="spellStart"/>text<lastRenderedPageBreak/>
<ext><t>x</t><tab/></ext>`, up to the run's end element: no direct child is
recognized. -/
def unknownRun : List Token :=
  [.StartElement ⟨w "proofErr", [⟨w "type", "spellStart"⟩]⟩, .EndElement (w "proofErr"),
    .CharData "text", .Comment "c",
    .StartElement ⟨w "lastRenderedPageBreak", []⟩, .EndElement (w "lastRenderedPageBreak"),
    .StartElement ⟨w "ext", []⟩, .StartElement ⟨w "t", []⟩, .CharData "x", .EndElement (w "t"),
    .StartElement ⟨w "tab", []⟩, .EndElement (w "tab"), .EndElement (w "ext"),
    .EndElement (w "r")]

/-! ## Properties streams -/

/-- Whether every start element in the stream is immediately followed by an end
element: all elements are empty. -/
def emptyElems : List Token → Bool
  | [] => true
  | .StartElement _ :: .EndElement _ :: rest => emptyElems rest
  | .StartElement _ :: _ => false
  | .EndElement _ :: rest => emptyElems rest
  | .CharData _ :: rest => emptyElems rest
  | .Comment _ :: rest => emptyElems rest
  | .ProcInst _ _ :: rest => emptyElems rest
  | .Directive _ :: rest => emptyElems rest

/-- The first start element with local name `name`. -/
def findStart (name : String) : List Token → Option StartElement
  | [] => none
  | .StartElement tt :: rest => if tt.Name.Local = name then some tt else findStart name rest
  | _ :: rest => findStart name rest

/-- The last start element with local name `name`. -/
def lastStart (name : String) : List Token → Option StartElement
  | [] => none
  | .StartElement tt :: rest =>
    match lastStart name rest with
    | some x => some x
    | none => if tt.Name.Local = name then some tt else none
  | _ :: rest => lastStart name rest

/-- The number of start elements with local name `name`. -/
def countStart (name : String) : List Token → Nat
  | [] => 0
  | .StartElement tt :: rest => (if tt.Name.Local = name then 1 else 0) + countStart name rest
  | _ :: rest => countStart name rest

/-- The properties `<sz val="24"/><color val="FF0000"/>`, up to the end element of
`rPr`. -/
def sampleProps : List Token :=
  [.StartElement ⟨w "sz", [⟨w "val", "24"⟩]⟩, .EndElement (w "sz"),
    .StartElement ⟨w "color", [⟨w "val", "FF0000"⟩]⟩, .EndElement (w "color"),
    .EndElement (w "rPr")]

/-- A properties stream with none of the four recognized tags. -/
def otherProps : List Token :=
  [.StartElement ⟨w "b", []⟩, .EndElement (w "b"), .CharData " ",
    .StartElement ⟨w "lang", [⟨w "val", "en-US"⟩]⟩, .EndElement (w "lang"),
    .EndElement (w "rPr")]

/-! ## The decoder calls of a run of `Run.UnmarshalXML` -/

/-- A call the loop of `Run.UnmarshalXML` makes on the decoder, with its
outcome: `d.Token()`, `d.Skip()`, or `d.DecodeElement` for the tag named. -/
inductive Op where
  | token (res : Except Error Token)
  | skip (err : Option Error)
  | decode (tag : String) (err : Option Error)

/-- The error with which a decoder call makes `Run.UnmarshalXML` return: a
`Token` error other than `io.EOF`, any `Skip` error, a `DecodeElement` error
whose message does not begin with "expected". -/
def Op.failure : Op → Option Error
  | .token (.error Error.EOF) => none
  | .token (.error e) => some e
  | .token (.ok _) => none
  | .skip err => err
  | .decode _ err =>
    match err with
    | none => none
    | some e => if HasPrefix e.Error "expected" then none else some e

/-- The decoder calls of one iteration of the loop, in the order the code makes
them: `Token`, then for a start element the call its branch makes (none in the
`tab` branch). -/
def Run.stepOps {T D : Type} (env : Env T D) (d : Decoder) : List Op :=
  match d.Token with
  | (.error err, _) => [Op.token (.error err)]
  | (.ok (Token.StartElement tt), d) =>
    Op.token (.ok (Token.StartElement tt)) ::
      (if tt.Name.Local = "rPr" then [Op.decode "rPr" (d.DecodeElement env.rPr tt).1.2]
      else if tt.Name.Local = "instrText" then
        [Op.decode "instrText" (d.DecodeElement env.instrText tt).1.2]
      else if tt.Name.Local = "t" then [Op.decode "t" (d.DecodeElement env.t tt).1.2]
      else if tt.Name.Local = "drawing" then
        [Op.decode "drawing" (d.DecodeElement env.drawing tt).1.2]
      else if tt.Name.Local = "tab" then []
      else [Op.skip d.Skip.1])
  | (.ok t, _) => [Op.token (.ok t)]

/-- The decoder calls of the iterations the loop goes through from decoder `d`
and receiver `r`, in order. -/
def Run.opsLoop {T D : Type} (env : Env T D) : Nat → Decoder → Run T D → List Op
  | 0, _, _ => []
  | fuel + 1, d, r =>
    match Run.step env d r with
    | .inl _ => Run.stepOps env d
    | .inr p => Run.stepOps env d ++ Run.opsLoop env fuel p.1 p.2

/-- The decoder calls `Run.UnmarshalXML` makes, in order. -/
def Run.ops {T D : Type} (env : Env T D) (d : Decoder) (r : Run T D) : List Op :=
  Run.opsLoop env (d.toks.length + 1) d r

/-- A stream that breaks off inside an unknown element after a text span and an
empty `rPr` element. -/
def brokenRun : List Token :=
  [.StartElement ⟨w "t", []⟩, .CharData "Hello", .EndElement (w "t"),
    .StartElement ⟨w "rPr", []⟩, .EndElement (w "rPr"),
    .StartElement ⟨w "ext", []⟩, .StartElement ⟨w "t", []⟩]

/-- A stream that begins with tokens that are not start elements, among them an
end element, before an empty `tab`. -/
def strayRun : List Token :=
  [.EndElement (w "r"), .CharData "text", .Comment "c", .ProcInst "xml" "version",
    .Directive "DOCTYPE", .StartElement ⟨w "tab", []⟩, .EndElement (w "tab")]

/-- A properties stream in which each of the four recognized tags occurs or
not, as the four flags say, each as an empty element. -/
def propsFor (color sz rStyle pStyle : Bool) : List Token :=
  (if color then [.StartElement ⟨w "color", [⟨w "val", "FF0000"⟩]⟩, .EndElement (w "color")]
    else []) ++
  (if sz then [.StartElement ⟨w "sz", [⟨w "val", "24"⟩]⟩, .EndElement (w "sz")] else []) ++
  (if rStyle then [.StartElement ⟨w "rStyle", [⟨w "val", "Emphasis"⟩]⟩, .EndElement (w "rStyle")]
    else []) ++
  (if pStyle then [.StartElement ⟨w "pStyle", [⟨w "val", "Title"⟩]⟩, .EndElement (w "pStyle")]
    else []) ++
  [.EndElement (w "rPr")]

/-- The properties `<color val="FF0000"><sz val="24"/></color>`, up to the end
element of `rPr`: a `sz` nested inside a `color`. -/
def nestedProps : List Token :=
  [.StartElement ⟨w "color", [⟨w "val", "FF0000"⟩]⟩,
    .StartElement ⟨w "sz", [⟨w "val", "24"⟩]⟩, .EndElement (w "sz"),
    .EndElement (w "color"), .EndElement (w "rPr")]

/-- The decoder calls of one iteration of the loop of
`RunProperties.UnmarshalXML`, in the order the code makes them: `Token`, then
`Skip` for a start element the switch sends to `default`. -/
def RunProperties.stepOps (d : Decoder) : List Op :=
  match d.Token with
  | (.error err, _) => [Op.token (.error err)]
  | (.ok (Token.StartElement tt), d) =>
    Op.token (.ok (Token.StartElement tt)) ::
      (if tt.Name.Local = "color" then []
      else if tt.Name.Local = "sz" then []
      else if tt.Name.Local = "rStyle" then []
      else if tt.Name.Local = "pStyle" then []
      else [Op.skip d.Skip.1])
  | (.ok t, _) => [Op.token (.ok t)]

/-- The decoder calls of the iterations the loop of `RunProperties.UnmarshalXML`
goes through from decoder `d` and receiver `r`, in order. -/
def RunProperties.opsLoop : Nat → Decoder → RunProperties → List Op
  | 0, _, _ => []
  | fuel + 1, d, r =>
    match RunProperties.step d r with
    | .inl _ => RunProperties.stepOps d
    | .inr p => RunProperties.stepOps d ++ RunProperties.opsLoop fuel p.1 p.2

/-- The decoder calls `RunProperties.UnmarshalXML` makes, in order. -/
def RunProperties.ops (d : Decoder) (r : RunProperties) : List Op :=
  RunProperties.opsLoop (d.toks.length + 1) d r

/-- The local names `RunProperties.UnmarshalXML` dispatches on. -/
def propTags : List String := ["color", "sz", "rStyle", "pStyle"]

/-- The properties `<color themeColor="accent1"/>`, up to the end element of
`rPr`: a `color` without a `val` attribute. -/
def noValProps : List Token :=
  [.StartElement ⟨w "color", [⟨w "themeColor", "accent1"⟩]⟩, .EndElement (w "color"),
    .EndElement (w "rPr")]

/-- A properties stream that breaks off inside an unknown element, after a
`sz`. -/
def brokenProps : List Token :=
  [.StartElement ⟨w "sz", [⟨w "val", "24"⟩]⟩, .EndElement (w "sz"),
    .StartElement ⟨w "rFonts", []⟩, .StartElement ⟨w "color", [⟨w "val", "FF0000"⟩]⟩]

/-- Decoders as `docEnv`, except that decoding a `t` or a `drawing` fails at once
with a shape mismatch, the `UnmarshalError` of `encoding/xml` whose message
begins with "expected", before any token of the element is read, leaving the
target at its zero value. -/
def strictEnv : Env String (List Token) :=
  { docEnv with
    t := fun _ _ => ("", some (Error.other "expected element type <w:t> but have <t>"), 0)
    drawing := fun _ _ =>
      ([], some (Error.other "expected element type <w:drawing> but have <drawing>"), 0) }

/-- The run `<rPr><color val="FF0000"/></rPr><instrText>PAGE</instrText>
<rPr><sz val="24"/></rPr><instrText>DATE</instrText><t>Hello</t>`, up to the
run's end element: two `rPr` and two `instrText` elements. -/
def repeatedRun : List Token :=
  [.StartElement ⟨w "rPr", []⟩, .StartElement ⟨w "color", [⟨w "val", "FF0000"⟩]⟩,
    .EndElement (w "color"), .EndElement (w "rPr"),
    .StartElement ⟨w "instrText", []⟩, .CharData "PAGE", .EndElement (w "instrText"),
    .StartElement ⟨w "rPr", []⟩, .StartElement ⟨w "sz", [⟨w "val", "24"⟩]⟩,
    .EndElement (w "sz"), .EndElement (w "rPr"),
    .StartElement ⟨w "instrText", []⟩, .CharData "DATE", .EndElement (w "instrText"),
    .StartElement ⟨w "t", []⟩, .CharData "Hello", .EndElement (w "t"),
    .EndElement (w "r")]

/-- The properties `<sz val="20"/><color val="FF0000"/><sz val="24"/>`, up to the
end element of `rPr`: `sz` occurs twice. -/
def repeatedProps : List Token :=
  [.StartElement ⟨w "sz", [⟨w "val", "20"⟩]⟩, .EndElement (w "sz"),
    .StartElement ⟨w "color", [⟨w "val", "FF0000"⟩]⟩, .EndElement (w "color"),
    .StartElement ⟨w "sz", [⟨w "val", "24"⟩]⟩, .EndElement (w "sz"),
    .EndElement (w "rPr")]

/-- A Run that already holds data. -/
def usedRun : Run String (List Token) :=
  { XMLName := w "r", RunProperties := some { Color := some { Val := "00FF00" } },
    InstrText := "TIME", Children := [Child.text "old"] }

/-- The run `<tab/><t>Hello</t>`, up to the run's end element. -/
def plainRun : List Token :=
  [.StartElement ⟨w "tab", []⟩, .EndElement (w "tab"),
    .StartElement ⟨w "t", []⟩, .CharData "Hello", .EndElement (w "t"),
    .EndElement (w "r")]

/-- The last direct child with local name `name` among the direct children
`cs` (start element and the tokens after it). -/
def lastChild (name : String) : List (StartElement × List Token) → Option StartElement
  | [] => none
  | c :: cs =>
    match lastChild name cs with
    | some x => some x
    | none => if c.1.Name.Local = name then some c.1 else none

/-- Whether every direct child of the properties stream that has a recognized
tag is an empty element. -/
def propsOk (toks : List Token) : Bool :=
  (directStarts 0 toks).all
    (fun c => !decide (c.1.Name.Local ∈ propTags) || startsWithEnd c.2)

/-- The properties `<sz val="20"/><rFonts><sz val="99"/></rFonts>
<color val="FF0000"/><sz val="24"/>`, up to the end element of `rPr`: `sz`
occurs twice as a direct child and once inside an unknown element. -/
def mixedProps : List Token :=
  [.StartElement ⟨w "sz", [⟨w "val", "20"⟩]⟩, .EndElement (w "sz"),
    .StartElement ⟨w "rFonts", []⟩, .StartElement ⟨w "sz", [⟨w "val", "99"⟩]⟩,
    .EndElement (w "sz"), .EndElement (w "rFonts"),
    .StartElement ⟨w "color", [⟨w "val", "FF0000"⟩]⟩, .EndElement (w "color"),
    .StartElement ⟨w "sz", [⟨w "val", "24"⟩]⟩, .EndElement (w "sz"),
    .EndElement (w "rPr")]

/-! ## Streams that differ in namespaces, decoders that agree on a stream -/

/-- Whether two tokens are the same up to the namespace of an element's name:
start elements need the same local name and the same attributes, end elements
the same local name (an end element carries the name of the start element it
closes), all other tokens must be equal. -/
def Token.sameLocal : Token → Token → Bool
  | .StartElement a, .StartElement b =>
    decide (a.Name.Local = b.Name.Local) && decide (a.Attr = b.Attr)
  | .EndElement a, .EndElement b => decide (a.Local = b.Local)
  | a, b => decide (a = b)

/-- Whether two token streams are the same up to the namespaces of their
elements' names. -/
def sameLocals : List Token → List Token → Bool
  | [], [] => true
  | a :: r1, b :: r2 => a.sameLocal b && sameLocals r1 r2
  | _, _ => false

/-- The decoder that `DecodeElement` would run for the start elements `a` (with
`r1` after it, under `env1`) and `b` (with `r2` after it, under `env2`) gives the
same result in both: value, error and number of tokens read. -/
abbrev agreeAt {T D : Type} (env1 env2 : Env T D) (final : Error) (a b : StartElement)
    (r1 r2 : List Token) : Prop :=
  (a.Name.Local = "rPr" →
    env1.rPr a (Decoder.element ⟨r1, final⟩) = env2.rPr b (Decoder.element ⟨r2, final⟩)) ∧
  (a.Name.Local = "instrText" →
    env1.instrText a (Decoder.element ⟨r1, final⟩) =
      env2.instrText b (Decoder.element ⟨r2, final⟩)) ∧
  (a.Name.Local = "t" →
    env1.t a (Decoder.element ⟨r1, final⟩) = env2.t b (Decoder.element ⟨r2, final⟩)) ∧
  (a.Name.Local = "drawing" →
    env1.drawing a (Decoder.element ⟨r1, final⟩) =
      env2.drawing b (Decoder.element ⟨r2, final⟩))

/-- The pairs of start elements that stand at the same position of two streams,
each with the tokens after it. -/
def startPairs :
    List Token → List Token → List ((StartElement × List Token) × (StartElement × List Token))
  | .StartElement a :: r1, .StartElement b :: r2 => ((a, r1), (b, r2)) :: startPairs r1 r2
  | _ :: r1, _ :: r2 => startPairs r1 r2
  | _, _ => []

/-- The collaborator results are the same at every pair of start elements that
stand at the same position of the two streams. -/
abbrev Agree {T D : Type} (env1 env2 : Env T D) (final : Error) (t1 t2 : List Token) : Prop :=
  ∀ p ∈ startPairs t1 t2, agreeAt env1 env2 final p.1.1 p.2.1 p.1.2 p.2.2

/-- Decoders as `docEnv`, except that the `Text` decoder refuses start elements
outside the namespace `w`. -/
def otherEnv : Env String (List Token) :=
  { docEnv with
    t := fun tt sub =>
      if tt.Name.Space = "w" then decodeText tt sub
      else ("", some (Error.other "unknown namespace"), 0) }

/-- Whether `Token` can deliver the token list inside an element with the
elements named `stack` open within it: every end element carries the name of the
start element it closes (`encoding/xml` reports a syntax error otherwise), every
element opened is closed, and an end element that closes none of them, that of
the enclosing element, is the last token. -/
def wellFormed : List Name → List Token → Bool
  | stack, [] => stack.isEmpty
  | stack, .StartElement tt :: rest => wellFormed (tt.Name :: stack) rest
  | top :: stack, .EndElement name :: rest => decide (name = top) && wellFormed stack rest
  | [], .EndElement _ :: rest => rest.isEmpty
  | stack, .CharData _ :: rest => wellFormed stack rest
  | stack, .Comment _ :: rest => wellFormed stack rest
  | stack, .ProcInst _ _ :: rest => wellFormed stack rest
  | stack, .Directive _ :: rest => wellFormed stack rest

/-- The stream `sampleRun` with the `rPr`, `sz`, `t`, `ext` and `tab` elements
moved to other namespaces, start and end element alike. -/
def respacedRun : List Token :=
  [.StartElement ⟨⟨"", "rPr"⟩, []⟩, .StartElement ⟨⟨"x", "sz"⟩, [⟨w "val", "24"⟩]⟩,
    .EndElement ⟨"x", "sz"⟩, .EndElement ⟨"", "rPr"⟩,
    .StartElement ⟨⟨"urn:a", "t"⟩, []⟩, .CharData "Hello", .EndElement ⟨"urn:a", "t"⟩,
    .StartElement ⟨⟨"urn:b", "ext"⟩, []⟩, .StartElement ⟨⟨"", "t"⟩, []⟩, .CharData "x",
    .EndElement ⟨"", "t"⟩, .EndElement ⟨"urn:b", "ext"⟩,
    .StartElement ⟨⟨"", "tab"⟩, []⟩, .EndElement ⟨"", "tab"⟩,
    .StartElement ⟨w "drawing", []⟩, .StartElement ⟨w "inline", []⟩,
    .EndElement (w "inline"), .EndElement (w "drawing"),
    .StartElement ⟨⟨"w14", "t"⟩, []⟩, .CharData "World", .EndElement ⟨"w14", "t"⟩,
    .EndElement (w "r")]

/-- The properties `sampleProps` with the `sz` and `color` elements moved to
other namespaces, start and end element alike. -/
def respacedProps : List Token :=
  [.StartElement ⟨⟨"", "sz"⟩, [⟨w "val", "24"⟩]⟩, .EndElement ⟨"", "sz"⟩,
    .StartElement ⟨⟨"urn:a", "color"⟩, [⟨w "val", "FF0000"⟩]⟩, .EndElement ⟨"urn:a", "color"⟩,
    .EndElement (w "rPr")]

/-- An error of the token source, the reader behind the decoder, whose message
begins with "expected". -/
def readError : Error := Error.other "expected 4096 bytes but read 1024"

theorem skipLoop_eq (final : Error) (toks : List Token) :
    ∀ k, skipLoop final k toks =
      match endIdx k toks with
      | some n => (none, toks.drop n)
      | none => (some final, []) := by
  induction toks with
  | nil => intro k; simp [skipLoop, endIdx]
  | cons tok rest ih =>
    intro k
    cases tok with
    | StartElement tt =>
      simp only [skipLoop, endIdx, ih (k + 1)]
      cases endIdx (k + 1) rest <;> simp
    | EndElement name =>
      cases k with
      | zero => simp [skipLoop, endIdx]
      | succ k =>
        simp only [skipLoop, endIdx, ih k]
        cases endIdx k rest <;> simp
    | CharData s =>
      simp only [skipLoop, endIdx, ih k]
      cases endIdx k rest <;> simp
    | Comment s =>
      simp only [skipLoop, endIdx, ih k]
      cases endIdx k rest <;> simp
    | ProcInst s i =>
      simp only [skipLoop, endIdx, ih k]
      cases endIdx k rest <;> simp
    | Directive s =>
      simp only [skipLoop, endIdx, ih k]
      cases endIdx k rest <;> simp

theorem endIdx_le (toks : List Token) :
    ∀ k n, endIdx k toks = some n → 0 < n ∧ n ≤ toks.length := by
  induction toks with
  | nil => intro k n h; simp [endIdx] at h
  | cons tok rest ih =>
    intro k n h
    cases tok with
    | StartElement tt =>
      simp only [endIdx, Option.map_eq_some'] at h
      obtain ⟨m, hm, rfl⟩ := h
      have := ih _ _ hm
      simp; omega
    | EndElement name =>
      cases k with
      | zero => simp [endIdx] at h; subst h; simp
      | succ k =>
        simp only [endIdx, Option.map_eq_some'] at h
        obtain ⟨m, hm, rfl⟩ := h
        have := ih _ _ hm
        simp; omega
    | CharData s =>
      simp only [endIdx, Option.map_eq_some'] at h
      obtain ⟨m, hm, rfl⟩ := h
      have := ih _ _ hm
      simp; omega
    | Comment s =>
      simp only [endIdx, Option.map_eq_some'] at h
      obtain ⟨m, hm, rfl⟩ := h
      have := ih _ _ hm
      simp; omega
    | ProcInst s i =>
      simp only [endIdx, Option.map_eq_some'] at h
      obtain ⟨m, hm, rfl⟩ := h
      have := ih _ _ hm
      simp; omega
    | Directive s =>
      simp only [endIdx, Option.map_eq_some'] at h
      obtain ⟨m, hm, rfl⟩ := h
      have := ih _ _ hm
      simp; omega

theorem skipLoop_length (final : Error) (k : Nat) (toks : List Token) :
    (skipLoop final k toks).2.length ≤ toks.length := by
  rw [skipLoop_eq]
  cases h : endIdx k toks <;> simp

theorem Run.loop_succ {T D : Type} (env : Env T D) (fuel : Nat) (d : Decoder) (r : Run T D) :
    Run.UnmarshalXML.loop env (fuel + 1) d r =
      match Run.step env d r with
      | .inl res => some res
      | .inr p => Run.UnmarshalXML.loop env fuel p.1 p.2 := by
  rw [Run.UnmarshalXML.loop, Run.step]
  split <;> try rfl
  · split_ifs <;> try rfl
    all_goals (split <;> first | rfl | (split_ifs <;> rfl))

theorem Run.step_length {T D : Type} (env : Env T D) (d d' : Decoder) (r r' : Run T D)
    (h : Run.step env d r = .inr (d', r')) :
    d'.toks.length < d.toks.length ∧ d'.final = d.final := by
  obtain ⟨toks, final⟩ := d
  cases toks with
  | nil => cases final <;> simp [Run.step, Decoder.Token] at h
  | cons tok rest =>
    cases tok with
    | StartElement tt =>
      simp only [Run.step, Decoder.Token, Decoder.DecodeElement, Decoder.Skip] at h
      split_ifs at h
      all_goals first
        | (simp only [Sum.inr.injEq, Prod.mk.injEq] at h
           obtain ⟨rfl, -⟩ := h
           simp <;> omega)
        | (have hl := skipLoop_length final 0 rest
           split at h
           · simp at h
           · rename_i heq
             simp only [Sum.inr.injEq, Prod.mk.injEq] at h heq
             obtain ⟨rfl, -⟩ := h
             obtain ⟨-, rfl⟩ := heq
             simp; omega)
    | EndElement name =>
      simp only [Run.step, Decoder.Token, Sum.inr.injEq, Prod.mk.injEq] at h
      obtain ⟨rfl, -⟩ := h
      simp
    | CharData s =>
      simp only [Run.step, Decoder.Token, Sum.inr.injEq, Prod.mk.injEq] at h
      obtain ⟨rfl, -⟩ := h
      simp
    | Comment s =>
      simp only [Run.step, Decoder.Token, Sum.inr.injEq, Prod.mk.injEq] at h
      obtain ⟨rfl, -⟩ := h
      simp
    | ProcInst s i =>
      simp only [Run.step, Decoder.Token, Sum.inr.injEq, Prod.mk.injEq] at h
      obtain ⟨rfl, -⟩ := h
      simp
    | Directive s =>
      simp only [Run.step, Decoder.Token, Sum.inr.injEq, Prod.mk.injEq] at h
      obtain ⟨rfl, -⟩ := h
      simp

theorem Run.loop_fuel {T D : Type} (env : Env T D) :
    ∀ (fuel : Nat) (d : Decoder) (r : Run T D), d.toks.length < fuel →
      ∀ fuel', d.toks.length < fuel' →
        Run.UnmarshalXML.loop env fuel d r = Run.UnmarshalXML.loop env fuel' d r ∧
        (Run.UnmarshalXML.loop env fuel d r).isSome = true := by
  intro fuel
  induction fuel with
  | zero => intro d r h; omega
  | succ fuel ih =>
    intro d r _ fuel' h'
    cases fuel' with
    | zero => omega
    | succ fuel' =>
      rw [Run.loop_succ, Run.loop_succ]
      cases hs : Run.step env d r with
      | inl res => simp
      | inr p =>
        have hl := Run.step_length env d p.1 r p.2 hs
        exact ih p.1 p.2 (by omega) fuel' (by omega)

/-- The method `Run.UnmarshalXML` satisfies the recursion of the Go loop: one iteration,
then the same method on what is left. -/
theorem Run.unfold {T D : Type} (env : Env T D) (d : Decoder) (r : Run T D) :
    Run.UnmarshalXML env d r =
      match Run.step env d r with
      | .inl res => some res
      | .inr p => Run.UnmarshalXML env p.1 p.2 := by
  unfold Run.UnmarshalXML
  rw [Run.loop_succ]
  cases hs : Run.step env d r with
  | inl res => rfl
  | inr p =>
    have hl := Run.step_length env d p.1 r p.2 hs
    exact (Run.loop_fuel env _ p.1 p.2 (by omega) _ (by omega)).1

/-- The method `Run.UnmarshalXML` always returns: the fuel it is given never runs
out. -/
theorem Run.total {T D : Type} (env : Env T D) (d : Decoder) (r : Run T D) :
    ∃ res, Run.UnmarshalXML env d r = some res := by
  have h := (Run.loop_fuel env (d.toks.length + 1) d r (by omega) _ (Nat.lt_succ_self _)).2
  exact Option.isSome_iff_exists.mp h

/-! ## Facts about the structure of token streams -/

theorem endIdx_append (A C : List Token) :
    ∀ k n, endIdx k A = some n → endIdx k (A ++ C) = some n := by
  induction A with
  | nil => intro k n h; simp [endIdx] at h
  | cons tok rest ih =>
    intro k n h
    cases tok with
    | EndElement name =>
      cases k with
      | zero => simpa [endIdx] using h
      | succ k =>
        simp only [endIdx, Option.map_eq_some', List.cons_append] at h ⊢
        obtain ⟨m, hm, rfl⟩ := h
        exact ⟨m, ih _ _ hm, rfl⟩
    | _ =>
      simp only [endIdx, Option.map_eq_some', List.cons_append] at h ⊢
      obtain ⟨m, hm, rfl⟩ := h
      exact ⟨m, ih _ _ hm, rfl⟩

theorem endIdx_take (A : List Token) :
    ∀ k n, endIdx k A = some n → endIdx k (A.take n) = some n := by
  induction A with
  | nil => intro k n h; simp [endIdx] at h
  | cons tok rest ih =>
    intro k n h
    cases tok with
    | EndElement name =>
      cases k with
      | zero => simp [endIdx] at h; subst h; simp [endIdx]
      | succ k =>
        simp only [endIdx, Option.map_eq_some'] at h
        obtain ⟨m, hm, rfl⟩ := h
        simp [endIdx, ih _ _ hm]
    | _ =>
      simp only [endIdx, Option.map_eq_some'] at h
      obtain ⟨m, hm, rfl⟩ := h
      simp [endIdx, ih _ _ hm]

theorem depthAfter_append (A B : List Token) :
    ∀ k, depthAfter k (A ++ B) = depthAfter (depthAfter k A) B := by
  induction A with
  | nil => intro k; simp [depthAfter]
  | cons tok rest ih =>
    intro k
    cases tok <;> simp [depthAfter, ih]

theorem endIdx_of_depthAfter (A : List Token) :
    ∀ j k, depthAfter (j + k + 1) A = 0 → ∃ n, endIdx j A = some n := by
  induction A with
  | nil => intro j k h; simp [depthAfter] at h
  | cons tok rest ih =>
    intro j k h
    cases tok with
    | StartElement tt =>
      simp only [depthAfter] at h
      obtain ⟨n, hn⟩ := ih (j + 1) k (by rw [← h]; congr 1; omega)
      exact ⟨n + 1, by simp [endIdx, hn]⟩
    | EndElement name =>
      cases j with
      | zero => exact ⟨1, by simp [endIdx]⟩
      | succ j =>
        simp only [depthAfter] at h
        obtain ⟨n, hn⟩ := ih j k (by rw [← h]; congr 1; omega)
        exact ⟨n + 1, by simp [endIdx, hn]⟩
    | _ =>
      simp only [depthAfter] at h
      obtain ⟨n, hn⟩ := ih j k h
      exact ⟨n + 1, by simp [endIdx, hn]⟩

theorem closing_drop (A : List Token) (m : Nat) (h : ∃ k, depthAfter k A = 0) :
    ∃ k, depthAfter k (A.drop m) = 0 := by
  obtain ⟨k, hk⟩ := h
  refine ⟨depthAfter k (A.take m), ?_⟩
  rw [← depthAfter_append, List.take_append_drop]
  exact hk

theorem closing_tail (tok : Token) (A : List Token) (h : ∃ k, depthAfter k (tok :: A) = 0) :
    ∃ k, depthAfter k A = 0 := by
  have := closing_drop (tok :: A) 1 h
  simpa using this

/-! ## The loop of `Run.UnmarshalXML` on a token list -/

theorem Run.step_start {T D : Type} (env : Env T D) (tt : StartElement) (rest : List Token)
    (final : Error) (r : Run T D) :
    Run.step env ⟨.StartElement tt :: rest, final⟩ r =
      match Run.onStart env tt (Decoder.element ⟨rest, final⟩) r with
      | .inl res => .inl res
      | .inr p =>
        .inr (⟨rest.drop (min p.1 (Decoder.element ⟨rest, final⟩).toks.length), final⟩, p.2) := by
  simp only [Run.step, Decoder.Token, Run.onStart, Decoder.DecodeElement]
  split_ifs <;> try rfl
  · simp
  · simp only [Decoder.Skip, skipLoop_eq, Decoder.element]
    cases h : endIdx 0 rest with
    | none => simp [h]
    | some n =>
      have hn := endIdx_le rest 0 n h
      simp [endIdx_take rest 0 n h, Nat.min_eq_left hn.2]

theorem Run.unfold_start {T D : Type} (env : Env T D) (tt : StartElement) (rest : List Token)
    (final : Error) (r : Run T D) :
    Run.UnmarshalXML env ⟨.StartElement tt :: rest, final⟩ r =
      match Run.onStart env tt (Decoder.element ⟨rest, final⟩) r with
      | .inl res => some res
      | .inr p =>
        Run.UnmarshalXML env
          ⟨rest.drop (min p.1 (Decoder.element ⟨rest, final⟩).toks.length), final⟩ p.2 := by
  rw [Run.unfold, Run.step_start]
  cases Run.onStart env tt (Decoder.element ⟨rest, final⟩) r <;> rfl

theorem Run.unfold_other {T D : Type} (env : Env T D) (tok : Token) (rest : List Token)
    (final : Error) (r : Run T D) (h : tok.isStart = false) :
    Run.UnmarshalXML env ⟨tok :: rest, final⟩ r = Run.UnmarshalXML env ⟨rest, final⟩ r := by
  rw [Run.unfold]
  cases tok with
  | StartElement tt => simp [Token.isStart] at h
  | _ => rfl

theorem Run.unfold_nil {T D : Type} (env : Env T D) (final : Error) (r : Run T D) :
    Run.UnmarshalXML env ⟨[], final⟩ r =
      some (if final = Error.EOF then none else some final, r) := by
  rw [Run.unfold]
  cases final <;> simp [Run.step, Decoder.Token]

theorem Run.onStart_inl {T D : Type} (env : Env T D) (tt : StartElement) (sub : Decoder)
    (r : Run T D) (res : Option Error × Run T D) (h : Run.onStart env tt sub r = .inl res) :
    res.1.isSome = true ∧ res.2 = r := by
  have hf : ∀ e : Option Error, fatal e = true → e.isSome = true := by
    intro e he; cases e <;> simp_all [fatal]
  simp only [Run.onStart] at h
  split_ifs at h <;> try (cases h; exact ⟨hf _ ‹_›, rfl⟩)
  split at h <;> cases h
  exact ⟨rfl, rfl⟩

theorem element_append (A C : List Token) (final : Error) (n : Nat) (h : endIdx 0 A = some n) :
    Decoder.element ⟨A ++ C, final⟩ = ⟨A.take n, Error.EOF⟩ := by
  have hn := endIdx_le A 0 n h
  simp [Decoder.element, endIdx_append A C 0 n h, List.take_append_of_le_length hn.2]

theorem element_length_le (toks : List Token) (final : Error) :
    (Decoder.element ⟨toks, final⟩).toks.length ≤ toks.length := by
  simp only [Decoder.element]
  cases h : endIdx 0 toks <;> simp

/-- Decoding runs through a stretch of tokens that closes every element it
opens without looking at what follows: either the method returns an error
inside the stretch, or the loop arrives at the end of the stretch. -/
theorem Run.through {T D : Type} (env : Env T D) :
    ∀ (n : Nat) (A : List Token), A.length ≤ n → (∃ k, depthAfter k A = 0) →
      ∀ (final : Error) (r : Run T D),
        (∃ e r', ∀ C, Run.UnmarshalXML env ⟨A ++ C, final⟩ r = some (some e, r')) ∨
        (∃ r', ∀ C, Run.UnmarshalXML env ⟨A ++ C, final⟩ r =
          Run.UnmarshalXML env ⟨C, final⟩ r') := by
  intro n
  induction n with
  | zero =>
    intro A hA _ final r
    have : A = [] := List.length_eq_zero.mp (by omega)
    subst this
    exact Or.inr ⟨r, fun C => rfl⟩
  | succ n ih =>
    intro A hA hcl final r
    cases A with
    | nil => exact Or.inr ⟨r, fun C => rfl⟩
    | cons tok A' =>
      have hA' : A'.length ≤ n := by simpa using hA
      by_cases hs : tok.isStart = false
      · rcases ih A' hA' (closing_tail tok A' hcl) final r with ⟨e, r', h⟩ | ⟨r', h⟩
        · exact Or.inl ⟨e, r', fun C => by
            rw [List.cons_append, Run.unfold_other env tok _ final r hs]; exact h C⟩
        · exact Or.inr ⟨r', fun C => by
            rw [List.cons_append, Run.unfold_other env tok _ final r hs]; exact h C⟩
      · cases tok with
        | StartElement tt =>
          obtain ⟨k, hk⟩ := hcl
          simp only [depthAfter] at hk
          obtain ⟨n0, hn0⟩ := endIdx_of_depthAfter A' 0 k (by rw [← hk]; congr 1; omega)
          have hle := endIdx_le A' 0 n0 hn0
          have hel : ∀ C, Decoder.element ⟨A' ++ C, final⟩ = ⟨A'.take n0, Error.EOF⟩ :=
            fun C => element_append A' C final n0 hn0
          cases ho : Run.onStart env tt ⟨A'.take n0, Error.EOF⟩ r with
          | inl res =>
            obtain ⟨h1, h2⟩ := Run.onStart_inl env tt _ r res ho
            obtain ⟨e, he⟩ := Option.isSome_iff_exists.mp h1
            refine Or.inl ⟨e, r, fun C => ?_⟩
            rw [List.cons_append, Run.unfold_start, hel, ho]
            obtain ⟨a, b⟩ := res
            simp only at he h2
            simp [he, h2]
          | inr p =>
            have hm : min p.1 (A'.take n0).length ≤ A'.length := by
              simp
            have hstep : ∀ C, Run.UnmarshalXML env ⟨.StartElement tt :: A' ++ C, final⟩ r =
                Run.UnmarshalXML env
                  ⟨A'.drop (min p.1 (A'.take n0).length) ++ C, final⟩ p.2 := by
              intro C
              rw [List.cons_append, Run.unfold_start, hel, ho]
              simp only
              rw [List.drop_append_of_le_length hm]
            have hcl' : ∃ k, depthAfter k (A'.drop (min p.1 (A'.take n0).length)) = 0 :=
              closing_drop A' _ ⟨k + 1, hk⟩
            have hlen : (A'.drop (min p.1 (A'.take n0).length)).length ≤ n := by
              simp; omega
            rcases ih _ hlen hcl' final p.2 with ⟨e, r', h⟩ | ⟨r', h⟩
            · exact Or.inl ⟨e, r', fun C => by rw [hstep]; exact h C⟩
            · exact Or.inr ⟨r', fun C => by rw [hstep]; exact h C⟩
        | _ => simp [Token.isStart] at hs

theorem Run.onStart_unknown {T D : Type} (env : Env T D) (tt : StartElement) (sub : Decoder)
    (r : Run T D) (h : tt.Name.Local ∉ runTags) :
    Run.onStart env tt sub r =
      match endIdx 0 sub.toks with
      | some n => .inr (n, r)
      | none => .inl (some sub.final, r) := by
  simp only [runTags, List.mem_cons, List.mem_singleton, not_or, List.not_mem_nil,
    or_false] at h
  simp [Run.onStart, h]

/-- An unrecognized element that is closed is skipped whole. -/
theorem Run.unfold_unknown {T D : Type} (env : Env T D) (u : StartElement) (body B : List Token)
    (final : Error) (r : Run T D) (hu : u.Name.Local ∉ runTags)
    (hb : endIdx 0 body = some body.length) :
    Run.UnmarshalXML env ⟨.StartElement u :: body ++ B, final⟩ r =
      Run.UnmarshalXML env ⟨B, final⟩ r := by
  rw [List.cons_append, Run.unfold_start, element_append body B final _ hb,
    Run.onStart_unknown env u _ r hu]
  simp [hb]

/-- How two outcomes of one loop iteration correspond under a relation on
receivers. -/
theorem Run.step_rel {T D : Type} (env : Env T D) (R : Run T D → Run T D → Prop)
    (hRP : ∀ a b v, R a b → R { a with RunProperties := some v } { b with RunProperties := some v })
    (hIT : ∀ a b v, R a b → R { a with InstrText := v } { b with InstrText := v })
    (hCh : ∀ a b c, R a b →
      R { a with Children := a.Children ++ [c] } { b with Children := b.Children ++ [c] })
    (d : Decoder) (r r' : Run T D) (h : R r r') :
    (∃ err, Run.step env d r = .inl (err, r) ∧ Run.step env d r' = .inl (err, r')) ∨
    (∃ d' a b, Run.step env d r = .inr (d', a) ∧ Run.step env d r' = .inr (d', b) ∧ R a b) := by
  obtain ⟨toks, final⟩ := d
  cases toks with
  | nil => cases final <;> exact Or.inl ⟨_, rfl, rfl⟩
  | cons tok rest =>
    cases tok with
    | StartElement tt =>
      simp only [Run.step, Decoder.Token, Decoder.DecodeElement]
      split_ifs
      · exact Or.inl ⟨_, rfl, rfl⟩
      · exact Or.inr ⟨_, _, _, rfl, rfl, hRP _ _ _ h⟩
      · exact Or.inl ⟨_, rfl, rfl⟩
      · exact Or.inr ⟨_, _, _, rfl, rfl, hIT _ _ _ h⟩
      · exact Or.inl ⟨_, rfl, rfl⟩
      · exact Or.inr ⟨_, _, _, rfl, rfl, hCh _ _ _ h⟩
      · exact Or.inl ⟨_, rfl, rfl⟩
      · exact Or.inr ⟨_, _, _, rfl, rfl, hCh _ _ _ h⟩
      · exact Or.inr ⟨_, _, _, rfl, rfl, hCh _ _ _ h⟩
      · cases hs : Decoder.Skip ⟨rest, final⟩ with
        | mk e d' =>
          cases e with
          | none => exact Or.inr ⟨_, _, _, rfl, rfl, h⟩
          | some e => exact Or.inl ⟨_, rfl, rfl⟩
    | _ => exact Or.inr ⟨_, _, _, rfl, rfl, h⟩

/-- Two decodings of the same stream into related receivers return the same
error and related receivers, for every relation the three updates of the loop
preserve. -/
theorem Run.rel {T D : Type} (env : Env T D) (R : Run T D → Run T D → Prop)
    (hRP : ∀ a b v, R a b → R { a with RunProperties := some v } { b with RunProperties := some v })
    (hIT : ∀ a b v, R a b → R { a with InstrText := v } { b with InstrText := v })
    (hCh : ∀ a b c, R a b →
      R { a with Children := a.Children ++ [c] } { b with Children := b.Children ++ [c] }) :
    ∀ (n : Nat) (d : Decoder), d.toks.length ≤ n → ∀ r r', R r r' →
      ∃ err r1 r1', Run.UnmarshalXML env d r = some (err, r1) ∧
        Run.UnmarshalXML env d r' = some (err, r1') ∧ R r1 r1' := by
  intro n
  induction n with
  | zero =>
    intro d hd r r' h
    rcases Run.step_rel env R hRP hIT hCh d r r' h with ⟨err, h1, h2⟩ | ⟨d', a, b, h1, h2, _⟩
    · exact ⟨err, r, r', by rw [Run.unfold, h1], by rw [Run.unfold, h2], h⟩
    · have := Run.step_length env d d' r a h1
      omega
  | succ n ih =>
    intro d hd r r' h
    rcases Run.step_rel env R hRP hIT hCh d r r' h with ⟨err, h1, h2⟩ | ⟨d', a, b, h1, h2, hab⟩
    · exact ⟨err, r, r', by rw [Run.unfold, h1], by rw [Run.unfold, h2], h⟩
    · have hl := Run.step_length env d d' r a h1
      obtain ⟨err, r1, r1', e1, e2, hr⟩ := ih d' (by omega) a b hab
      exact ⟨err, r1, r1', by rw [Run.unfold, h1]; exact e1, by rw [Run.unfold, h2]; exact e2, hr⟩

theorem hasStart_drop (name : String) (toks : List Token) :
    ∀ m, hasStart name toks = false → hasStart name (toks.drop m) = false := by
  induction toks with
  | nil => intro m h; simp [hasStart]
  | cons tok rest ih =>
    intro m h
    cases m with
    | zero => simpa using h
    | succ m =>
      have hr : hasStart name rest = false := by
        cases tok <;> simp_all [hasStart]
      simpa using ih m hr

theorem hasStart_append (name : String) (A B : List Token) :
    hasStart name (A ++ B) = (hasStart name A || hasStart name B) := by
  induction A with
  | nil => simp [hasStart]
  | cons tok rest ih => cases tok <;> simp [hasStart, ih, Bool.or_assoc]

theorem Run.onStart_frame {T D : Type} (env : Env T D) (P : Run T D → Prop)
    (tt : StartElement) (sub : Decoder) (r : Run T D) (p : Nat × Run T D)
    (hRP : tt.Name.Local ≠ "rPr" ∨ ∀ a v, P a → P { a with RunProperties := some v })
    (hIT : tt.Name.Local ≠ "instrText" ∨ ∀ a v, P a → P { a with InstrText := v })
    (hCh : ∀ a c, P a → P { a with Children := a.Children ++ [c] })
    (hr : P r) (h : Run.onStart env tt sub r = .inr p) : P p.2 := by
  simp only [Run.onStart] at h
  split_ifs at h with h1 h2 h3 h4 h5 h6 h7 h8 h9
  · cases h; rcases hRP with hn | hp
    · exact absurd h1 hn
    · exact hp _ _ hr
  · cases h; rcases hIT with hn | hp
    · exact absurd h3 hn
    · exact hp _ _ hr
  · cases h; exact hCh _ _ hr
  · cases h; exact hCh _ _ hr
  · cases h; exact hCh _ _ hr
  · split at h <;> cases h
    exact hr

/-- A property of the receiver that every update the loop can perform on the
stream preserves holds of the result: setting `RunProperties` needs an `rPr`
start element, setting `InstrText` an `instrText` start element. -/
theorem Run.frame {T D : Type} (env : Env T D) (P : Run T D → Prop)
    (hCh : ∀ a c, P a → P { a with Children := a.Children ++ [c] }) :
    ∀ (n : Nat) (toks : List Token), toks.length ≤ n →
      (hasStart "rPr" toks = false ∨ ∀ a v, P a → P { a with RunProperties := some v }) →
      (hasStart "instrText" toks = false ∨ ∀ a v, P a → P { a with InstrText := v }) →
      ∀ (final : Error) (r : Run T D) (res : Option Error × Run T D), P r →
        Run.UnmarshalXML env ⟨toks, final⟩ r = some res → P res.2 := by
  intro n
  induction n with
  | zero =>
    intro toks hl _ _ final r res hr h
    have : toks = [] := List.length_eq_zero.mp (by omega)
    subst this
    rw [Run.unfold_nil] at h
    cases h; exact hr
  | succ n ih =>
    intro toks hl hRP hIT final r res hr h
    cases toks with
    | nil => rw [Run.unfold_nil] at h; cases h; exact hr
    | cons tok rest =>
      have hl' : rest.length ≤ n := by simpa using hl
      by_cases hs : tok.isStart = false
      · rw [Run.unfold_other env tok rest final r hs] at h
        refine ih rest hl' ?_ ?_ final r res hr h
        · rcases hRP with h1 | h1
          · left; cases tok <;> simp_all [hasStart]
          · exact Or.inr h1
        · rcases hIT with h1 | h1
          · left; cases tok <;> simp_all [hasStart]
          · exact Or.inr h1
      · cases tok with
        | StartElement tt =>
          rw [Run.unfold_start] at h
          cases ho : Run.onStart env tt (Decoder.element ⟨rest, final⟩) r with
          | inl res' =>
            rw [ho] at h
            cases h
            rw [(Run.onStart_inl env tt _ r _ ho).2]; exact hr
          | inr p =>
            rw [ho] at h
            have hp : P p.2 := by
              refine Run.onStart_frame env P tt _ r p ?_ ?_ hCh hr ho
              · rcases hRP with h1 | h1
                · left; simp [hasStart] at h1; exact h1.1
                · exact Or.inr h1
              · rcases hIT with h1 | h1
                · left; simp [hasStart] at h1; exact h1.1
                · exact Or.inr h1
            refine ih _ (by simp; omega) ?_ ?_ final p.2 res hp h
            · rcases hRP with h1 | h1
              · left; simp [hasStart] at h1; exact hasStart_drop _ _ _ h1.2
              · exact Or.inr h1
            · rcases hIT with h1 | h1
              · left; simp [hasStart] at h1; exact hasStart_drop _ _ _ h1.2
              · exact Or.inr h1
        | _ => simp [Token.isStart] at hs

/-! ## The loop of `RunProperties.UnmarshalXML` -/

theorem RunProperties.props_loop_succ (fuel : Nat) (d : Decoder) (r : RunProperties) :
    RunProperties.UnmarshalXML.loop (fuel + 1) d r =
      match RunProperties.step d r with
      | .inl res => some res
      | .inr p => RunProperties.UnmarshalXML.loop fuel p.1 p.2 := by
  rw [RunProperties.UnmarshalXML.loop, RunProperties.step]
  split <;> try rfl
  split_ifs <;> try rfl
  split <;> rfl

theorem RunProperties.props_step_length (d d' : Decoder) (r r' : RunProperties)
    (h : RunProperties.step d r = .inr (d', r')) :
    d'.toks.length < d.toks.length ∧ d'.final = d.final := by
  obtain ⟨toks, final⟩ := d
  cases toks with
  | nil => cases final <;> simp [RunProperties.step, Decoder.Token] at h
  | cons tok rest =>
    cases tok with
    | StartElement tt =>
      simp only [RunProperties.step, Decoder.Token, Decoder.Skip] at h
      split_ifs at h
      all_goals first
        | (simp only [Sum.inr.injEq, Prod.mk.injEq] at h
           obtain ⟨rfl, -⟩ := h
           simp)
        | (have hl := skipLoop_length final 0 rest
           split at h
           · simp at h
           · rename_i heq
             simp only [Sum.inr.injEq, Prod.mk.injEq] at h heq
             obtain ⟨rfl, -⟩ := h
             obtain ⟨-, rfl⟩ := heq
             simp; omega)
    | _ =>
      simp only [RunProperties.step, Decoder.Token, Sum.inr.injEq, Prod.mk.injEq] at h
      obtain ⟨rfl, -⟩ := h
      simp

theorem RunProperties.props_loop_fuel :
    ∀ (fuel : Nat) (d : Decoder) (r : RunProperties), d.toks.length < fuel →
      ∀ fuel', d.toks.length < fuel' →
        RunProperties.UnmarshalXML.loop fuel d r = RunProperties.UnmarshalXML.loop fuel' d r ∧
        (RunProperties.UnmarshalXML.loop fuel d r).isSome = true := by
  intro fuel
  induction fuel with
  | zero => intro d r h; omega
  | succ fuel ih =>
    intro d r _ fuel' h'
    cases fuel' with
    | zero => omega
    | succ fuel' =>
      rw [RunProperties.props_loop_succ, RunProperties.props_loop_succ]
      cases hs : RunProperties.step d r with
      | inl res => simp
      | inr p =>
        have hl := RunProperties.props_step_length d p.1 r p.2 hs
        exact ih p.1 p.2 (by omega) fuel' (by omega)

/-- The method `RunProperties.UnmarshalXML` satisfies the recursion of the Go
loop. -/
theorem RunProperties.props_unfold (d : Decoder) (r : RunProperties) :
    RunProperties.UnmarshalXML d r =
      match RunProperties.step d r with
      | .inl res => some res
      | .inr p => RunProperties.UnmarshalXML p.1 p.2 := by
  unfold RunProperties.UnmarshalXML
  rw [RunProperties.props_loop_succ]
  cases hs : RunProperties.step d r with
  | inl res => rfl
  | inr p =>
    have hl := RunProperties.props_step_length d p.1 r p.2 hs
    exact (RunProperties.props_loop_fuel _ p.1 p.2 (by omega) _ (by omega)).1

theorem RunProperties.props_unfold_nil (final : Error) (r : RunProperties) :
    RunProperties.UnmarshalXML ⟨[], final⟩ r =
      some ((if final = Error.EOF then none else some final, r), ⟨[], final⟩) := by
  rw [RunProperties.props_unfold]
  cases final <;> simp [RunProperties.step, Decoder.Token]

theorem RunProperties.props_unfold_other (tok : Token) (rest : List Token) (final : Error)
    (r : RunProperties) (h : tok.isStart = false) :
    RunProperties.UnmarshalXML ⟨tok :: rest, final⟩ r =
      RunProperties.UnmarshalXML ⟨rest, final⟩ r := by
  rw [RunProperties.props_unfold]
  cases tok with
  | StartElement tt => simp [Token.isStart] at h
  | _ => rfl

theorem RunProperties.props_unfold_start (tt : StartElement) (rest : List Token) (final : Error)
    (r : RunProperties) :
    RunProperties.UnmarshalXML ⟨.StartElement tt :: rest, final⟩ r =
      match RunProperties.assign tt r with
      | some r' => RunProperties.UnmarshalXML ⟨rest, final⟩ r'
      | none =>
        match endIdx 0 rest with
        | some n => RunProperties.UnmarshalXML ⟨rest.drop n, final⟩ r
        | none => some ((some final, r), ⟨[], final⟩) := by
  rw [RunProperties.props_unfold]
  simp only [RunProperties.step, Decoder.Token, RunProperties.assign]
  split_ifs <;> try rfl
  simp only [Decoder.Skip, skipLoop_eq]
  cases endIdx 0 rest <;> rfl

theorem depthAfter_take_endIdx (A : List Token) :
    ∀ j n, endIdx j A = some n → depthAfter (j + 1) (A.take n) = 0 := by
  induction A with
  | nil => intro j n h; simp [endIdx] at h
  | cons tok rest ih =>
    intro j n h
    cases tok with
    | EndElement name =>
      cases j with
      | zero => simp [endIdx] at h; subst h; simp [depthAfter]
      | succ j =>
        simp only [endIdx, Option.map_eq_some'] at h
        obtain ⟨m, hm, rfl⟩ := h
        simpa [depthAfter] using ih _ _ hm
    | _ =>
      simp only [endIdx, Option.map_eq_some'] at h
      obtain ⟨m, hm, rfl⟩ := h
      simpa [depthAfter] using ih _ _ hm

theorem directStarts_succ (A : List Token) :
    ∀ k, directStarts (k + 1) A =
      match endIdx k A with
      | some n => directStarts 0 (A.drop n)
      | none => [] := by
  induction A with
  | nil => intro k; simp [directStarts, endIdx]
  | cons tok rest ih =>
    intro k
    cases tok with
    | StartElement tt =>
      simp only [directStarts, endIdx, ih (k + 1)]
      cases endIdx (k + 1) rest <;> simp
    | EndElement name =>
      cases k with
      | zero => simp [directStarts, endIdx]
      | succ k =>
        simp only [directStarts, endIdx, Nat.succ_sub_one]
        rw [ih k]
        cases endIdx k rest <;> simp
    | _ =>
      simp only [directStarts, endIdx, ih k]
      cases endIdx k rest <;> simp

theorem directStarts_one (rest : List Token) :
    directStarts 1 rest = directStarts 0 (dropElement rest) := by
  rw [directStarts_succ, dropElement]
  cases endIdx 0 rest <;> simp [directStarts]

theorem drop_element (rest : List Token) (final : Error) :
    rest.drop (Decoder.element ⟨rest, final⟩).toks.length = dropElement rest := by
  simp only [Decoder.element, dropElement]
  cases h : endIdx 0 rest with
  | none => simp
  | some n =>
    have := endIdx_le rest 0 n h
    simp [Nat.min_eq_left this.2]

theorem dropElement_length_le (rest : List Token) : (dropElement rest).length ≤ rest.length := by
  simp only [dropElement]
  cases endIdx 0 rest <;> simp

theorem element_closing (rest : List Token) (final : Error) (n : Nat)
    (h : endIdx 0 rest = some n) :
    Decoder.element ⟨rest, final⟩ = ⟨rest.take n, Error.EOF⟩ ∧
      depthAfter 1 (rest.take n) = 0 := by
  exact ⟨by simp [Decoder.element, h], depthAfter_take_endIdx rest 0 n h⟩

/-- The method `RunProperties.UnmarshalXML` reads every token of its decoder, and on tokens
that close every element they open, followed by `io.EOF`, it returns `nil`. -/
theorem RunProperties.reads_all :
    ∀ (n : Nat) (toks : List Token), toks.length ≤ n → ∀ (final : Error) (r : RunProperties),
      ∃ err v, RunProperties.UnmarshalXML ⟨toks, final⟩ r = some ((err, v), ⟨[], final⟩) ∧
        (final = Error.EOF → (∃ k, depthAfter k toks = 0) → err = none) := by
  intro n
  induction n with
  | zero =>
    intro toks hl final r
    have : toks = [] := List.length_eq_zero.mp (by omega)
    subst this
    exact ⟨_, r, RunProperties.props_unfold_nil final r, fun h _ => by simp [h]⟩
  | succ n ih =>
    intro toks hl final r
    cases toks with
    | nil => exact ⟨_, r, RunProperties.props_unfold_nil final r, fun h _ => by simp [h]⟩
    | cons tok rest =>
      have hl' : rest.length ≤ n := by simpa using hl
      by_cases hs : tok.isStart = false
      · obtain ⟨err, v, h1, h2⟩ := ih rest hl' final r
        exact ⟨err, v, by rw [RunProperties.props_unfold_other tok rest final r hs]; exact h1,
          fun hf hc => h2 hf (closing_tail tok rest hc)⟩
      · cases tok with
        | StartElement tt =>
          rw [RunProperties.props_unfold_start]
          cases RunProperties.assign tt r with
          | some r' =>
            obtain ⟨err, v, h1, h2⟩ := ih rest hl' final r'
            exact ⟨err, v, h1, fun hf hc => h2 hf (closing_tail _ rest hc)⟩
          | none =>
            cases he : endIdx 0 rest with
            | some m =>
              obtain ⟨err, v, h1, h2⟩ := ih (rest.drop m) (by simp; omega) final r
              exact ⟨err, v, h1, fun hf hc =>
                h2 hf (closing_drop rest m (closing_tail _ rest hc))⟩
            | none =>
              refine ⟨some final, r, rfl, fun _ hc => ?_⟩
              obtain ⟨k, hk⟩ := hc
              simp only [depthAfter] at hk
              obtain ⟨m, hm⟩ := endIdx_of_depthAfter rest 0 k (by rw [← hk]; congr 1; omega)
              rw [he] at hm; cases hm
        | _ => simp [Token.isStart] at hs

theorem decodeRunProperties_spec (tt : StartElement) (sub : Decoder) :
    ∃ err v, decodeRunProperties tt sub = (v, err, sub.toks.length) ∧
      (sub.final = Error.EOF → (∃ k, depthAfter k sub.toks = 0) → err = none) := by
  obtain ⟨toks, final⟩ := sub
  obtain ⟨err, v, h1, h2⟩ := RunProperties.reads_all toks.length toks le_rfl final {}
  exact ⟨err, v, by simp [decodeRunProperties, h1], h2⟩

theorem decodeRunProperties_reads : ReadsElement decodeRunProperties := by
  intro tt rest final
  obtain ⟨err, v, h1, h2⟩ := decodeRunProperties_spec tt (Decoder.element ⟨rest, final⟩)
  rw [h1]
  refine ⟨rfl, fun hc => ?_⟩
  cases he : endIdx 0 rest with
  | none => exact absurd he hc
  | some n =>
    obtain ⟨h3, h4⟩ := element_closing rest final n he
    rw [h3] at h2
    exact h2 rfl ⟨1, h4⟩

theorem decodeString_reads : ReadsElement decodeString := by
  intro tt rest final
  cases he : endIdx 0 rest with
  | none => simp [decodeString, Decoder.element, he]
  | some n =>
    have hn := endIdx_le rest 0 n he
    simp [decodeString, Decoder.element, he, endIdx_take rest 0 n he, Nat.min_eq_left hn.2]

/-- What the loop does with a metadata element (`rPr` or `instrText`) whose
decoder reads the whole element: it returns an error only when the element is
never closed, and otherwise goes on right after the element with the same
Children. -/
theorem Run.meta_step {T D : Type} (env : Env T D) (hr : ReadsElement env.rPr)
    (hi : ReadsElement env.instrText) (tt : StartElement) (rest : List Token) (final : Error)
    (r : Run T D) (hm : tt.Name.Local = "rPr" ∨ tt.Name.Local = "instrText") :
    (∃ e, Run.UnmarshalXML env ⟨.StartElement tt :: rest, final⟩ r = some (some e, r) ∧
      dropElement rest = []) ∨
    (∃ r'', Run.UnmarshalXML env ⟨.StartElement tt :: rest, final⟩ r =
        Run.UnmarshalXML env ⟨dropElement rest, final⟩ r'' ∧ r''.Children = r.Children) := by
  have key : ∀ {α : Type} (dec : ElemDecoder α), ReadsElement dec →
      fatal (dec tt (Decoder.element ⟨rest, final⟩)).2.1 = true → dropElement rest = [] := by
    intro α dec hd hf
    cases he : endIdx 0 rest with
    | none => simp [dropElement, he]
    | some n =>
      have := (hd tt rest final).2 (by simp [he])
      rw [this] at hf
      simp [fatal] at hf
  have hf : ∀ e : Option Error, fatal e = true → ∃ x, e = some x := by
    intro e he; cases e with
    | none => simp [fatal] at he
    | some x => exact ⟨x, rfl⟩
  rw [Run.unfold_start]
  rcases hm with hm | hm
  · by_cases hfat : fatal (env.rPr tt (Decoder.element ⟨rest, final⟩)).2.1 = true
    · obtain ⟨x, hx⟩ := hf _ hfat
      have hfx : fatal (some x) = true := hx ▸ hfat
      exact Or.inl ⟨x, by simp [Run.onStart, hm, hx, hfx], key _ hr hfat⟩
    · let v := (env.rPr tt (Decoder.element ⟨rest, final⟩)).1
      refine Or.inr ⟨{ r with RunProperties := some v }, ?_, rfl⟩
      simp only [Run.onStart, hm, if_true, hfat, if_false, Bool.false_eq_true]
      rw [(hr tt rest final).1, Nat.min_self, drop_element]
  · have hne : tt.Name.Local ≠ "rPr" := by rw [hm]; decide
    by_cases hfat : fatal (env.instrText tt (Decoder.element ⟨rest, final⟩)).2.1 = true
    · obtain ⟨x, hx⟩ := hf _ hfat
      have hfx : fatal (some x) = true := hx ▸ hfat
      exact Or.inl ⟨x, by simp [Run.onStart, hm, hx, hfx], key _ hi hfat⟩
    · let v := (env.instrText tt (Decoder.element ⟨rest, final⟩)).1
      refine Or.inr ⟨{ r with InstrText := v }, ?_, rfl⟩
      simp only [Run.onStart]
      rw [if_neg hne, if_pos hm, if_neg hfat]
      simp only
      rw [(hi tt rest final).1, Nat.min_self, drop_element]

/-- What the loop does with a direct child that satisfies `childOk`: it returns
an error only on an element that is never closed and stands for no content
child, and otherwise goes on right after the element, having appended the
content child the element stands for, if any. -/
theorem Run.child_step {T D : Type} (env : Env T D) (hr : ReadsElement env.rPr)
    (hi : ReadsElement env.instrText) (tt : StartElement) (rest : List Token) (final : Error)
    (r : Run T D) (hok : childOk env final (tt, rest) = true) :
    (∃ e, Run.UnmarshalXML env ⟨.StartElement tt :: rest, final⟩ r = some (some e, r) ∧
      dropElement rest = [] ∧ contentChild env final (tt, rest) = none) ∨
    (∃ r'', Run.UnmarshalXML env ⟨.StartElement tt :: rest, final⟩ r =
        Run.UnmarshalXML env ⟨dropElement rest, final⟩ r'' ∧
      r''.Children = r.Children ++ (contentChild env final (tt, rest)).toList) := by
  by_cases h1 : tt.Name.Local = "rPr"
  · have hc : contentChild env final (tt, rest) = none := by simp [contentChild, h1]
    rcases Run.meta_step env hr hi tt rest final r (Or.inl h1) with ⟨e, h, hd⟩ | ⟨r'', h, hch⟩
    · exact Or.inl ⟨e, h, hd, hc⟩
    · exact Or.inr ⟨r'', h, by simp [hc, hch]⟩
  by_cases h2 : tt.Name.Local = "instrText"
  · have hc : contentChild env final (tt, rest) = none := by simp [contentChild, h2]
    rcases Run.meta_step env hr hi tt rest final r (Or.inr h2) with ⟨e, h, hd⟩ | ⟨r'', h, hch⟩
    · exact Or.inl ⟨e, h, hd, hc⟩
    · exact Or.inr ⟨r'', h, by simp [hc, hch]⟩
  by_cases h3 : tt.Name.Local = "t"
  · simp only [childOk, h3, if_true, decodesExactly, Decoder.DecodeElement, Bool.and_eq_true,
      decide_eq_true_eq, Decoder.mk.injEq, and_true] at hok
    refine Or.inr ⟨{ r with Children := r.Children ++
      [Child.text (env.t tt (Decoder.element ⟨rest, final⟩)).1] }, ?_, ?_⟩
    · rw [Run.unfold_start]
      simp only [Run.onStart]
      rw [if_neg h1, if_neg h2, if_pos h3, hok.1]
      simp only [fatal, Bool.false_eq_true, if_false]
      rw [hok.2]
    · simp [contentChild, h3, Decoder.DecodeElement]
  by_cases h4 : tt.Name.Local = "drawing"
  · replace hok : decodesExactly env.drawing tt rest final = true := by
      simpa [childOk, h3, h4] using hok
    simp only [decodesExactly, Decoder.DecodeElement,
      Bool.and_eq_true, decide_eq_true_eq, Decoder.mk.injEq, and_true] at hok
    refine Or.inr ⟨{ r with Children := r.Children ++
      [Child.drawing (env.drawing tt (Decoder.element ⟨rest, final⟩)).1] }, ?_, ?_⟩
    · rw [Run.unfold_start]
      simp only [Run.onStart]
      rw [if_neg h1, if_neg h2, if_neg h3, if_pos h4, hok.1]
      simp only [fatal, Bool.false_eq_true, if_false]
      rw [hok.2]
    · simp [contentChild, h3, h4, Decoder.DecodeElement]
  by_cases h5 : tt.Name.Local = "tab"
  · replace hok : startsWithEnd rest = true := by
      simpa [childOk, h3, h4, h5] using hok
    cases rest with
    | nil => simp [startsWithEnd] at hok
    | cons tok rest' =>
      cases tok with
      | EndElement name =>
        refine Or.inr ⟨{ r with Children := r.Children ++ [Child.tab {}] }, ?_, ?_⟩
        · rw [Run.unfold_start]
          simp only [Run.onStart]
          rw [if_neg h1, if_neg h2, if_neg h3, if_neg h4, if_pos h5]
          simp only [Nat.zero_min, List.drop_zero]
          rw [Run.unfold_other env (.EndElement name) rest' final _ rfl]
          simp [dropElement, endIdx]
        · simp [contentChild, h3, h4, h5]
      | _ => simp [startsWithEnd] at hok
  · have hu : tt.Name.Local ∉ runTags := by simp [runTags, h1, h2, h3, h4, h5]
    have hc : contentChild env final (tt, rest) = none := by simp [contentChild, h3, h4, h5]
    rw [Run.unfold_start, Run.onStart_unknown env tt _ r hu]
    cases he : endIdx 0 rest with
    | none =>
      exact Or.inl ⟨final, by simp [Decoder.element, he], by simp [dropElement, he], hc⟩
    | some n =>
      have hn := endIdx_le rest 0 n he
      refine Or.inr ⟨r, ?_, by simp [hc]⟩
      simp [Decoder.element, he, endIdx_take rest 0 n he, dropElement, Nat.min_eq_left hn.2]

/-- The Children after decoding are the Children before followed by one content
child per direct child element named `t`, `drawing` or `tab`, provided every
such direct child satisfies `childOk` and the metadata decoders read their
element whole. -/
theorem Run.children_eq {T D : Type} (env : Env T D) (hr : ReadsElement env.rPr)
    (hi : ReadsElement env.instrText) :
    ∀ (n : Nat) (toks : List Token), toks.length ≤ n → ∀ (final : Error) (r : Run T D),
      (directStarts 0 toks).all (childOk env final) = true →
      ∃ err r', Run.UnmarshalXML env ⟨toks, final⟩ r = some (err, r') ∧
        r'.Children = r.Children ++ contentChildren env final toks := by
  intro n
  induction n with
  | zero =>
    intro toks hl final r _
    have : toks = [] := List.length_eq_zero.mp (by omega)
    subst this
    exact ⟨_, r, Run.unfold_nil env final r, by simp [contentChildren, directStarts]⟩
  | succ n ih =>
    intro toks hl final r hok
    cases toks with
    | nil => exact ⟨_, r, Run.unfold_nil env final r, by simp [contentChildren, directStarts]⟩
    | cons tok rest =>
      have hl' : rest.length ≤ n := by simpa using hl
      by_cases hs : tok.isStart = false
      · have hd : directStarts 0 (tok :: rest) = directStarts 0 rest := by
          cases tok <;> simp_all [directStarts, Token.isStart]
        rw [hd] at hok
        obtain ⟨err, r', h1, h2⟩ := ih rest hl' final r hok
        exact ⟨err, r', by rw [Run.unfold_other env tok rest final r hs]; exact h1,
          by rw [h2, contentChildren, contentChildren, hd]⟩
      · cases tok with
        | StartElement tt =>
          have hd : directStarts 0 (.StartElement tt :: rest) =
              (tt, rest) :: directStarts 0 (dropElement rest) := by
            simp [directStarts, directStarts_one]
          rw [hd, List.all_cons, Bool.and_eq_true] at hok
          rcases Run.child_step env hr hi tt rest final r hok.1 with
            ⟨e, h, hdrop, hc⟩ | ⟨r'', h, hch⟩
          · refine ⟨some e, r, h, ?_⟩
            rw [contentChildren, hd, hdrop]
            simp [hc, directStarts]
          · obtain ⟨err, r', h1, h2⟩ := ih (dropElement rest)
              (le_trans (dropElement_length_le rest) hl') final r'' hok.2
            refine ⟨err, r', by rw [h]; exact h1, ?_⟩
            rw [h2, hch, contentChildren, contentChildren, hd, List.filterMap_cons]
            cases contentChild env final (tt, rest) <;> simp
        | _ => simp [Token.isStart] at hs

theorem Run.onStart_rel {T D : Type} (env : Env T D) (R : Run T D → Run T D → Prop)
    (hRP : ∀ a b v, R a b → R { a with RunProperties := some v } { b with RunProperties := some v })
    (hIT : ∀ a b v, R a b → R { a with InstrText := v } { b with InstrText := v })
    (hCh : ∀ a b c, R a b →
      R { a with Children := a.Children ++ [c] } { b with Children := b.Children ++ [c] })
    (tt : StartElement) (sub : Decoder) (r r' : Run T D) (h : R r r') :
    (∃ e, Run.onStart env tt sub r = .inl (some e, r) ∧
      Run.onStart env tt sub r' = .inl (some e, r')) ∨
    (∃ m a b, Run.onStart env tt sub r = .inr (m, a) ∧ Run.onStart env tt sub r' = .inr (m, b) ∧
      R a b) := by
  have hf : ∀ e : Option Error, fatal e = true → ∃ x, e = some x := by
    intro e he; cases e with
    | none => simp [fatal] at he
    | some x => exact ⟨x, rfl⟩
  simp only [Run.onStart]
  split_ifs with h1 h2 h3 h4 h5 h6 h7 h8 h9
  · obtain ⟨x, hx⟩ := hf _ h2; rw [hx]; exact Or.inl ⟨x, rfl, rfl⟩
  · exact Or.inr ⟨_, _, _, rfl, rfl, hRP _ _ _ h⟩
  · obtain ⟨x, hx⟩ := hf _ h4; rw [hx]; exact Or.inl ⟨x, rfl, rfl⟩
  · exact Or.inr ⟨_, _, _, rfl, rfl, hIT _ _ _ h⟩
  · obtain ⟨x, hx⟩ := hf _ h6; rw [hx]; exact Or.inl ⟨x, rfl, rfl⟩
  · exact Or.inr ⟨_, _, _, rfl, rfl, hCh _ _ _ h⟩
  · obtain ⟨x, hx⟩ := hf _ h8; rw [hx]; exact Or.inl ⟨x, rfl, rfl⟩
  · exact Or.inr ⟨_, _, _, rfl, rfl, hCh _ _ _ h⟩
  · exact Or.inr ⟨_, _, _, rfl, rfl, hCh _ _ _ h⟩
  · cases endIdx 0 sub.toks with
    | none => exact Or.inl ⟨_, rfl, rfl⟩
    | some n => exact Or.inr ⟨_, _, _, rfl, rfl, h⟩

/-- Two decodings into related receivers run through a stretch of tokens that
closes every element it opens in step: either both return the same error
inside the stretch, or both arrive at its end with related receivers. -/
theorem Run.through_rel {T D : Type} (env : Env T D) (R : Run T D → Run T D → Prop)
    (hRP : ∀ a b v, R a b → R { a with RunProperties := some v } { b with RunProperties := some v })
    (hIT : ∀ a b v, R a b → R { a with InstrText := v } { b with InstrText := v })
    (hCh : ∀ a b c, R a b →
      R { a with Children := a.Children ++ [c] } { b with Children := b.Children ++ [c] }) :
    ∀ (n : Nat) (A : List Token), A.length ≤ n → (∃ k, depthAfter k A = 0) →
      ∀ (final : Error) (r r' : Run T D), R r r' →
        (∃ e a b, R a b ∧ ∀ C, Run.UnmarshalXML env ⟨A ++ C, final⟩ r = some (some e, a) ∧
          Run.UnmarshalXML env ⟨A ++ C, final⟩ r' = some (some e, b)) ∨
        (∃ a b, R a b ∧ ∀ C, Run.UnmarshalXML env ⟨A ++ C, final⟩ r =
            Run.UnmarshalXML env ⟨C, final⟩ a ∧
          Run.UnmarshalXML env ⟨A ++ C, final⟩ r' = Run.UnmarshalXML env ⟨C, final⟩ b) := by
  intro n
  induction n with
  | zero =>
    intro A hA _ final r r' h
    have : A = [] := List.length_eq_zero.mp (by omega)
    subst this
    exact Or.inr ⟨r, r', h, fun C => ⟨rfl, rfl⟩⟩
  | succ n ih =>
    intro A hA hcl final r r' h
    cases A with
    | nil => exact Or.inr ⟨r, r', h, fun C => ⟨rfl, rfl⟩⟩
    | cons tok A' =>
      have hA' : A'.length ≤ n := by simpa using hA
      by_cases hs : tok.isStart = false
      · rcases ih A' hA' (closing_tail tok A' hcl) final r r' h with
          ⟨e, a, b, hab, hC⟩ | ⟨a, b, hab, hC⟩
        · exact Or.inl ⟨e, a, b, hab, fun C => by
            rw [List.cons_append, Run.unfold_other env tok _ final r hs,
              Run.unfold_other env tok _ final r' hs]; exact hC C⟩
        · exact Or.inr ⟨a, b, hab, fun C => by
            rw [List.cons_append, Run.unfold_other env tok _ final r hs,
              Run.unfold_other env tok _ final r' hs]; exact hC C⟩
      · cases tok with
        | StartElement tt =>
          obtain ⟨k, hk⟩ := hcl
          simp only [depthAfter] at hk
          obtain ⟨n0, hn0⟩ := endIdx_of_depthAfter A' 0 k (by rw [← hk]; congr 1; omega)
          have hle := endIdx_le A' 0 n0 hn0
          have hel : ∀ C, Decoder.element ⟨A' ++ C, final⟩ = ⟨A'.take n0, Error.EOF⟩ :=
            fun C => element_append A' C final n0 hn0
          rcases Run.onStart_rel env R hRP hIT hCh tt ⟨A'.take n0, Error.EOF⟩ r r' h with
            ⟨e, h1, h2⟩ | ⟨m, a, b, h1, h2, hab⟩
          · refine Or.inl ⟨e, r, r', h, fun C => ?_⟩
            rw [List.cons_append, Run.unfold_start, Run.unfold_start, hel, h1, h2]
            exact ⟨rfl, rfl⟩
          · have hm : min m (A'.take n0).length ≤ A'.length := by simp
            have hstep : ∀ C,
                Run.UnmarshalXML env ⟨.StartElement tt :: A' ++ C, final⟩ r =
                  Run.UnmarshalXML env ⟨A'.drop (min m (A'.take n0).length) ++ C, final⟩ a ∧
                Run.UnmarshalXML env ⟨.StartElement tt :: A' ++ C, final⟩ r' =
                  Run.UnmarshalXML env ⟨A'.drop (min m (A'.take n0).length) ++ C, final⟩ b := by
              intro C
              rw [List.cons_append, Run.unfold_start, Run.unfold_start, hel, h1, h2]
              simp only
              rw [List.drop_append_of_le_length hm]
              exact ⟨rfl, rfl⟩
            have hcl' : ∃ k, depthAfter k (A'.drop (min m (A'.take n0).length)) = 0 :=
              closing_drop A' _ ⟨k + 1, hk⟩
            have hlen : (A'.drop (min m (A'.take n0).length)).length ≤ n := by
              simp; omega
            rcases ih _ hlen hcl' final a b hab with ⟨e, a', b', hab', hC⟩ | ⟨a', b', hab', hC⟩
            · exact Or.inl ⟨e, a', b', hab', fun C => by
                rw [(hstep C).1, (hstep C).2]; exact hC C⟩
            · exact Or.inr ⟨a', b', hab', fun C => by
                rw [(hstep C).1, (hstep C).2]; exact hC C⟩
        | _ => simp [Token.isStart] at hs

theorem removeMeta_some (A : List Token) :
    ∀ k j, removeMeta k (some j) A =
      match endIdx j A with
      | some n => removeMeta k none (A.drop n)
      | none => [] := by
  induction A with
  | nil => intro k j; simp [removeMeta, endIdx]
  | cons tok rest ih =>
    intro k j
    cases tok with
    | StartElement tt =>
      simp only [removeMeta, endIdx]
      rw [ih k (j + 1)]
      cases endIdx (j + 1) rest <;> simp
    | EndElement name =>
      cases j with
      | zero => simp [removeMeta, endIdx]
      | succ j =>
        simp only [removeMeta, endIdx]
        rw [ih k j]
        cases endIdx j rest <;> simp
    | _ =>
      simp only [removeMeta, endIdx]
      rw [ih k j]
      cases endIdx j rest <;> simp

theorem removeMeta_none (A : List Token) :
    ∀ k, removeMeta (k + 1) none A =
      match endIdx k A with
      | some n => A.take n ++ removeMeta 0 none (A.drop n)
      | none => A := by
  induction A with
  | nil => intro k; simp [removeMeta, endIdx]
  | cons tok rest ih =>
    intro k
    cases tok with
    | StartElement tt =>
      simp only [removeMeta, endIdx]
      rw [ih (k + 1)]
      cases endIdx (k + 1) rest <;> simp
    | EndElement name =>
      cases k with
      | zero => simp [removeMeta, endIdx]
      | succ k =>
        simp only [removeMeta, endIdx, Nat.succ_sub_one]
        rw [ih k]
        cases endIdx k rest <;> simp
    | _ =>
      simp only [removeMeta, endIdx]
      rw [ih k]
      cases endIdx k rest <;> simp

theorem removeMeta_other (tok : Token) (rest : List Token) (h : tok.isStart = false) :
    removeMeta 0 none (tok :: rest) = tok :: removeMeta 0 none rest := by
  cases tok with
  | StartElement tt => simp [Token.isStart] at h
  | _ => simp [removeMeta]

/-- Removing the `rPr` and `instrText` elements that are direct children leaves
the Children unchanged, when the metadata decoders read their element whole. -/
theorem Run.children_removeMeta {T D : Type} (env : Env T D) (hr : ReadsElement env.rPr)
    (hi : ReadsElement env.instrText) :
    ∀ (n : Nat) (toks : List Token), toks.length ≤ n → ∀ (final : Error) (r r' : Run T D),
      r.Children = r'.Children →
      ∃ e1 r1 e2 r2, Run.UnmarshalXML env ⟨toks, final⟩ r = some (e1, r1) ∧
        Run.UnmarshalXML env ⟨removeMeta 0 none toks, final⟩ r' = some (e2, r2) ∧
        r1.Children = r2.Children := by
  have hR1 : ∀ (a b : Run T D) (v : Docx.RunProperties), a.Children = b.Children →
      ({ a with RunProperties := some v } : Run T D).Children =
        ({ b with RunProperties := some v } : Run T D).Children := fun a b v hab => hab
  have hR2 : ∀ (a b : Run T D) (v : String), a.Children = b.Children →
      ({ a with InstrText := v } : Run T D).Children =
        ({ b with InstrText := v } : Run T D).Children := fun a b v hab => hab
  have hR3 : ∀ (a b : Run T D) (c : Child T D), a.Children = b.Children →
      ({ a with Children := a.Children ++ [c] } : Run T D).Children =
        ({ b with Children := b.Children ++ [c] } : Run T D).Children :=
    fun a b c hab => by simp only; rw [hab]
  intro n
  induction n with
  | zero =>
    intro toks hl final r r' h
    have : toks = [] := List.length_eq_zero.mp (by omega)
    subst this
    exact ⟨_, r, _, r', Run.unfold_nil env final r, Run.unfold_nil env final r', h⟩
  | succ n ih =>
    intro toks hl final r r' h
    cases toks with
    | nil => exact ⟨_, r, _, r', Run.unfold_nil env final r, Run.unfold_nil env final r', h⟩
    | cons tok rest =>
      have hl' : rest.length ≤ n := by simpa using hl
      by_cases hs : tok.isStart = false
      · obtain ⟨e1, r1, e2, r2, h1, h2, h3⟩ := ih rest hl' final r r' h
        refine ⟨e1, r1, e2, r2, ?_, ?_, h3⟩
        · rw [Run.unfold_other env tok rest final r hs]; exact h1
        · rw [removeMeta_other tok rest hs, Run.unfold_other env tok _ final r' hs]; exact h2
      · cases tok with
        | StartElement tt =>
          by_cases hm : isMeta tt = true
          · have hrm : removeMeta 0 none (.StartElement tt :: rest) =
                removeMeta 0 none (dropElement rest) := by
              simp only [removeMeta, hm, if_true]
              rw [removeMeta_some, dropElement]
              cases endIdx 0 rest <;> simp [removeMeta]
            have hm' : tt.Name.Local = "rPr" ∨ tt.Name.Local = "instrText" := by
              simpa [isMeta] using hm
            rw [hrm]
            rcases Run.meta_step env hr hi tt rest final r hm' with ⟨e, h1, hd⟩ | ⟨r'', h1, hch⟩
            · rw [hd]
              exact ⟨some e, r, _, r', h1, Run.unfold_nil env final r', h⟩
            · obtain ⟨e1, r1, e2, r2, g1, g2, g3⟩ := ih (dropElement rest)
                (le_trans (dropElement_length_le rest) hl') final r'' r' (hch.trans h)
              exact ⟨e1, r1, e2, r2, by rw [h1]; exact g1, g2, g3⟩
          · cases he : endIdx 0 rest with
            | none =>
              have hrm : removeMeta 0 none (.StartElement tt :: rest) =
                  .StartElement tt :: rest := by
                simp only [removeMeta, hm, if_false, Bool.false_eq_true]
                rw [removeMeta_none, he]
              rw [hrm]
              obtain ⟨err, a, b, g1, g2, g3⟩ := Run.rel env (fun a b => a.Children = b.Children)
                hR1 hR2 hR3 _ ⟨.StartElement tt :: rest, final⟩ le_rfl r r' h
              exact ⟨err, a, err, b, g1, g2, g3⟩
            | some m =>
              have hm2 := endIdx_le rest 0 m he
              have hrm : removeMeta 0 none (.StartElement tt :: rest) =
                  (.StartElement tt :: rest.take m) ++ removeMeta 0 none (rest.drop m) := by
                simp only [removeMeta, hm, if_false, Bool.false_eq_true]
                rw [removeMeta_none, he]
                simp
              have hsplit : .StartElement tt :: rest =
                  (.StartElement tt :: rest.take m) ++ rest.drop m := by simp
              have hcl : ∃ k, depthAfter k (.StartElement tt :: rest.take m) = 0 :=
                ⟨0, by simpa [depthAfter] using depthAfter_take_endIdx rest 0 m he⟩
              rw [hrm]
              rcases Run.through_rel env (fun a b => a.Children = b.Children) hR1 hR2 hR3 _
                  (.StartElement tt :: rest.take m) le_rfl hcl final r r' h with
                ⟨e, a, b, hab, hC⟩ | ⟨a, b, hab, hC⟩
              · refine ⟨some e, a, some e, b, ?_, (hC _).2, hab⟩
                rw [hsplit]; exact (hC _).1
              · obtain ⟨e1, r1, e2, r2, g1, g2, g3⟩ := ih (rest.drop m) (by simp; omega)
                  final a b hab
                refine ⟨e1, r1, e2, r2, ?_, ?_, g3⟩
                · rw [hsplit, (hC _).1]; exact g1
                · rw [(hC _).2]; exact g2
        | _ => simp [Token.isStart] at hs

/-- A stream of closed unrecognized subtrees and non-element tokens, followed by
`io.EOF`, leaves the receiver as it was and returns `nil`. -/
theorem Run.unchanged {T D : Type} (env : Env T D) :
    ∀ (n : Nat) (toks : List Token), toks.length ≤ n → depthAfter 0 toks = 0 →
      noRunTags toks = true → ∀ r : Run T D,
        Run.UnmarshalXML env ⟨toks, Error.EOF⟩ r = some (none, r) := by
  intro n
  induction n with
  | zero =>
    intro toks hl _ _ r
    have : toks = [] := List.length_eq_zero.mp (by omega)
    subst this
    rw [Run.unfold_nil]; simp
  | succ n ih =>
    intro toks hl hd hn r
    cases toks with
    | nil => rw [Run.unfold_nil]; simp
    | cons tok rest =>
      have hl' : rest.length ≤ n := by simpa using hl
      by_cases hs : tok.isStart = false
      · rw [Run.unfold_other env tok rest _ r hs]
        have h1 : depthAfter 0 (tok :: rest) = depthAfter 0 rest := by
          cases tok <;> simp_all [depthAfter, Token.isStart]
        have h2 : directStarts 0 (tok :: rest) = directStarts 0 rest := by
          cases tok <;> simp_all [directStarts, Token.isStart]
        refine ih rest hl' (h1 ▸ hd) ?_ r
        simpa [noRunTags, h2] using hn
      · cases tok with
        | StartElement tt =>
          simp only [depthAfter] at hd
          obtain ⟨m, hm⟩ := endIdx_of_depthAfter rest 0 0 hd
          have hle := endIdx_le rest 0 m hm
          simp only [noRunTags, directStarts, List.all_cons, Bool.and_eq_true,
            decide_eq_true_eq] at hn
          rw [Run.unfold_start, Run.onStart_unknown env tt _ r hn.1]
          have hdrop : depthAfter 0 (rest.drop m) = 0 := by
            have h1 := depthAfter_append (rest.take m) (rest.drop m) 1
            rw [List.take_append_drop, hd, depthAfter_take_endIdx rest 0 m hm] at h1
            exact h1.symm
          have hn2 : noRunTags (rest.drop m) = true := by
            have := hn.2
            rw [directStarts_one, dropElement, hm] at this
            exact this
          simp only [Decoder.element, hm, endIdx_take rest 0 m hm, List.length_take,
            Nat.min_eq_left hle.2, Nat.min_self]
          exact ih (rest.drop m) (by simp; omega) hdrop hn2 r
        | _ => simp [Token.isStart] at hs

theorem lastStart_of_count_zero (name : String) (toks : List Token) :
    countStart name toks = 0 → lastStart name toks = none := by
  induction toks with
  | nil => intro _; rfl
  | cons tok rest ih =>
    intro h
    cases tok with
    | StartElement tt =>
      simp only [countStart, Nat.add_eq_zero] at h
      have h1 : ¬ tt.Name.Local = name := by
        intro hc; simp [hc] at h
      simp [lastStart, ih h.2, h1]
    | _ => simpa [lastStart] using ih (by simpa [countStart] using h)

theorem lastStart_eq_findStart (name : String) (toks : List Token) :
    countStart name toks ≤ 1 → lastStart name toks = findStart name toks := by
  induction toks with
  | nil => intro _; rfl
  | cons tok rest ih =>
    intro h
    cases tok with
    | StartElement tt =>
      simp only [countStart] at h
      by_cases h1 : tt.Name.Local = name
      · have h0 : countStart name rest = 0 := by simp [h1] at h; omega
        simp [lastStart, findStart, h1, lastStart_of_count_zero name rest h0]
      · have h0 : countStart name rest ≤ 1 := by simp [h1] at h; omega
        rw [lastStart, findStart, ih h0, if_neg h1, if_neg h1]
        cases findStart name rest <;> rfl
    | _ => simpa [lastStart, findStart, countStart] using ih (by simpa [countStart] using h)

/-- On a stream of empty elements read to `io.EOF`, `RunProperties.UnmarshalXML`
returns `nil`, and each field holds the `val` of the last start element with its
tag, or what it held before when there is none. -/
theorem RunProperties.fields :
    ∀ (n : Nat) (toks : List Token), toks.length ≤ n → emptyElems toks = true →
      ∀ r : RunProperties, ∃ r',
        RunProperties.UnmarshalXML ⟨toks, Error.EOF⟩ r = some ((none, r'), ⟨[], Error.EOF⟩) ∧
        r'.XMLName = r.XMLName ∧
        r'.Color = (match lastStart "color" toks with
          | some tt => some { Val := getAtt tt.Attr "val" }
          | none => r.Color) ∧
        r'.Size = (match lastStart "sz" toks with
          | some tt => some { Val := getAtt tt.Attr "val" }
          | none => r.Size) ∧
        r'.RunStyle = (match lastStart "rStyle" toks with
          | some tt => some { Val := getAtt tt.Attr "val" }
          | none => r.RunStyle) ∧
        r'.Style = (match lastStart "pStyle" toks with
          | some tt => some { Val := getAtt tt.Attr "val" }
          | none => r.Style) := by
  intro n
  induction n using Nat.strong_induction_on with
  | _ n ih =>
    intro toks hl he r
    cases toks with
    | nil => exact ⟨r, by rw [RunProperties.props_unfold_nil]; simp, rfl, rfl, rfl, rfl, rfl⟩
    | cons tok rest =>
      by_cases hs : tok.isStart = false
      · have he' : emptyElems rest = true := by
          cases tok <;> simp_all [emptyElems, Token.isStart]
        have hls : ∀ name, lastStart name (tok :: rest) = lastStart name rest := by
          intro name; cases tok <;> simp_all [lastStart, Token.isStart]
        obtain ⟨r', h1, h2⟩ := ih (n - 1) (by simp at hl; omega) rest (by simp at hl; omega) he' r
        refine ⟨r', by rw [RunProperties.props_unfold_other tok rest _ r hs]; exact h1, ?_⟩
        simpa [hls] using h2
      · cases tok with
        | StartElement tt =>
          cases rest with
          | nil => simp [emptyElems] at he
          | cons tok2 rest2 =>
            cases tok2 with
            | EndElement name2 =>
              have he' : emptyElems rest2 = true := by simpa [emptyElems] using he
              have hnext : RunProperties.UnmarshalXML
                    ⟨.StartElement tt :: .EndElement name2 :: rest2, Error.EOF⟩ r =
                  RunProperties.UnmarshalXML ⟨rest2, Error.EOF⟩
                    ((RunProperties.assign tt r).getD r) := by
                rw [RunProperties.props_unfold_start]
                cases RunProperties.assign tt r with
                | some r1 =>
                  exact RunProperties.props_unfold_other (.EndElement name2) rest2 _ r1 rfl
                | none => simp [endIdx]
              obtain ⟨r', h1, h2, h3, h4, h5, h6⟩ := ih (n - 2) (by simp at hl; omega) rest2
                (by simp at hl; omega) he' ((RunProperties.assign tt r).getD r)
              refine ⟨r', by rw [hnext]; exact h1, ?_, ?_, ?_, ?_, ?_⟩
              · rw [h2]; simp only [RunProperties.assign]; split_ifs <;> rfl
              · rw [h3]; simp only [lastStart]
                cases lastStart "color" rest2 with
                | some x => rfl
                | none =>
                  simp only [RunProperties.assign]
                  split_ifs <;> simp_all
              · rw [h4]; simp only [lastStart]
                cases lastStart "sz" rest2 with
                | some x => rfl
                | none =>
                  simp only [RunProperties.assign]
                  split_ifs <;> simp_all
              · rw [h5]; simp only [lastStart]
                cases lastStart "rStyle" rest2 with
                | some x => rfl
                | none =>
                  simp only [RunProperties.assign]
                  split_ifs <;> simp_all
              · rw [h6]; simp only [lastStart]
                cases lastStart "pStyle" rest2 with
                | some x => rfl
                | none =>
                  simp only [RunProperties.assign]
                  split_ifs <;> simp_all
            | _ => simp [emptyElems] at he
        | _ => simp [Token.isStart] at hs

/-- One iteration returns exactly the first failure among its decoder calls,
returns `nil` only when there is none, and goes on only when there is none. -/
theorem Run.step_failure {T D : Type} (env : Env T D) (d : Decoder) (r : Run T D) :
    match Run.step env d r with
    | .inl res => (Run.stepOps env d).findSome? Op.failure = res.1
    | .inr _ => (Run.stepOps env d).findSome? Op.failure = none := by
  obtain ⟨toks, final⟩ := d
  cases toks with
  | nil => cases final <;> simp [Run.step, Run.stepOps, Decoder.Token, Op.failure]
  | cons tok rest =>
    cases tok with
    | StartElement tt =>
      simp only [Run.step, Run.stepOps, Decoder.Token]
      split_ifs with h1 h2 h3 h4 h5 h6 h7 h8 h9
      · generalize (Decoder.DecodeElement env.rPr tt ⟨rest, final⟩).1.2 = e at h2 ⊢
        cases e <;> simp_all [fatal, Op.failure]
      · generalize (Decoder.DecodeElement env.rPr tt ⟨rest, final⟩).1.2 = e at h2 ⊢
        cases e <;> simp_all [fatal, Op.failure]
      · generalize (Decoder.DecodeElement env.instrText tt ⟨rest, final⟩).1.2 = e at h4 ⊢
        cases e <;> simp_all [fatal, Op.failure]
      · generalize (Decoder.DecodeElement env.instrText tt ⟨rest, final⟩).1.2 = e at h4 ⊢
        cases e <;> simp_all [fatal, Op.failure]
      · generalize (Decoder.DecodeElement env.t tt ⟨rest, final⟩).1.2 = e at h6 ⊢
        cases e <;> simp_all [fatal, Op.failure]
      · generalize (Decoder.DecodeElement env.t tt ⟨rest, final⟩).1.2 = e at h6 ⊢
        cases e <;> simp_all [fatal, Op.failure]
      · generalize (Decoder.DecodeElement env.drawing tt ⟨rest, final⟩).1.2 = e at h8 ⊢
        cases e <;> simp_all [fatal, Op.failure]
      · generalize (Decoder.DecodeElement env.drawing tt ⟨rest, final⟩).1.2 = e at h8 ⊢
        cases e <;> simp_all [fatal, Op.failure]
      · simp [Op.failure]
      · cases hs : Decoder.Skip ⟨rest, final⟩ with
        | mk e d' =>
          cases e with
          | none => simp [Op.failure]
          | some e => simp [Op.failure]
    | _ => simp [Run.step, Run.stepOps, Decoder.Token, Op.failure]

theorem Run.loop_failure {T D : Type} (env : Env T D) :
    ∀ (fuel : Nat) (d : Decoder) (r : Run T D), d.toks.length < fuel →
      ∃ r', Run.UnmarshalXML.loop env fuel d r =
        some ((Run.opsLoop env fuel d r).findSome? Op.failure, r') := by
  intro fuel
  induction fuel with
  | zero => intro d r h; omega
  | succ fuel ih =>
    intro d r _
    rw [Run.loop_succ, Run.opsLoop]
    have hsf := Run.step_failure env d r
    cases hs : Run.step env d r with
    | inl res =>
      rw [hs] at hsf
      simp only at hsf ⊢
      exact ⟨res.2, by rw [hsf]⟩
    | inr p =>
      rw [hs] at hsf
      simp only at hsf ⊢
      have hl := Run.step_length env d p.1 r p.2 hs
      obtain ⟨r', hr'⟩ := ih p.1 p.2 (by omega)
      exact ⟨r', by rw [hr', List.findSome?_append, hsf]; rfl⟩

/-- The iteration that returns `nil` is the one in which `Token` reports
`io.EOF`. -/
theorem Run.step_nil {T D : Type} (env : Env T D) (d : Decoder) (r r' : Run T D)
    (h : Run.step env d r = .inl (none, r')) : d.toks = [] ∧ d.final = Error.EOF := by
  obtain ⟨toks, final⟩ := d
  cases toks with
  | nil => cases final <;> simp_all [Run.step, Decoder.Token]
  | cons tok rest =>
    cases tok with
    | StartElement tt =>
      rw [Run.step_start] at h
      cases ho : Run.onStart env tt (Decoder.element ⟨rest, final⟩) r with
      | inl res =>
        rw [ho] at h
        have := (Run.onStart_inl env tt _ r res ho).1
        simp only [Sum.inl.injEq] at h
        rw [h] at this
        simp at this
      | inr p => rw [ho] at h; simp at h
    | _ => simp [Run.step, Decoder.Token] at h

/-- The method returns `nil` only on a decoder whose `Token` ends in `io.EOF`. -/
theorem Run.nil_final {T D : Type} (env : Env T D) :
    ∀ (n : Nat) (d : Decoder), d.toks.length ≤ n → ∀ r r' : Run T D,
      Run.UnmarshalXML env d r = some (none, r') → d.final = Error.EOF := by
  intro n
  induction n with
  | zero =>
    intro d hl r r' h
    rw [Run.unfold] at h
    cases hs : Run.step env d r with
    | inl res =>
      rw [hs] at h
      simp only [Option.some.injEq] at h
      exact (Run.step_nil env d r r' (by rw [hs, h])).2
    | inr p =>
      have := Run.step_length env d p.1 r p.2 hs
      omega
  | succ n ih =>
    intro d hl r r' h
    rw [Run.unfold] at h
    cases hs : Run.step env d r with
    | inl res =>
      rw [hs] at h
      simp only [Option.some.injEq] at h
      exact (Run.step_nil env d r r' (by rw [hs, h])).2
    | inr p =>
      rw [hs] at h
      have hl' := Run.step_length env d p.1 r p.2 hs
      rw [← hl'.2]
      exact ih p.1 (by omega) p.2 r' h

theorem getAtt_absent (name : String) (atts : List Attr) :
    (∀ a ∈ atts, a.Name.Local ≠ name) → getAtt atts name = "" := by
  induction atts with
  | nil => intro _; rfl
  | cons a rest ih =>
    intro h
    have h1 : a.Name.Local ≠ name := h a (List.mem_cons_self _ _)
    rw [getAtt, if_neg h1]
    exact ih (fun b hb => h b (List.mem_cons_of_mem _ hb))

/-- One iteration of the properties loop returns exactly the first failure
among its decoder calls, and goes on only when there is none. -/
theorem RunProperties.props_step_failure (d : Decoder) (r : RunProperties) :
    match RunProperties.step d r with
    | .inl res => (RunProperties.stepOps d).findSome? Op.failure = res.1.1
    | .inr _ => (RunProperties.stepOps d).findSome? Op.failure = none := by
  obtain ⟨toks, final⟩ := d
  cases toks with
  | nil =>
    cases final <;> simp [RunProperties.step, RunProperties.stepOps, Decoder.Token, Op.failure]
  | cons tok rest =>
    cases tok with
    | StartElement tt =>
      simp only [RunProperties.step, RunProperties.stepOps, Decoder.Token]
      split_ifs
      · simp [Op.failure]
      · simp [Op.failure]
      · simp [Op.failure]
      · simp [Op.failure]
      · cases hs : Decoder.Skip ⟨rest, final⟩ with
        | mk e d' =>
          cases e with
          | none => simp [Op.failure]
          | some e => simp [Op.failure]
    | _ => simp [RunProperties.step, RunProperties.stepOps, Decoder.Token, Op.failure]

theorem RunProperties.props_loop_failure :
    ∀ (fuel : Nat) (d : Decoder) (r : RunProperties), d.toks.length < fuel →
      ∃ r' d', RunProperties.UnmarshalXML.loop fuel d r =
        some (((RunProperties.opsLoop fuel d r).findSome? Op.failure, r'), d') := by
  intro fuel
  induction fuel with
  | zero => intro d r h; omega
  | succ fuel ih =>
    intro d r _
    rw [RunProperties.props_loop_succ, RunProperties.opsLoop]
    have hsf := RunProperties.props_step_failure d r
    cases hs : RunProperties.step d r with
    | inl res =>
      rw [hs] at hsf
      simp only at hsf ⊢
      exact ⟨res.1.2, res.2, by rw [hsf]⟩
    | inr p =>
      rw [hs] at hsf
      simp only at hsf ⊢
      have hl := RunProperties.props_step_length d p.1 r p.2 hs
      obtain ⟨r', d', hr'⟩ := ih p.1 p.2 (by omega)
      exact ⟨r', d', by rw [hr', List.findSome?_append, hsf]; rfl⟩

/-- Decoding into a receiver that holds data returns the error of decoding into
a fresh one, appends to the Children what the fresh decoding yields, and
keeps `XMLName`. -/
theorem Run.children_append {T D : Type} (env : Env T D) (d : Decoder) (r : Run T D) :
    ∃ err r0 r', Run.UnmarshalXML env d {} = some (err, r0) ∧
      Run.UnmarshalXML env d r = some (err, r') ∧
      r'.Children = r.Children ++ r0.Children ∧ r'.XMLName = r.XMLName := by
  obtain ⟨err, r0, r', h1, h2, h3⟩ := Run.rel env
    (fun a b => b.Children = r.Children ++ a.Children ∧ b.XMLName = r.XMLName)
    (fun a b v hab => hab) (fun a b v hab => hab)
    (fun a b c hab => ⟨by simp only; rw [hab.1, List.append_assoc], hab.2⟩)
    d.toks.length d le_rfl {} r ⟨by simp, rfl⟩
  exact ⟨err, r0, r', h1, h2, h3.1, h3.2⟩

theorem RunProperties.assign_unknown (tt : StartElement) (r : RunProperties)
    (h : tt.Name.Local ∉ propTags) : RunProperties.assign tt r = none := by
  simp only [propTags, List.mem_cons, List.mem_singleton, not_or, List.not_mem_nil,
    or_false] at h
  simp [RunProperties.assign, h]

/-- On a properties stream whose recognized direct children are empty,
`RunProperties.UnmarshalXML` reads every token, and each field holds the `val`
of the last direct child with its tag, or what it held before when there is
none. -/
theorem RunProperties.fields_direct :
    ∀ (n : Nat) (toks : List Token), toks.length ≤ n → propsOk toks = true →
      ∀ (final : Error) (r : RunProperties), ∃ err r',
        RunProperties.UnmarshalXML ⟨toks, final⟩ r = some ((err, r'), ⟨[], final⟩) ∧
        r'.Color = (match lastChild "color" (directStarts 0 toks) with
          | some tt => some { Val := getAtt tt.Attr "val" }
          | none => r.Color) ∧
        r'.Size = (match lastChild "sz" (directStarts 0 toks) with
          | some tt => some { Val := getAtt tt.Attr "val" }
          | none => r.Size) ∧
        r'.RunStyle = (match lastChild "rStyle" (directStarts 0 toks) with
          | some tt => some { Val := getAtt tt.Attr "val" }
          | none => r.RunStyle) ∧
        r'.Style = (match lastChild "pStyle" (directStarts 0 toks) with
          | some tt => some { Val := getAtt tt.Attr "val" }
          | none => r.Style) := by
  intro n
  induction n with
  | zero =>
    intro toks hl _ final r
    have : toks = [] := List.length_eq_zero.mp (by omega)
    subst this
    exact ⟨_, r, RunProperties.props_unfold_nil final r, rfl, rfl, rfl, rfl⟩
  | succ n ih =>
    intro toks hl hok final r
    cases toks with
    | nil => exact ⟨_, r, RunProperties.props_unfold_nil final r, rfl, rfl, rfl, rfl⟩
    | cons tok rest =>
      have hl' : rest.length ≤ n := by simpa using hl
      by_cases hs : tok.isStart = false
      · have hd : directStarts 0 (tok :: rest) = directStarts 0 rest := by
          cases tok <;> simp_all [directStarts, Token.isStart]
        obtain ⟨err, r', h1, h2⟩ := ih rest hl' (by simpa [propsOk, hd] using hok) final r
        refine ⟨err, r', by rw [RunProperties.props_unfold_other tok rest final r hs]; exact h1, ?_⟩
        rw [hd]; exact h2
      · cases tok with
        | StartElement tt =>
          have hd : directStarts 0 (.StartElement tt :: rest) =
              (tt, rest) :: directStarts 0 (dropElement rest) := by
            simp [directStarts, directStarts_one]
          have hok' : (tt.Name.Local ∈ propTags → startsWithEnd rest = true) ∧
              propsOk (dropElement rest) = true := by
            simp only [propsOk, hd, List.all_cons, Bool.and_eq_true, Bool.or_eq_true,
              Bool.not_eq_true', decide_eq_false_iff_not] at hok
            refine ⟨fun hm => ?_, hok.2⟩
            rcases hok.1 with h | h
            · exact absurd hm h
            · exact h
          by_cases hrec : tt.Name.Local ∈ propTags
          · have hse := hok'.1 hrec
            cases rest with
            | nil => simp [startsWithEnd] at hse
            | cons tok2 rest2 =>
              cases tok2 with
              | EndElement name2 =>
                have hde : dropElement (.EndElement name2 :: rest2) = rest2 := by
                  simp [dropElement, endIdx]
                have hnext : RunProperties.UnmarshalXML
                      ⟨.StartElement tt :: .EndElement name2 :: rest2, final⟩ r =
                    RunProperties.UnmarshalXML ⟨rest2, final⟩
                      ((RunProperties.assign tt r).getD r) := by
                  rw [RunProperties.props_unfold_start]
                  cases RunProperties.assign tt r with
                  | some r1 =>
                    exact RunProperties.props_unfold_other (.EndElement name2) rest2 _ r1 rfl
                  | none => simp [endIdx]
                rw [hde] at hd hok'
                obtain ⟨err, r', h1, h3, h4, h5, h6⟩ := ih rest2 (by simp at hl'; omega) hok'.2
                  final ((RunProperties.assign tt r).getD r)
                refine ⟨err, r', by rw [hnext]; exact h1, ?_, ?_, ?_, ?_⟩
                · rw [h3, hd]; simp only [lastChild]
                  cases lastChild "color" (directStarts 0 rest2) with
                  | some x => rfl
                  | none =>
                    simp only [RunProperties.assign]
                    split_ifs <;> simp_all
                · rw [h4, hd]; simp only [lastChild]
                  cases lastChild "sz" (directStarts 0 rest2) with
                  | some x => rfl
                  | none =>
                    simp only [RunProperties.assign]
                    split_ifs <;> simp_all
                · rw [h5, hd]; simp only [lastChild]
                  cases lastChild "rStyle" (directStarts 0 rest2) with
                  | some x => rfl
                  | none =>
                    simp only [RunProperties.assign]
                    split_ifs <;> simp_all
                · rw [h6, hd]; simp only [lastChild]
                  cases lastChild "pStyle" (directStarts 0 rest2) with
                  | some x => rfl
                  | none =>
                    simp only [RunProperties.assign]
                    split_ifs <;> simp_all
              | _ => simp [startsWithEnd] at hse
          · have hnone := RunProperties.assign_unknown tt r hrec
            have hne : tt.Name.Local ≠ "color" ∧ tt.Name.Local ≠ "sz" ∧
                tt.Name.Local ≠ "rStyle" ∧ tt.Name.Local ≠ "pStyle" := by
              simpa [propTags] using hrec
            rw [RunProperties.props_unfold_start, hnone, hd]
            simp only [lastChild, if_neg hne.1, if_neg hne.2.1, if_neg hne.2.2.1,
              if_neg hne.2.2.2]
            cases he : endIdx 0 rest with
            | none =>
              refine ⟨some final, r, rfl, ?_⟩
              simp [dropElement, he, directStarts, lastChild]
            | some m =>
              have hm := endIdx_le rest 0 m he
              have hde : dropElement rest = rest.drop m := by simp [dropElement, he]
              rw [hde] at hok' ⊢
              obtain ⟨err, r', h1, h3, h4, h5, h6⟩ := ih (rest.drop m) (by simp; omega) hok'.2
                final r
              refine ⟨err, r', h1, ?_, ?_, ?_, ?_⟩
              · rw [h3]; cases lastChild "color" (directStarts 0 (rest.drop m)) <;> rfl
              · rw [h4]; cases lastChild "sz" (directStarts 0 (rest.drop m)) <;> rfl
              · rw [h5]; cases lastChild "rStyle" (directStarts 0 (rest.drop m)) <;> rfl
              · rw [h6]; cases lastChild "pStyle" (directStarts 0 (rest.drop m)) <;> rfl
        | _ => simp [Token.isStart] at hs

theorem sameLocals_refl (toks : List Token) : sameLocals toks toks = true := by
  induction toks with
  | nil => rfl
  | cons tok rest ih => cases tok <;> simp [sameLocals, Token.sameLocal, ih]

theorem sameLocals_cons (a b : Token) (r1 r2 : List Token)
    (h : sameLocals (a :: r1) (b :: r2) = true) :
    sameLocals r1 r2 = true ∧
    ((a.isStart = false ∧ b = a) ∨
      (∃ na nb, a = .EndElement na ∧ b = .EndElement nb ∧ na.Local = nb.Local) ∨
      ∃ ta tb, a = .StartElement ta ∧ b = .StartElement tb ∧
        ta.Name.Local = tb.Name.Local ∧ ta.Attr = tb.Attr) := by
  simp only [sameLocals, Bool.and_eq_true] at h
  refine ⟨h.2, ?_⟩
  have h1 := h.1
  cases a <;> cases b <;> simp_all [Token.sameLocal, Token.isStart]

theorem sameLocals_endIdx (t1 : List Token) :
    ∀ (t2 : List Token) (k : Nat), sameLocals t1 t2 = true → endIdx k t1 = endIdx k t2 := by
  induction t1 with
  | nil =>
    intro t2 k h
    cases t2 with
    | nil => rfl
    | cons b r2 => simp [sameLocals] at h
  | cons a r1 ih =>
    intro t2 k h
    cases t2 with
    | nil => simp [sameLocals] at h
    | cons b r2 =>
      obtain ⟨hr, hab⟩ := sameLocals_cons a b r1 r2 h
      rcases hab with ⟨hs, hb⟩ | ⟨na, nb, rfl, rfl, -⟩ | ⟨ta, tb, rfl, rfl, -, -⟩
      · rw [hb]
        cases a with
        | StartElement tt => simp [Token.isStart] at hs
        | EndElement nm => cases k <;> simp [endIdx, ih r2 _ hr]
        | _ => simp [endIdx, ih r2 _ hr]
      · cases k <;> simp [endIdx, ih r2 _ hr]
      · simp [endIdx, ih r2 _ hr]

theorem sameLocals_drop (t1 : List Token) :
    ∀ (t2 : List Token) (m : Nat), sameLocals t1 t2 = true →
      sameLocals (t1.drop m) (t2.drop m) = true := by
  induction t1 with
  | nil =>
    intro t2 m h
    cases t2 with
    | nil => simp [sameLocals]
    | cons b r2 => simp [sameLocals] at h
  | cons a r1 ih =>
    intro t2 m h
    cases t2 with
    | nil => simp [sameLocals] at h
    | cons b r2 =>
      cases m with
      | zero => simpa using h
      | succ m => simpa using ih r2 m (sameLocals_cons a b r1 r2 h).1

theorem sameLocals_length (t1 : List Token) :
    ∀ t2 : List Token, sameLocals t1 t2 = true → t1.length = t2.length := by
  induction t1 with
  | nil =>
    intro t2 h
    cases t2 with
    | nil => rfl
    | cons b r2 => simp [sameLocals] at h
  | cons a r1 ih =>
    intro t2 h
    cases t2 with
    | nil => simp [sameLocals] at h
    | cons b r2 => simp [ih r2 (sameLocals_cons a b r1 r2 h).1]

theorem startPairs_tail (a b : Token) (r1 r2 : List Token) :
    ∀ p ∈ startPairs r1 r2, p ∈ startPairs (a :: r1) (b :: r2) := by
  intro p hp
  cases a <;> cases b <;> simp [startPairs, hp]

theorem startPairs_drop (t1 : List Token) :
    ∀ (t2 : List Token) (m : Nat), ∀ p ∈ startPairs (t1.drop m) (t2.drop m),
      p ∈ startPairs t1 t2 := by
  induction t1 with
  | nil => intro t2 m p hp; simp [startPairs] at hp
  | cons a r1 ih =>
    intro t2 m p hp
    cases m with
    | zero => simpa using hp
    | succ m =>
      cases t2 with
      | nil =>
        rw [List.drop_nil] at hp
        cases hl : (a :: r1).drop (m + 1) with
        | nil => rw [hl] at hp; simp [startPairs] at hp
        | cons x xs => rw [hl] at hp; simp [startPairs] at hp
      | cons b r2 =>
        exact startPairs_tail a b r1 r2 p (ih r2 m p (by simpa using hp))

theorem Agree_tail {T D : Type} (env1 env2 : Env T D) (final : Error) (a b : Token)
    (r1 r2 : List Token) (h : Agree env1 env2 final (a :: r1) (b :: r2)) :
    Agree env1 env2 final r1 r2 :=
  fun p hp => h p (startPairs_tail a b r1 r2 p hp)

theorem Agree_drop {T D : Type} (env1 env2 : Env T D) (final : Error) (t1 t2 : List Token)
    (m : Nat) (h : Agree env1 env2 final t1 t2) :
    Agree env1 env2 final (t1.drop m) (t2.drop m) :=
  fun p hp => h p (startPairs_drop t1 t2 m p hp)

theorem element_sameLocals (r1 r2 : List Token) (final : Error)
    (h : sameLocals r1 r2 = true) :
    endIdx 0 (Decoder.element ⟨r1, final⟩).toks = endIdx 0 (Decoder.element ⟨r2, final⟩).toks ∧
    (Decoder.element ⟨r1, final⟩).final = (Decoder.element ⟨r2, final⟩).final ∧
    (Decoder.element ⟨r1, final⟩).toks.length = (Decoder.element ⟨r2, final⟩).toks.length := by
  have he := sameLocals_endIdx r1 r2 0 h
  have hl := sameLocals_length r1 r2 h
  simp only [Decoder.element, ← he]
  cases hn : endIdx 0 r1 with
  | none => simp [hn, he ▸ hn, hl]
  | some n =>
    have h2 : endIdx 0 r2 = some n := he ▸ hn
    simp [endIdx_take r1 0 n hn, endIdx_take r2 0 n h2, hl]

theorem Run.onStart_sim {T D : Type} (env1 env2 : Env T D) (final : Error)
    (a b : StartElement) (r1 r2 : List Token) (r : Run T D)
    (hl : a.Name.Local = b.Name.Local) (hs : sameLocals r1 r2 = true)
    (ha : agreeAt env1 env2 final a b r1 r2) :
    Run.onStart env1 a (Decoder.element ⟨r1, final⟩) r =
      Run.onStart env2 b (Decoder.element ⟨r2, final⟩) r := by
  obtain ⟨h1, h2, h3⟩ := element_sameLocals r1 r2 final hs
  obtain ⟨g1, g2, g3, g4⟩ := ha
  unfold Run.onStart
  rw [← hl]
  by_cases c1 : a.Name.Local = "rPr"
  · rw [if_pos c1, if_pos c1, g1 c1]
  rw [if_neg c1, if_neg c1]
  by_cases c2 : a.Name.Local = "instrText"
  · rw [if_pos c2, if_pos c2, g2 c2]
  rw [if_neg c2, if_neg c2]
  by_cases c3 : a.Name.Local = "t"
  · rw [if_pos c3, if_pos c3, g3 c3]
  rw [if_neg c3, if_neg c3]
  by_cases c4 : a.Name.Local = "drawing"
  · rw [if_pos c4, if_pos c4, g4 c4]
  rw [if_neg c4, if_neg c4, h1, h2]

/-- Two decodings, of streams that are the same up to namespaces and with
decoders that agree on them, return the same. -/
theorem Run.sim {T D : Type} (env1 env2 : Env T D) (final : Error) :
    ∀ (n : Nat) (t1 t2 : List Token), t1.length ≤ n → sameLocals t1 t2 = true →
      Agree env1 env2 final t1 t2 → ∀ r : Run T D,
        Run.UnmarshalXML env1 ⟨t1, final⟩ r = Run.UnmarshalXML env2 ⟨t2, final⟩ r := by
  intro n
  induction n with
  | zero =>
    intro t1 t2 hl hs _ r
    have h1 : t1 = [] := List.length_eq_zero.mp (by omega)
    subst h1
    cases t2 with
    | nil => rw [Run.unfold_nil, Run.unfold_nil]
    | cons b r2 => simp [sameLocals] at hs
  | succ n ih =>
    intro t1 t2 hl hs hag r
    cases t1 with
    | nil =>
      cases t2 with
      | nil => rw [Run.unfold_nil, Run.unfold_nil]
      | cons b r2 => simp [sameLocals] at hs
    | cons a r1 =>
      cases t2 with
      | nil => simp [sameLocals] at hs
      | cons b r2 =>
        have hl' : r1.length ≤ n := by simpa using hl
        obtain ⟨hr, hab⟩ := sameLocals_cons a b r1 r2 hs
        have hag' := Agree_tail env1 env2 final a b r1 r2 hag
        rcases hab with ⟨hns, hb⟩ | ⟨na, nb, rfl, rfl, -⟩ | ⟨ta, tb, rfl, rfl, hloc, -⟩
        · rw [hb, Run.unfold_other env1 a r1 final r hns,
            Run.unfold_other env2 a r2 final r hns]
          exact ih r1 r2 hl' hr hag' r
        · rw [Run.unfold_other env1 (.EndElement na) r1 final r rfl,
            Run.unfold_other env2 (.EndElement nb) r2 final r rfl]
          exact ih r1 r2 hl' hr hag' r
        · rw [Run.unfold_start, Run.unfold_start,
            Run.onStart_sim env1 env2 final ta tb r1 r2 r hloc hr
              (hag ((ta, r1), (tb, r2)) (by simp [startPairs])),
            (element_sameLocals r1 r2 final hr).2.2]
          cases Run.onStart env2 tb (Decoder.element ⟨r2, final⟩) r with
          | inl res => rfl
          | inr p =>
            exact ih _ _ (by simp; omega) (sameLocals_drop r1 r2 _ hr)
              (Agree_drop env1 env2 final r1 r2 _ hag') p.2

theorem RunProperties.assign_sameLocal (a b : StartElement) (r : RunProperties)
    (hl : a.Name.Local = b.Name.Local) (ha : a.Attr = b.Attr) :
    RunProperties.assign a r = RunProperties.assign b r := by
  simp only [RunProperties.assign, hl, ha]

/-- The method `RunProperties.UnmarshalXML` returns the same on streams that are
the same up to the namespaces of their elements. -/
theorem RunProperties.props_sim :
    ∀ (n : Nat) (t1 t2 : List Token), t1.length ≤ n → sameLocals t1 t2 = true →
      ∀ (final : Error) (r : RunProperties),
        RunProperties.UnmarshalXML ⟨t1, final⟩ r = RunProperties.UnmarshalXML ⟨t2, final⟩ r := by
  intro n
  induction n with
  | zero =>
    intro t1 t2 hl hs final r
    have h1 : t1 = [] := List.length_eq_zero.mp (by omega)
    subst h1
    cases t2 with
    | nil => rfl
    | cons b r2 => simp [sameLocals] at hs
  | succ n ih =>
    intro t1 t2 hl hs final r
    cases t1 with
    | nil =>
      cases t2 with
      | nil => rfl
      | cons b r2 => simp [sameLocals] at hs
    | cons a r1 =>
      cases t2 with
      | nil => simp [sameLocals] at hs
      | cons b r2 =>
        have hl' : r1.length ≤ n := by simpa using hl
        obtain ⟨hr, hab⟩ := sameLocals_cons a b r1 r2 hs
        rcases hab with ⟨hns, hb⟩ | ⟨na, nb, rfl, rfl, -⟩ | ⟨ta, tb, rfl, rfl, hloc, hattr⟩
        · rw [hb, RunProperties.props_unfold_other a r1 final r hns,
            RunProperties.props_unfold_other a r2 final r hns]
          exact ih r1 r2 hl' hr final r
        · rw [RunProperties.props_unfold_other (.EndElement na) r1 final r rfl,
            RunProperties.props_unfold_other (.EndElement nb) r2 final r rfl]
          exact ih r1 r2 hl' hr final r
        · rw [RunProperties.props_unfold_start, RunProperties.props_unfold_start,
            RunProperties.assign_sameLocal ta tb r hloc hattr, sameLocals_endIdx r1 r2 0 hr]
          cases RunProperties.assign tb r with
          | some r1' => exact ih r1 r2 hl' hr final r1'
          | none =>
            cases he : endIdx 0 r2 with
            | none => rfl
            | some m =>
              have := endIdx_le r2 0 m he
              exact ih _ _ (by simp; omega) (sameLocals_drop r1 r2 m hr) final r

/-- Decoding runs through a stretch of tokens that closes every element it
opens in the same way whatever follows the stretch and whatever error ends the
stream. -/
theorem Run.through_any {T D : Type} (env : Env T D) :
    ∀ (n : Nat) (A : List Token), A.length ≤ n → (∃ k, depthAfter k A = 0) →
      ∀ r : Run T D,
        (∃ e r', ∀ final C, Run.UnmarshalXML env ⟨A ++ C, final⟩ r = some (some e, r')) ∨
        (∃ r', ∀ final C, Run.UnmarshalXML env ⟨A ++ C, final⟩ r =
          Run.UnmarshalXML env ⟨C, final⟩ r') := by
  intro n
  induction n with
  | zero =>
    intro A hA _ r
    have : A = [] := List.length_eq_zero.mp (by omega)
    subst this
    exact Or.inr ⟨r, fun _ C => rfl⟩
  | succ n ih =>
    intro A hA hcl r
    cases A with
    | nil => exact Or.inr ⟨r, fun _ C => rfl⟩
    | cons tok A' =>
      have hA' : A'.length ≤ n := by simpa using hA
      by_cases hs : tok.isStart = false
      · rcases ih A' hA' (closing_tail tok A' hcl) r with ⟨e, r', h⟩ | ⟨r', h⟩
        · exact Or.inl ⟨e, r', fun final C => by
            rw [List.cons_append, Run.unfold_other env tok _ final r hs]; exact h final C⟩
        · exact Or.inr ⟨r', fun final C => by
            rw [List.cons_append, Run.unfold_other env tok _ final r hs]; exact h final C⟩
      · cases tok with
        | StartElement tt =>
          obtain ⟨k, hk⟩ := hcl
          simp only [depthAfter] at hk
          obtain ⟨n0, hn0⟩ := endIdx_of_depthAfter A' 0 k (by rw [← hk]; congr 1; omega)
          have hle := endIdx_le A' 0 n0 hn0
          have hel : ∀ final C, Decoder.element ⟨A' ++ C, final⟩ = ⟨A'.take n0, Error.EOF⟩ :=
            fun final C => element_append A' C final n0 hn0
          cases ho : Run.onStart env tt ⟨A'.take n0, Error.EOF⟩ r with
          | inl res =>
            obtain ⟨h1, h2⟩ := Run.onStart_inl env tt _ r res ho
            obtain ⟨e, he⟩ := Option.isSome_iff_exists.mp h1
            refine Or.inl ⟨e, r, fun final C => ?_⟩
            rw [List.cons_append, Run.unfold_start, hel, ho]
            obtain ⟨a, b⟩ := res
            simp only at he h2
            simp [he, h2]
          | inr p =>
            have hm : min p.1 (A'.take n0).length ≤ A'.length := by
              simp
            have hstep : ∀ final C,
                Run.UnmarshalXML env ⟨.StartElement tt :: A' ++ C, final⟩ r =
                  Run.UnmarshalXML env
                    ⟨A'.drop (min p.1 (A'.take n0).length) ++ C, final⟩ p.2 := by
              intro final C
              rw [List.cons_append, Run.unfold_start, hel, ho]
              simp only
              rw [List.drop_append_of_le_length hm]
            have hcl' : ∃ k, depthAfter k (A'.drop (min p.1 (A'.take n0).length)) = 0 :=
              closing_drop A' _ ⟨k + 1, hk⟩
            have hlen : (A'.drop (min p.1 (A'.take n0).length)).length ≤ n := by
              simp; omega
            rcases ih _ hlen hcl' p.2 with ⟨e, r', h⟩ | ⟨r', h⟩
            · exact Or.inl ⟨e, r', fun final C => by rw [hstep]; exact h final C⟩
            · exact Or.inr ⟨r', fun final C => by rw [hstep]; exact h final C⟩
        | _ => simp [Token.isStart] at hs

/-- When the tokens before a direct child decode without error, the loop
arrives at the child with the receiver that decoding those tokens alone
leaves. -/
theorem Run.reach {T D : Type} (env : Env T D) (A : List Token) (r ra : Run T D)
    (hA : depthAfter 0 A = 0)
    (h : Run.UnmarshalXML env ⟨A, Error.EOF⟩ r = some (none, ra)) :
    ∀ final C, Run.UnmarshalXML env ⟨A ++ C, final⟩ r = Run.UnmarshalXML env ⟨C, final⟩ ra := by
  rcases Run.through_any env A.length A le_rfl ⟨0, hA⟩ r with ⟨e, r', h'⟩ | ⟨r', h'⟩
  · have := h' Error.EOF []
    rw [List.append_nil, h] at this
    cases this
  · have := h' Error.EOF []
    rw [List.append_nil, h, Run.unfold_nil] at this
    simp only [if_true, Option.some.injEq, Prod.mk.injEq, true_and] at this
    subst this
    exact h'

/-- An error `RunProperties.UnmarshalXML` returns is the error that ends its
token stream: the method fails only where `Token` or `Skip` runs out of
tokens. -/
theorem RunProperties.props_error_final :
    ∀ (n : Nat) (toks : List Token), toks.length ≤ n →
      ∀ (final : Error) (r : RunProperties) (e : Error) (v : RunProperties) (d : Decoder),
        RunProperties.UnmarshalXML ⟨toks, final⟩ r = some ((some e, v), d) → e = final := by
  intro n
  induction n with
  | zero =>
    intro toks hl final r e v d h
    have : toks = [] := List.length_eq_zero.mp (by omega)
    subst this
    rw [RunProperties.props_unfold_nil] at h
    by_cases hf : final = Error.EOF
    · simp [hf] at h
    · simp [hf] at h
      exact h.1.1.symm
  | succ n ih =>
    intro toks hl final r e v d h
    cases toks with
    | nil =>
      rw [RunProperties.props_unfold_nil] at h
      by_cases hf : final = Error.EOF
      · simp [hf] at h
      · simp [hf] at h
        exact h.1.1.symm
    | cons tok rest =>
      have hl' : rest.length ≤ n := by simpa using hl
      by_cases hs : tok.isStart = false
      · rw [RunProperties.props_unfold_other tok rest final r hs] at h
        exact ih rest hl' final r e v d h
      · cases tok with
        | StartElement tt =>
          rw [RunProperties.props_unfold_start] at h
          cases ha : RunProperties.assign tt r with
          | some r' =>
            rw [ha] at h
            exact ih rest hl' final r' e v d h
          | none =>
            rw [ha] at h
            cases hi : endIdx 0 rest with
            | some m =>
              rw [hi] at h
              exact ih (rest.drop m) (by simp; omega) final r e v d h
            | none =>
              rw [hi] at h
              simp at h
              exact h.1.1.symm
        | _ => simp [Token.isStart] at hs

/-- When `DecodeElement` into a `RunProperties` fails with an error whose message
begins with "expected", the element is never closed: the error is that of the
token source, every token of the stream has been read, and the target holds
what the type's `UnmarshalXML` stored before the failure. -/
theorem decodeRunProperties_expected (tt : StartElement) (rest : List Token) (final : Error)
    (value : RunProperties) (e : Error)
    (h : (Decoder.DecodeElement decodeRunProperties tt ⟨rest, final⟩).1 = (value, some e))
    (he : HasPrefix e.Error "expected" = true) :
    endIdx 0 rest = none ∧ e = final ∧
    RunProperties.UnmarshalXML ⟨rest, final⟩ {} = some ((some e, value), ⟨[], final⟩) ∧
    Decoder.DecodeElement decodeRunProperties tt ⟨rest, final⟩ =
      ((value, some e), ⟨[], final⟩) := by
  obtain ⟨err, v, h1, -⟩ := RunProperties.reads_all (Decoder.element ⟨rest, final⟩).toks.length
    (Decoder.element ⟨rest, final⟩).toks le_rfl (Decoder.element ⟨rest, final⟩).final {}
  have h2 : decodeRunProperties tt (Decoder.element ⟨rest, final⟩) =
      (v, err, (Decoder.element ⟨rest, final⟩).toks.length) := by
    simp only [decodeRunProperties]
    rw [h1]
    simp
  have h3 : v = value ∧ err = some e := by
    simp only [Decoder.DecodeElement, h2, Prod.mk.injEq] at h
    exact h
  obtain ⟨rfl, rfl⟩ := h3
  have h4 := RunProperties.props_error_final _ _ le_rfl _ _ _ _ _ h1
  cases hi : endIdx 0 rest with
  | some m =>
    simp only [Decoder.element, hi] at h4
    rw [h4] at he
    exact absurd he (by decide)
  | none =>
    simp only [Decoder.element, hi] at h4 h1 h2
    refine ⟨rfl, h4, ?_, ?_⟩
    · rw [h1, h4]
    · simp only [Decoder.DecodeElement, Decoder.element, hi, h2]
      simp

/-- What the loop does at an `rPr` start element whose decode, by the code's own
`RunProperties.UnmarshalXML`, fails with an error whose message begins with
"expected": the iteration does not return, it stores the value and goes on with
nothing left to read, and the next `Token` call reports the same error, which
the method returns. -/
theorem Run.rPr_expected {T D : Type} (text : ElemDecoder T) (drawing : ElemDecoder D)
    (tt : StartElement) (rest : List Token) (final : Error) (ra : Run T D)
    (value : Docx.RunProperties) (e : Error) (htt : tt.Name.Local = "rPr")
    (hdec : (Decoder.DecodeElement decodeRunProperties tt ⟨rest, final⟩).1 = (value, some e))
    (he : HasPrefix e.Error "expected" = true) :
    Run.step (stdEnv text drawing) ⟨.StartElement tt :: rest, final⟩ ra =
      .inr (⟨dropElement rest, final⟩, { ra with RunProperties := some value }) ∧
    Run.UnmarshalXML (stdEnv text drawing) ⟨.StartElement tt :: rest, final⟩ ra =
      some (some e, { ra with RunProperties := some value }) := by
  obtain ⟨hi, hef, -, hD⟩ := decodeRunProperties_expected tt rest final value e hdec he
  have hdrop : dropElement rest = [] := by simp [dropElement, hi]
  have hstep : Run.step (stdEnv text drawing) ⟨.StartElement tt :: rest, final⟩ ra =
      .inr (⟨dropElement rest, final⟩, { ra with RunProperties := some value }) := by
    simp [Run.step, Decoder.Token, htt, stdEnv, hD, fatal, he, hdrop]
  refine ⟨hstep, ?_⟩
  have hne : final ≠ Error.EOF := by
    intro hf
    rw [hef, hf] at he
    exact absurd he (by decide)
  rw [Run.unfold, hstep]
  simp only
  rw [hdrop, Run.unfold_nil, if_neg hne, hef]

/-! ## The claims -/

/-- C1: for every run token stream in which the decoders of `Text` and `Drawing`
succeed on every direct child `t` and `drawing` and read exactly that child's
subtree, and every direct child `tab` is empty, `Run.UnmarshalXML` on a fresh Run
(with `rPr` and `instrText` decoded as the code does) returns with Children
holding exactly one entry per direct child start element named `t`, `drawing` or
`tab` (the decoded `Text`, the decoded `Drawing`, a `WTab`), in stream order. -/
theorem C1_children_in_document_order {T D : Type} (text : ElemDecoder T)
    (drawing : ElemDecoder D) (toks : List Token) (final : Error)
    (h : (directStarts 0 toks).all (childOk (stdEnv text drawing) final) = true) :
    ∃ err r', Run.UnmarshalXML (stdEnv text drawing) ⟨toks, final⟩ {} = some (err, r') ∧
      r'.Children = contentChildren (stdEnv text drawing) final toks := by
  obtain ⟨err, r', h1, h2⟩ := Run.children_eq (stdEnv text drawing) decodeRunProperties_reads
    decodeString_reads toks.length toks le_rfl final {} h
  exact ⟨err, r', h1, by simpa using h2⟩

/-- C1 at the stream `sampleRun`: the four content children come out in document
order, the `t` nested in the unknown element is not one of them. -/
theorem C1_children_in_document_order_witness :
    (directStarts 0 sampleRun).all (childOk docEnv Error.EOF) = true ∧
    contentChildren docEnv Error.EOF sampleRun =
      [Child.text "Hello", Child.tab {},
        Child.drawing [.StartElement ⟨w "inline", []⟩, .EndElement (w "inline"),
          .EndElement (w "drawing")],
        Child.text "World"] ∧
    ∃ err r', Run.UnmarshalXML docEnv ⟨sampleRun, Error.EOF⟩ {} = some (err, r') ∧
      r'.Children = contentChildren docEnv Error.EOF sampleRun :=
  ⟨by decide, by decide,
    C1_children_in_document_order decodeText decodeDrawing sampleRun Error.EOF (by decide)⟩

/-- C2: for every run token stream, inserting a well-formed subtree (its
content `body` ends with the end element that closes it) whose root local name
is none of `rPr`, `instrText`, `t`, `drawing`, `tab` at a sibling position among
the run's direct children (after tokens `A` that leave the nesting depth at 0)
changes neither the decoded Run nor the error result, whatever the subtree
nests; and an unknown element next to `<t>Hello</t>` yields exactly the one text
span "Hello". -/
theorem C2_unknown_sibling_ignored :
    (∀ {T D : Type} (env : Env T D) (A body B : List Token) (u : StartElement)
        (final : Error) (r : Run T D),
        depthAfter 0 A = 0 → u.Name.Local ∉ runTags → endIdx 0 body = some body.length →
        Run.UnmarshalXML env ⟨A ++ (.StartElement u :: body) ++ B, final⟩ r =
          Run.UnmarshalXML env ⟨A ++ B, final⟩ r) ∧
    Run.UnmarshalXML docEnv
      ⟨[.StartElement ⟨w "ext", [⟨w "id", "7"⟩]⟩, .StartElement ⟨w "t", []⟩, .CharData "x",
        .EndElement (w "t"), .EndElement (w "ext"),
        .StartElement ⟨w "t", []⟩, .CharData "Hello", .EndElement (w "t"),
        .EndElement (w "r")], Error.EOF⟩ {} =
      some (none, { Children := [Child.text "Hello"] }) := by
  refine ⟨?_, by decide⟩
  intro T D env A body B u final r hA hu hb
  rw [List.append_assoc]
  rcases Run.through env A.length A le_rfl ⟨0, hA⟩ final r with ⟨e, r', h⟩ | ⟨r', h⟩
  · rw [h, h]
  · rw [h, h]
    exact Run.unfold_unknown env u body B final r' hu hb

/-- C2 at a concrete stream: a vendor element nesting a `t` is inserted between
a tab and a text span. -/
theorem C2_unknown_sibling_ignored_witness :
    Run.UnmarshalXML docEnv
      ⟨[.StartElement ⟨w "tab", []⟩, .EndElement (w "tab")] ++
        (.StartElement ⟨w "ext", []⟩ ::
          [.StartElement ⟨w "t", []⟩, .CharData "x", .EndElement (w "t"),
            .EndElement (w "ext")]) ++
        [.StartElement ⟨w "t", []⟩, .CharData "Hello", .EndElement (w "t"),
          .EndElement (w "r")], Error.EOF⟩ {} =
      Run.UnmarshalXML docEnv
        ⟨[.StartElement ⟨w "tab", []⟩, .EndElement (w "tab")] ++
          [.StartElement ⟨w "t", []⟩, .CharData "Hello", .EndElement (w "t"),
            .EndElement (w "r")], Error.EOF⟩ {} :=
  C2_unknown_sibling_ignored.1 docEnv _ _ _ _ _ _ (by decide) (by decide) (by decide)

/-- C4 as stated fails: in `<rPr><sz val="24"/>`, cut off by the token source,
the only `rPr` element fails to decode with an error whose message begins with
"expected", and the Run that `Run.UnmarshalXML` leaves has a `RunProperties`
that is not nil: it points at the value the failed decode had filled so far. -/
theorem C4_counterexample :
    HasPrefix readError.Error "expected" = true ∧
    RunProperties.UnmarshalXML
        (Decoder.element
          ⟨[.StartElement ⟨w "sz", [⟨w "val", "24"⟩]⟩, .EndElement (w "sz")], readError⟩) {} =
      some ((some readError, { Size := some { Val := "24" } }), ⟨[], readError⟩) ∧
    Run.UnmarshalXML docEnv
        ⟨[.StartElement ⟨w "rPr", []⟩, .StartElement ⟨w "sz", [⟨w "val", "24"⟩]⟩,
          .EndElement (w "sz")], readError⟩ {} =
      some (some readError, { RunProperties := some { Size := some { Val := "24" } } }) ∧
    ¬ ∃ (err : Option Error) (r' : Run String (List Token)),
      Run.UnmarshalXML docEnv
        ⟨[.StartElement ⟨w "rPr", []⟩, .StartElement ⟨w "sz", [⟨w "val", "24"⟩]⟩,
          .EndElement (w "sz")], readError⟩ {} = some (err, r') ∧
        r'.RunProperties = none := by
  have h : Run.UnmarshalXML docEnv
        ⟨[.StartElement ⟨w "rPr", []⟩, .StartElement ⟨w "sz", [⟨w "val", "24"⟩]⟩,
          .EndElement (w "sz")], readError⟩ {} =
      some (some readError, { RunProperties := some { Size := some { Val := "24" } } }) := by
    decide
  refine ⟨by decide, by decide, h, ?_⟩
  rintro ⟨err, r', h1, h2⟩
  rw [h] at h1
  cases h1
  simp at h2

/-- C4 as amended: when the only `rPr` element of a run token stream is a direct
child that `Run.UnmarshalXML` reaches (the tokens `A` before it leave the nesting
depth at 0 and decode without error) and the code's own
`RunProperties.UnmarshalXML` fails on it with an error whose message begins with
"expected", leaving `value` in its target, then the Run that `Run.UnmarshalXML`
on a fresh Run leaves has its `RunProperties`, nil until that element, present:
it points at `value`. -/
theorem C4_rPr_mismatch_keeps_value {T D : Type} (text : ElemDecoder T)
    (drawing : ElemDecoder D) (A rest : List Token) (tt : StartElement) (final : Error)
    (ra : Run T D) (value : RunProperties) (e : Error) (d' : Decoder)
    (hA : depthAfter 0 A = 0)
    (hreach : Run.UnmarshalXML (stdEnv text drawing) ⟨A, Error.EOF⟩ {} = some (none, ra))
    (htt : tt.Name.Local = "rPr")
    (honly : hasStart "rPr" (A ++ rest) = false)
    (hdec : RunProperties.UnmarshalXML (Decoder.element ⟨rest, final⟩) {} =
      some ((some e, value), d'))
    (he : HasPrefix e.Error "expected" = true) :
    ra.RunProperties = none ∧
    ∃ err r',
      Run.UnmarshalXML (stdEnv text drawing) ⟨A ++ .StartElement tt :: rest, final⟩ {} =
        some (err, r') ∧
      r'.RunProperties = some value := by
  rw [hasStart_append, Bool.or_eq_false_iff] at honly
  have hd : (Decoder.DecodeElement decodeRunProperties tt ⟨rest, final⟩).1 =
      (value, some e) := by
    simp [Decoder.DecodeElement, decodeRunProperties, hdec]
  obtain ⟨-, hrun⟩ := Run.rPr_expected text drawing tt rest final ra value e htt hd he
  refine ⟨?_, some e, { ra with RunProperties := some value }, ?_, rfl⟩
  · exact Run.frame (stdEnv text drawing) (fun a => a.RunProperties = none) (fun a c ha => ha)
      _ A le_rfl (Or.inl honly.1) (Or.inr (fun a v ha => ha)) Error.EOF {} _ rfl hreach
  · rw [Run.reach (stdEnv text drawing) A {} ra hA hreach, hrun]

/-- C4 as amended, at `cutRun`: the Run is left with the `RunProperties` holding
the size read before the token source failed. -/
theorem C4_rPr_mismatch_keeps_value_witness :
    ({ Children := [Child.text "Hello"] } : Run String (List Token)).RunProperties = none ∧
    ∃ err r',
      Run.UnmarshalXML (stdEnv decodeText decodeDrawing)
        ⟨[.StartElement ⟨w "t", []⟩, .CharData "Hello", .EndElement (w "t")] ++
          .StartElement ⟨w "rPr", []⟩ ::
            [.StartElement ⟨w "sz", [⟨w "val", "24"⟩]⟩, .EndElement (w "sz")], readError⟩ {} =
        some (err, r') ∧
      r'.RunProperties = some { Size := some { Val := "24" } } :=
  C4_rPr_mismatch_keeps_value decodeText decodeDrawing
    [.StartElement ⟨w "t", []⟩, .CharData "Hello", .EndElement (w "t")]
    [.StartElement ⟨w "sz", [⟨w "val", "24"⟩]⟩, .EndElement (w "sz")]
    ⟨w "rPr", []⟩ readError { Children := [Child.text "Hello"] }
    { Size := some { Val := "24" } } readError ⟨[], readError⟩
    (by decide) (by decide) (by decide) (by decide) (by decide) (by decide)

/-- C5: `Run.UnmarshalXML` returns, and the error it returns is the failure of
the first decoder call that fails, where a call fails when `Token` returns an
error other than `io.EOF`, when `Skip` returns any error, or when
`DecodeElement` for `rPr`, `instrText`, `t` or `drawing` returns an error whose
message does not begin with "expected"; so it returns an error if and only if
some call it makes fails in that sense. -/
theorem C5_error_iff_first_failure {T D : Type} (env : Env T D) (d : Decoder) (r : Run T D) :
    ∃ err r', Run.UnmarshalXML env d r = some (err, r') ∧
      err = (Run.ops env d r).findSome? Op.failure ∧
      ((∃ e, err = some e) ↔ ∃ op ∈ Run.ops env d r, ∃ e, Op.failure op = some e) := by
  obtain ⟨r', h⟩ := Run.loop_failure env (d.toks.length + 1) d r (Nat.lt_succ_self _)
  refine ⟨_, r', h, rfl, ?_⟩
  rw [← Option.isSome_iff_exists, List.findSome?_isSome_iff]
  simp only [Run.ops, Option.isSome_iff_exists]

/-- C5 at the stream `brokenRun`, read with a `Text` decoder that reports a shape
mismatch: the mismatch is passed over and the error returned is the one `Skip`
hits inside the unclosed element. -/
theorem C5_error_iff_first_failure_witness :
    (Run.ops strictEnv ⟨brokenRun, Error.other "unexpected EOF"⟩
      ({} : Run String (List Token))).map Op.failure =
      [none, none, none, none, none, none, none, some (Error.other "unexpected EOF")] ∧
    (Run.ops strictEnv ⟨brokenRun, Error.other "unexpected EOF"⟩
      ({} : Run String (List Token))).filterMap
        (fun op => match op with
          | .decode tag err => some (tag, err)
          | _ => none) =
      [("t", some (Error.other "expected element type <w:t> but have <t>")), ("rPr", none)] ∧
    Run.UnmarshalXML strictEnv ⟨brokenRun, Error.other "unexpected EOF"⟩ {} =
      some (some (Error.other "unexpected EOF"),
        { RunProperties := some {}, Children := [Child.text ""] }) ∧
    ∃ err r', Run.UnmarshalXML strictEnv ⟨brokenRun, Error.other "unexpected EOF"⟩
        ({} : Run String (List Token)) = some (err, r') ∧
      err = (Run.ops strictEnv ⟨brokenRun, Error.other "unexpected EOF"⟩ {}).findSome?
        Op.failure ∧
      ((∃ e, err = some e) ↔
        ∃ op ∈ Run.ops strictEnv ⟨brokenRun, Error.other "unexpected EOF"⟩
          ({} : Run String (List Token)), ∃ e, Op.failure op = some e) :=
  ⟨by decide, by decide, by decide, C5_error_iff_first_failure strictEnv _ _⟩

/-- C6 fails on the code at `tabRun`: the `tab` branch appends its child without
consuming the element, so the `t` and the `rPr` nested inside the `tab` are
dispatched as if they were direct children: the `t` adds a content child and the
`rPr` sets `RunProperties`, although the run's only direct child is the `tab`. -/
theorem C6_tab_subtree_not_consumed :
    (directStarts 0 tabRun).map (fun c => c.1.Name.Local) = ["tab"] ∧
    contentChildren docEnv Error.EOF tabRun = [Child.tab {}] ∧
    Run.UnmarshalXML docEnv ⟨tabRun, Error.EOF⟩ {} =
      some (none, { RunProperties := some { Size := some { Val := "24" } },
                    Children := [Child.tab {}, Child.text "x"] }) := by
  decide

/-- C7: an `rPr` or `instrText` element is never appended as a content child.
One loop iteration that dispatches on such a start element either returns with
the receiver untouched or goes on with the same Children; and for every run
token stream (with `rPr` and `instrText` decoded as the code does, whatever the
`Text` and `Drawing` decoders), the stream with every `rPr` and `instrText`
element that is a direct child removed yields the same Children. -/
theorem C7_metadata_never_content :
    (∀ {T D : Type} (env : Env T D) (tt : StartElement) (rest : List Token) (final : Error)
        (r : Run T D), isMeta tt = true →
        (∃ e, Run.step env ⟨.StartElement tt :: rest, final⟩ r = .inl (e, r)) ∨
        (∃ d' r', Run.step env ⟨.StartElement tt :: rest, final⟩ r = .inr (d', r') ∧
          r'.Children = r.Children)) ∧
    (∀ {T D : Type} (text : ElemDecoder T) (drawing : ElemDecoder D) (toks : List Token)
        (final : Error) (r : Run T D),
        ∃ e1 r1 e2 r2,
          Run.UnmarshalXML (stdEnv text drawing) ⟨toks, final⟩ r = some (e1, r1) ∧
          Run.UnmarshalXML (stdEnv text drawing) ⟨removeMeta 0 none toks, final⟩ r =
            some (e2, r2) ∧
          r1.Children = r2.Children) := by
  constructor
  · intro T D env tt rest final r hm
    have hm' : tt.Name.Local = "rPr" ∨ tt.Name.Local = "instrText" := by
      simpa [isMeta] using hm
    rcases hm' with h1 | h1
    · simp only [Run.step, Decoder.Token, Decoder.DecodeElement, h1, if_true]
      split_ifs
      · exact Or.inl ⟨_, rfl⟩
      · exact Or.inr ⟨_, _, rfl, rfl⟩
    · have hne : tt.Name.Local ≠ "rPr" := by rw [h1]; decide
      simp only [Run.step, Decoder.Token, Decoder.DecodeElement]
      rw [if_neg hne, if_pos h1]
      split_ifs
      · exact Or.inl ⟨_, rfl⟩
      · exact Or.inr ⟨_, _, rfl, rfl⟩
  · intro T D text drawing toks final r
    exact Run.children_removeMeta (stdEnv text drawing) decodeRunProperties_reads
      decodeString_reads toks.length toks le_rfl final r r rfl

/-- C7 at the stream `sampleRun`: without its `rPr` element the stream decodes to
the same Children. -/
theorem C7_metadata_never_content_witness :
    hasStart "rPr" sampleRun = true ∧ hasStart "rPr" (removeMeta 0 none sampleRun) = false ∧
    ∃ e1 r1 e2 r2,
      Run.UnmarshalXML docEnv ⟨sampleRun, Error.EOF⟩ {} = some (e1, r1) ∧
      Run.UnmarshalXML docEnv ⟨removeMeta 0 none sampleRun, Error.EOF⟩ {} = some (e2, r2) ∧
      r1.Children = r2.Children :=
  ⟨by decide, by decide,
    C7_metadata_never_content.2 decodeText decodeDrawing sampleRun Error.EOF {}⟩

/-- C8: for every properties token stream whose elements are all empty and in
which each of `color`, `sz`, `rStyle`, `pStyle` occurs at most once, read to
`io.EOF`, `RunProperties.UnmarshalXML` on a fresh value returns no error, and
`Color`, `Size`, `RunStyle`, `Style` are present exactly when the tag occurs, with
`Val` the text `getAtt` finds for `val` on that element, stored as it is; so
`<sz val="24"/><color val="FF0000"/>` yields Size "24", Color "FF0000" and the
other two nil, and a stream with none of the four tags yields all four nil. -/
theorem C8_properties_raw_values :
    (∀ toks : List Token, emptyElems toks = true →
      countStart "color" toks ≤ 1 → countStart "sz" toks ≤ 1 →
      countStart "rStyle" toks ≤ 1 → countStart "pStyle" toks ≤ 1 →
      ∃ r' : RunProperties,
        RunProperties.UnmarshalXML ⟨toks, Error.EOF⟩ {} = some ((none, r'), ⟨[], Error.EOF⟩) ∧
        r'.Color = (findStart "color" toks).map (fun tt => { Val := getAtt tt.Attr "val" }) ∧
        r'.Size = (findStart "sz" toks).map (fun tt => { Val := getAtt tt.Attr "val" }) ∧
        r'.RunStyle =
          (findStart "rStyle" toks).map (fun tt => { Val := getAtt tt.Attr "val" }) ∧
        r'.Style = (findStart "pStyle" toks).map (fun tt => { Val := getAtt tt.Attr "val" })) ∧
    RunProperties.UnmarshalXML ⟨sampleProps, Error.EOF⟩ {} =
      some ((none, { Color := some { Val := "FF0000" }, Size := some { Val := "24" },
                     RunStyle := none, Style := none }), ⟨[], Error.EOF⟩) ∧
    RunProperties.UnmarshalXML ⟨otherProps, Error.EOF⟩ {} =
      some ((none, { Color := none, Size := none, RunStyle := none, Style := none }),
        ⟨[], Error.EOF⟩) := by
  refine ⟨?_, by decide, by decide⟩
  intro toks he h1 h2 h3 h4
  obtain ⟨r', g0, -, g1, g2, g3, g4⟩ := RunProperties.fields toks.length toks le_rfl he {}
  refine ⟨r', g0, ?_, ?_, ?_, ?_⟩
  · rw [g1, lastStart_eq_findStart _ _ h1]; cases findStart "color" toks <;> rfl
  · rw [g2, lastStart_eq_findStart _ _ h2]; cases findStart "sz" toks <;> rfl
  · rw [g3, lastStart_eq_findStart _ _ h3]; cases findStart "rStyle" toks <;> rfl
  · rw [g4, lastStart_eq_findStart _ _ h4]; cases findStart "pStyle" toks <;> rfl

/-- C8 at `<sz val="24"/><color val="FF0000"/>`. -/
theorem C8_properties_raw_values_witness :
    emptyElems sampleProps = true ∧
    ∃ r' : RunProperties,
      RunProperties.UnmarshalXML ⟨sampleProps, Error.EOF⟩ {} =
        some ((none, r'), ⟨[], Error.EOF⟩) ∧
      r'.Color =
        (findStart "color" sampleProps).map (fun tt => { Val := getAtt tt.Attr "val" }) ∧
      r'.Size = (findStart "sz" sampleProps).map (fun tt => { Val := getAtt tt.Attr "val" }) ∧
      r'.RunStyle =
        (findStart "rStyle" sampleProps).map (fun tt => { Val := getAtt tt.Attr "val" }) ∧
      r'.Style =
        (findStart "pStyle" sampleProps).map (fun tt => { Val := getAtt tt.Attr "val" }) :=
  ⟨by decide, C8_properties_raw_values.1 sampleProps (by decide) (by decide) (by decide)
    (by decide) (by decide)⟩

/-- C9: an empty `tab` element (a start element named `tab` in any namespace,
with any attributes, followed by an end element) at the decoder's position makes
the loop append exactly one `WTab`, the zero value whatever the attributes, and
go on with the tokens after the element; alone in a run decoded into a fresh Run
it yields Children holding that one `WTab`. -/
theorem C9_tab_yields_one_WTab :
    (∀ {T D : Type} (env : Env T D) (space : String) (attrs : List Attr) (endName : Name)
        (rest : List Token) (final : Error) (r : Run T D),
        Run.UnmarshalXML env
            ⟨.StartElement ⟨⟨space, "tab"⟩, attrs⟩ :: .EndElement endName :: rest, final⟩ r =
          Run.UnmarshalXML env ⟨rest, final⟩
            { r with Children := r.Children ++ [Child.tab {}] }) ∧
    (∀ {T D : Type} (env : Env T D) (space : String) (attrs : List Attr) (endName : Name),
        Run.UnmarshalXML env
            ⟨[.StartElement ⟨⟨space, "tab"⟩, attrs⟩, .EndElement endName], Error.EOF⟩
            ({} : Run T D) =
          some (none, { Children := [Child.tab {}] })) := by
  have key : ∀ {T D : Type} (env : Env T D) (space : String) (attrs : List Attr)
      (endName : Name) (rest : List Token) (final : Error) (r : Run T D),
      Run.UnmarshalXML env
          ⟨.StartElement ⟨⟨space, "tab"⟩, attrs⟩ :: .EndElement endName :: rest, final⟩ r =
        Run.UnmarshalXML env ⟨rest, final⟩
          { r with Children := r.Children ++ [Child.tab {}] } := by
    intro T D env space attrs endName rest final r
    rw [Run.unfold_start]
    simp only [Run.onStart]
    rw [if_neg (by decide), if_neg (by decide), if_neg (by decide), if_neg (by decide)]
    simp only [if_true, Nat.zero_min, List.drop_zero]
    rw [Run.unfold_other env (.EndElement endName) rest final _ rfl]
  refine ⟨key, ?_⟩
  intro T D env space attrs endName
  rw [key, Run.unfold_nil]
  simp

/-- C10: for every run token stream that consists of closed subtrees and
non-element tokens only (the nesting depth ends at 0) and has no direct child
named `t`, `drawing`, `tab`, `rPr` or `instrText`, read to `io.EOF`,
`Run.UnmarshalXML` on a fresh Run returns no error and a Run with empty
Children, nil `RunProperties` and empty `InstrText`. -/
theorem C10_no_recognized_children {T D : Type} (env : Env T D) (toks : List Token)
    (hd : depthAfter 0 toks = 0) (hn : noRunTags toks = true) :
    ∃ r' : Run T D, Run.UnmarshalXML env ⟨toks, Error.EOF⟩ {} = some (none, r') ∧
      r'.Children = [] ∧ r'.RunProperties = none ∧ r'.InstrText = "" :=
  ⟨{}, Run.unchanged env toks.length toks le_rfl hd hn {}, rfl, rfl, rfl⟩

/-- C10 at the stream `unknownRun`, whose unknown `ext` element nests a `t` and a
`tab`. -/
theorem C10_no_recognized_children_witness :
    depthAfter 0 unknownRun = 0 ∧ noRunTags unknownRun = true ∧
    ∃ r' : Run String (List Token),
      Run.UnmarshalXML docEnv ⟨unknownRun, Error.EOF⟩ {} = some (none, r') ∧
      r'.Children = [] ∧ r'.RunProperties = none ∧ r'.InstrText = "" :=
  ⟨by decide, by decide,
    C10_no_recognized_children docEnv unknownRun (by decide) (by decide)⟩

/-- C11: `RunProperties.UnmarshalXML` returns, and the error it returns is the
failure of the first decoder call that fails, where `Token` fails with any error
other than `io.EOF` and `Skip` with any error, so it returns an error if and
only if one of these calls fails; an iteration on a recognized tag (`color`,
`sz`, `rStyle`, `pStyle`) makes no call but `Token` and goes on with the next
token; and a recognized tag without a `val` attribute still populates its
field, with the empty string. -/
theorem C11_properties_errors :
    (∀ (d : Decoder) (r : RunProperties), ∃ err r' d',
      RunProperties.UnmarshalXML d r = some ((err, r'), d') ∧
      err = (RunProperties.ops d r).findSome? Op.failure ∧
      ((∃ e, err = some e) ↔ ∃ op ∈ RunProperties.ops d r, ∃ e, Op.failure op = some e)) ∧
    (∀ (tt : StartElement) (rest : List Token) (final : Error) (r : RunProperties),
      tt.Name.Local ∈ propTags →
      RunProperties.stepOps ⟨.StartElement tt :: rest, final⟩ =
        [Op.token (.ok (.StartElement tt))] ∧
      ∃ r1, RunProperties.step ⟨.StartElement tt :: rest, final⟩ r =
        .inr (⟨rest, final⟩, r1)) ∧
    (∀ (tt : StartElement) (rest : List Token) (final : Error) (r : RunProperties),
      (∀ a ∈ tt.Attr, a.Name.Local ≠ "val") →
      (tt.Name.Local = "color" → RunProperties.step ⟨.StartElement tt :: rest, final⟩ r =
        .inr (⟨rest, final⟩, { r with Color := some { Val := "" } })) ∧
      (tt.Name.Local = "sz" → RunProperties.step ⟨.StartElement tt :: rest, final⟩ r =
        .inr (⟨rest, final⟩, { r with Size := some { Val := "" } })) ∧
      (tt.Name.Local = "rStyle" → RunProperties.step ⟨.StartElement tt :: rest, final⟩ r =
        .inr (⟨rest, final⟩, { r with RunStyle := some { Val := "" } })) ∧
      (tt.Name.Local = "pStyle" → RunProperties.step ⟨.StartElement tt :: rest, final⟩ r =
        .inr (⟨rest, final⟩, { r with Style := some { Val := "" } }))) ∧
    RunProperties.UnmarshalXML ⟨noValProps, Error.EOF⟩ {} =
      some ((none, { Color := some { Val := "" } }), ⟨[], Error.EOF⟩) := by
  refine ⟨?_, ?_, ?_, by decide⟩
  · intro d r
    obtain ⟨r', d', h⟩ :=
      RunProperties.props_loop_failure (d.toks.length + 1) d r (Nat.lt_succ_self _)
    refine ⟨_, r', d', h, rfl, ?_⟩
    rw [← Option.isSome_iff_exists, List.findSome?_isSome_iff]
    simp only [RunProperties.ops, Option.isSome_iff_exists]
  · intro tt rest final r h
    simp only [propTags, List.mem_cons, List.mem_singleton, List.not_mem_nil, or_false] at h
    simp only [RunProperties.stepOps, RunProperties.step, Decoder.Token]
    rcases h with h | h | h | h <;> simp [h]
  · intro tt rest final r h
    have hg := getAtt_absent "val" tt.Attr h
    simp only [RunProperties.step, Decoder.Token, hg]
    refine ⟨fun h => ?_, fun h => ?_, fun h => ?_, fun h => ?_⟩ <;> simp [h]

/-- C11 at the stream `brokenProps`, read to the error "unexpected EOF": the
error returned is the one `Skip` hits inside the unclosed `rFonts`, and the `sz`
read before it is kept. -/
theorem C11_properties_errors_witness :
    (RunProperties.ops ⟨brokenProps, Error.other "unexpected EOF"⟩ {}).map Op.failure =
      [none, none, none, some (Error.other "unexpected EOF")] ∧
    RunProperties.UnmarshalXML ⟨brokenProps, Error.other "unexpected EOF"⟩ {} =
      some ((some (Error.other "unexpected EOF"), { Size := some { Val := "24" } }),
        ⟨[], Error.other "unexpected EOF"⟩) ∧
    ∃ err r' d',
      RunProperties.UnmarshalXML ⟨brokenProps, Error.other "unexpected EOF"⟩ {} =
        some ((err, r'), d') ∧
      err = (RunProperties.ops ⟨brokenProps, Error.other "unexpected EOF"⟩ {}).findSome?
        Op.failure ∧
      ((∃ e, err = some e) ↔
        ∃ op ∈ RunProperties.ops ⟨brokenProps, Error.other "unexpected EOF"⟩ {},
          ∃ e, Op.failure op = some e) :=
  ⟨by decide, by decide, C11_properties_errors.1 _ _⟩

/-- C12: a token that is not a start element (end element, character data,
comment, processing instruction, directive) is ignored by the loop of
`Run.UnmarshalXML`: the iteration goes on with the next token and the receiver
as it was, so the method returns what it returns on the tokens that follow;
the method returns `nil` only on a decoder whose `Token` ends in `io.EOF`, the
iteration that returns `nil` being the one in which `Token` reports it; and a
start element after an end-element token is still dispatched. -/
theorem C12_non_start_tokens_ignored :
    (∀ {T D : Type} (env : Env T D) (tok : Token) (rest : List Token) (final : Error)
        (r : Run T D), tok.isStart = false →
        Run.step env ⟨tok :: rest, final⟩ r = .inr (⟨rest, final⟩, r) ∧
        Run.UnmarshalXML env ⟨tok :: rest, final⟩ r = Run.UnmarshalXML env ⟨rest, final⟩ r) ∧
    (∀ {T D : Type} (env : Env T D) (d : Decoder) (r r' : Run T D),
        (Run.step env d r = .inl (none, r') → d.toks = [] ∧ d.final = Error.EOF) ∧
        (Run.UnmarshalXML env d r = some (none, r') → d.final = Error.EOF)) ∧
    (∀ {T D : Type} (env : Env T D) (r : Run T D),
        Run.UnmarshalXML env ⟨[], Error.EOF⟩ r = some (none, r)) ∧
    Run.UnmarshalXML docEnv ⟨strayRun, Error.EOF⟩ {} =
      some (none, { Children := [Child.tab {}] }) := by
  refine ⟨?_, ?_, ?_, by decide⟩
  · intro T D env tok rest final r h
    refine ⟨?_, Run.unfold_other env tok rest final r h⟩
    cases tok with
    | StartElement tt => simp [Token.isStart] at h
    | _ => rfl
  · intro T D env d r r'
    exact ⟨Run.step_nil env d r r', Run.nil_final env d.toks.length d le_rfl r r'⟩
  · intro T D env r
    rw [Run.unfold_nil]; simp

/-- C12 at the stream `strayRun`: after the end element and the four other
tokens the loop is where it would be without them. -/
theorem C12_non_start_tokens_ignored_witness :
    Run.UnmarshalXML docEnv ⟨strayRun, Error.EOF⟩ {} =
      Run.UnmarshalXML docEnv ⟨strayRun.tail, Error.EOF⟩ {} :=
  (C12_non_start_tokens_ignored.1 docEnv (.EndElement (w "r")) strayRun.tail Error.EOF {}
    (by decide)).2

/-- C13: the four fields of `RunProperties` are independent: for each of the 16
choices of which of `Color`, `Size`, `RunStyle`, `Style` are to be present, on
the stream `propsFor` of that choice `RunProperties.UnmarshalXML` on a fresh
value returns no error and makes exactly the chosen fields present. -/
theorem C13_fields_independent :
    ∀ color sz rStyle pStyle : Bool,
      ∃ r' : RunProperties,
        RunProperties.UnmarshalXML ⟨propsFor color sz rStyle pStyle, Error.EOF⟩ {} =
          some ((none, r'), ⟨[], Error.EOF⟩) ∧
        r'.Color.isSome = color ∧ r'.Size.isSome = sz ∧
        r'.RunStyle.isSome = rStyle ∧ r'.Style.isSome = pStyle := by
  intro color sz rStyle pStyle
  cases color <;> cases sz <;> cases rStyle <;> cases pStyle <;>
    exact ⟨_, rfl, rfl, rfl, rfl, rfl⟩

/-- C14: decoding is a function of the token stream and of the results of the
collaborators on it: for every token stream, two runs of `Run.UnmarshalXML` on
it, each into a fresh Run, with decoders that give the same results at the start
elements of the stream, return the same error and the same Run. -/
theorem C14_function_of_stream {T D : Type} (env1 env2 : Env T D) (toks : List Token)
    (final : Error) (h : Agree env1 env2 final toks toks) :
    ∃ err r', Run.UnmarshalXML env1 ⟨toks, final⟩ {} = some (err, r') ∧
      Run.UnmarshalXML env2 ⟨toks, final⟩ {} = some (err, r') := by
  obtain ⟨⟨err, r'⟩, h1⟩ := Run.total env1 ⟨toks, final⟩ {}
  refine ⟨err, r', h1, ?_⟩
  rw [← Run.sim env1 env2 final toks.length toks toks le_rfl (sameLocals_refl toks) h {}]
  exact h1

/-- C14 at the stream `sampleRun`, with two sets of decoders that differ only on
start elements the stream does not have. -/
theorem C14_function_of_stream_witness :
    docEnv.t ⟨⟨"", "t"⟩, []⟩ ⟨[.EndElement (w "t")], Error.EOF⟩ ≠
      otherEnv.t ⟨⟨"", "t"⟩, []⟩ ⟨[.EndElement (w "t")], Error.EOF⟩ ∧
    ∃ err r', Run.UnmarshalXML docEnv ⟨sampleRun, Error.EOF⟩ {} = some (err, r') ∧
      Run.UnmarshalXML otherEnv ⟨sampleRun, Error.EOF⟩ {} = some (err, r') :=
  ⟨by decide, C14_function_of_stream docEnv otherEnv sampleRun Error.EOF
    (by decide)⟩

/-- C15 fails on the code at `nestedProps`: the `color` branch reads the `val`
attribute and goes on without consuming the element, so the `sz` nested inside
the `color` is dispatched as if it were a direct child and populates `Size`,
although the only direct child of the properties element is the `color`. -/
theorem C15_recognized_subtree_not_consumed :
    (directStarts 0 nestedProps).map (fun c => c.1.Name.Local) = ["color"] ∧
    RunProperties.UnmarshalXML ⟨nestedProps, Error.EOF⟩ {} =
      some ((none, { Color := some { Val := "FF0000" }, Size := some { Val := "24" } }),
        ⟨[], Error.EOF⟩) := by
  decide

/-- C16: dispatch depends only on the local name. On two streams that are the
same up to the namespaces of their elements' names (of a start element and of
the end element that closes it), `RunProperties.UnmarshalXML` returns the same,
and so does `Run.UnmarshalXML` when the decoders give the same results at
corresponding start elements; an iteration of the Run loop on a start element
that is not `rPr`, `instrText`, `t` or `drawing` (a `tab`, or an element that is
skipped) does the same whatever the namespace and the attributes. A `tab` and an
unknown element in other namespaces yield one `WTab`, and the well-formed
`respacedProps`, with `sz` and `color` in other namespaces, populates the fields
`sampleProps` does. -/
theorem C16_dispatch_on_local_name :
    (∀ (t1 t2 : List Token) (final : Error) (r : RunProperties),
      sameLocals t1 t2 = true →
      RunProperties.UnmarshalXML ⟨t1, final⟩ r = RunProperties.UnmarshalXML ⟨t2, final⟩ r) ∧
    (∀ {T D : Type} (env : Env T D) (t1 t2 : List Token) (final : Error) (r : Run T D),
      sameLocals t1 t2 = true → Agree env env final t1 t2 →
      Run.UnmarshalXML env ⟨t1, final⟩ r = Run.UnmarshalXML env ⟨t2, final⟩ r) ∧
    (∀ {T D : Type} (env : Env T D) (a b : StartElement) (rest : List Token) (final : Error)
        (r : Run T D), a.Name.Local = b.Name.Local →
      a.Name.Local ∉ ["rPr", "instrText", "t", "drawing"] →
      Run.step env ⟨.StartElement a :: rest, final⟩ r =
        Run.step env ⟨.StartElement b :: rest, final⟩ r) ∧
    Run.UnmarshalXML docEnv
      ⟨[.StartElement ⟨⟨"urn:x", "tab"⟩, []⟩, .EndElement ⟨"urn:x", "tab"⟩,
        .StartElement ⟨⟨"urn:y", "ext"⟩, []⟩, .StartElement ⟨w "t", []⟩, .CharData "x",
        .EndElement (w "t"), .EndElement ⟨"urn:y", "ext"⟩, .EndElement (w "r")],
        Error.EOF⟩ {} =
      some (none, { Children := [Child.tab {}] }) ∧
    wellFormed [] sampleProps = true ∧ wellFormed [] respacedProps = true ∧
    sameLocals sampleProps respacedProps = true ∧ sampleProps ≠ respacedProps ∧
    RunProperties.UnmarshalXML ⟨respacedProps, Error.EOF⟩ {} =
      RunProperties.UnmarshalXML ⟨sampleProps, Error.EOF⟩ {} ∧
    RunProperties.UnmarshalXML ⟨respacedProps, Error.EOF⟩ {} =
      some ((none, { Color := some { Val := "FF0000" }, Size := some { Val := "24" } }),
        ⟨[], Error.EOF⟩) := by
  refine ⟨?_, ?_, ?_, by decide, by decide, by decide, by decide, by decide, by decide,
    by decide⟩
  · intro t1 t2 final r hs
    exact RunProperties.props_sim t1.length t1 t2 le_rfl hs final r
  · intro T D env t1 t2 final r hs hag
    exact Run.sim env env final t1.length t1 t2 le_rfl hs hag r
  · intro T D env a b rest final r hl hn
    simp only [List.mem_cons, List.mem_singleton, List.not_mem_nil, or_false, not_or] at hn
    simp only [Run.step, Decoder.Token, ← hl]
    rw [if_neg hn.1, if_neg hn.2.1, if_neg hn.2.2.1, if_neg hn.2.2.2,
      if_neg hn.1, if_neg hn.2.1, if_neg hn.2.2.1, if_neg hn.2.2.2]

/-- C16 at the well-formed streams `sampleRun` and `respacedRun`: with the
`rPr`, `sz`, `t`, `ext` and `tab` elements in other namespaces the run decodes to
the same. -/
theorem C16_dispatch_on_local_name_witness :
    wellFormed [] sampleRun = true ∧ wellFormed [] respacedRun = true ∧
    sameLocals sampleRun respacedRun = true ∧ sampleRun ≠ respacedRun ∧
    Agree docEnv docEnv Error.EOF sampleRun respacedRun ∧
    Run.UnmarshalXML docEnv ⟨sampleRun, Error.EOF⟩ {} =
      Run.UnmarshalXML docEnv ⟨respacedRun, Error.EOF⟩ {} :=
  ⟨by decide, by decide, by decide, by decide, by decide,
    C16_dispatch_on_local_name.2.1 docEnv sampleRun respacedRun Error.EOF {} (by decide)
      (by decide)⟩

/-- C17: when the decoder is at a `t` (or `drawing`) start element whose
`DecodeElement` fails with an error whose message begins with "expected",
leaving `value` in its target and the decoder at `d'`, `Run.UnmarshalXML` does
not return that error: it returns what decoding from `d'` returns, and its
Children are the Children before, then exactly one child holding `value`, then
the children decoded from `d'`. -/
theorem C17_content_mismatch_tolerated :
    (∀ {T D : Type} (env : Env T D) (tt : StartElement) (rest : List Token) (final : Error)
        (r : Run T D) (value : T) (e : Error) (d' : Decoder),
        tt.Name.Local = "t" →
        Decoder.DecodeElement env.t tt ⟨rest, final⟩ = ((value, some e), d') →
        HasPrefix e.Error "expected" = true →
        ∃ err r0 r', Run.UnmarshalXML env d' {} = some (err, r0) ∧
          Run.UnmarshalXML env ⟨.StartElement tt :: rest, final⟩ r = some (err, r') ∧
          r'.Children = r.Children ++ Child.text value :: r0.Children) ∧
    (∀ {T D : Type} (env : Env T D) (tt : StartElement) (rest : List Token) (final : Error)
        (r : Run T D) (value : D) (e : Error) (d' : Decoder),
        tt.Name.Local = "drawing" →
        Decoder.DecodeElement env.drawing tt ⟨rest, final⟩ = ((value, some e), d') →
        HasPrefix e.Error "expected" = true →
        ∃ err r0 r', Run.UnmarshalXML env d' {} = some (err, r0) ∧
          Run.UnmarshalXML env ⟨.StartElement tt :: rest, final⟩ r = some (err, r') ∧
          r'.Children = r.Children ++ Child.drawing value :: r0.Children) := by
  constructor
  · intro T D env tt rest final r value e d' htt hdec he
    have hs : Run.UnmarshalXML env ⟨.StartElement tt :: rest, final⟩ r =
        Run.UnmarshalXML env d' { r with Children := r.Children ++ [Child.text value] } := by
      rw [Run.unfold]
      simp [Run.step, Decoder.Token, htt, hdec, fatal, he]
    obtain ⟨err, r0, r', h1, h2, h3, -⟩ := Run.children_append env d'
      { r with Children := r.Children ++ [Child.text value] }
    exact ⟨err, r0, r', h1, by rw [hs]; exact h2, by rw [h3]; simp⟩
  · intro T D env tt rest final r value e d' htt hdec he
    have hs : Run.UnmarshalXML env ⟨.StartElement tt :: rest, final⟩ r =
        Run.UnmarshalXML env d' { r with Children := r.Children ++ [Child.drawing value] } := by
      rw [Run.unfold]
      simp [Run.step, Decoder.Token, htt, hdec, fatal, he]
    obtain ⟨err, r0, r', h1, h2, h3, -⟩ := Run.children_append env d'
      { r with Children := r.Children ++ [Child.drawing value] }
    exact ⟨err, r0, r', h1, by rw [hs]; exact h2, by rw [h3]; simp⟩

/-- C17 at `<t>Hello</t>` after a tab, with the `t` decoder that reports a shape
mismatch before reading anything: the zero-valued text is appended after the
tab, no error is returned. -/
theorem C17_content_mismatch_tolerated_witness :
    Run.UnmarshalXML strictEnv
        ⟨[.StartElement ⟨w "t", []⟩, .CharData "Hello", .EndElement (w "t"),
          .EndElement (w "r")], Error.EOF⟩ { Children := [Child.tab {}] } =
      some (none, { Children := [Child.tab {}, Child.text ""] }) ∧
    ∃ err r0 r',
      Run.UnmarshalXML strictEnv
        ⟨[.CharData "Hello", .EndElement (w "t"), .EndElement (w "r")], Error.EOF⟩ {} =
        some (err, r0) ∧
      Run.UnmarshalXML strictEnv
        ⟨.StartElement ⟨w "t", []⟩ ::
          [.CharData "Hello", .EndElement (w "t"), .EndElement (w "r")], Error.EOF⟩
        { Children := [Child.tab {}] } = some (err, r') ∧
      r'.Children = [Child.tab {}] ++ Child.text "" :: r0.Children :=
  ⟨by decide,
    C17_content_mismatch_tolerated.1 strictEnv ⟨w "t", []⟩ _ Error.EOF
      { Children := [Child.tab {}] } ""
      (Error.other "expected element type <w:t> but have <t>") _
      (by decide) (by decide) (by decide)⟩

/-- C18: repeated metadata is overwritten, not merged. When the last `rPr`
element of a run token stream is a direct child whose decode is not fatal and
`Run.UnmarshalXML` returns no error, `RunProperties` is exactly the value of
that decode, whatever earlier `rPr` elements set; likewise `InstrText` is the
text decoded from the last `instrText` element; and on a properties stream
whose recognized direct children are empty, each field of `RunProperties` holds
the `val` of the last direct child with its tag. On `repeatedRun` the color of
the first `rPr` is lost, on `mixedProps` the size is that of the last `sz`. -/
theorem C18_last_metadata_wins :
    (∀ {T D : Type} (env : Env T D) (A rest : List Token) (tt : StartElement) (final : Error)
        (r r' : Run T D) (value : RunProperties) (err : Option Error) (d' : Decoder),
        depthAfter 0 A = 0 → tt.Name.Local = "rPr" →
        Decoder.DecodeElement env.rPr tt ⟨rest, final⟩ = ((value, err), d') →
        fatal err = false → hasStart "rPr" d'.toks = false →
        Run.UnmarshalXML env ⟨A ++ .StartElement tt :: rest, final⟩ r = some (none, r') →
        r'.RunProperties = some value) ∧
    (∀ {T D : Type} (env : Env T D) (A rest : List Token) (tt : StartElement) (final : Error)
        (r r' : Run T D) (value : String) (err : Option Error) (d' : Decoder),
        depthAfter 0 A = 0 → tt.Name.Local = "instrText" →
        Decoder.DecodeElement env.instrText tt ⟨rest, final⟩ = ((value, err), d') →
        fatal err = false → hasStart "instrText" d'.toks = false →
        Run.UnmarshalXML env ⟨A ++ .StartElement tt :: rest, final⟩ r = some (none, r') →
        r'.InstrText = value) ∧
    (∀ (toks : List Token) (final : Error) (r : RunProperties), propsOk toks = true →
      ∃ err r',
        RunProperties.UnmarshalXML ⟨toks, final⟩ r = some ((err, r'), ⟨[], final⟩) ∧
        r'.Color = (match lastChild "color" (directStarts 0 toks) with
          | some tt => some { Val := getAtt tt.Attr "val" }
          | none => r.Color) ∧
        r'.Size = (match lastChild "sz" (directStarts 0 toks) with
          | some tt => some { Val := getAtt tt.Attr "val" }
          | none => r.Size) ∧
        r'.RunStyle = (match lastChild "rStyle" (directStarts 0 toks) with
          | some tt => some { Val := getAtt tt.Attr "val" }
          | none => r.RunStyle) ∧
        r'.Style = (match lastChild "pStyle" (directStarts 0 toks) with
          | some tt => some { Val := getAtt tt.Attr "val" }
          | none => r.Style)) ∧
    Run.UnmarshalXML docEnv ⟨repeatedRun, Error.EOF⟩ {} =
      some (none, { RunProperties := some { Size := some { Val := "24" } },
                    InstrText := "DATE", Children := [Child.text "Hello"] }) ∧
    RunProperties.UnmarshalXML ⟨mixedProps, Error.EOF⟩ {} =
      some ((none, { Color := some { Val := "FF0000" }, Size := some { Val := "24" } }),
        ⟨[], Error.EOF⟩) := by
  refine ⟨?_, ?_, ?_, by decide, by decide⟩
  · intro T D env A rest tt final r r' value err d' hA htt hdec hf hlast hrun
    rcases Run.through env A.length A le_rfl ⟨0, hA⟩ final r with ⟨e', ra, h⟩ | ⟨ra, h⟩
    · rw [h] at hrun; cases hrun
    · rw [h, Run.unfold] at hrun
      have hs : Run.step env ⟨.StartElement tt :: rest, final⟩ ra =
          .inr (d', { ra with RunProperties := some value }) := by
        simp [Run.step, Decoder.Token, htt, hdec, hf]
      rw [hs] at hrun
      exact Run.frame env (fun a => a.RunProperties = some value) (fun a c ha => ha) _ _ le_rfl
        (Or.inl hlast) (Or.inr (fun a v ha => ha)) d'.final _ _ rfl hrun
  · intro T D env A rest tt final r r' value err d' hA htt hdec hf hlast hrun
    rcases Run.through env A.length A le_rfl ⟨0, hA⟩ final r with ⟨e', ra, h⟩ | ⟨ra, h⟩
    · rw [h] at hrun; cases hrun
    · rw [h, Run.unfold] at hrun
      have hs : Run.step env ⟨.StartElement tt :: rest, final⟩ ra =
          .inr (d', { ra with InstrText := value }) := by
        simp [Run.step, Decoder.Token, htt, hdec, hf]
      rw [hs] at hrun
      exact Run.frame env (fun a => a.InstrText = value) (fun a c ha => ha) _ _ le_rfl
        (Or.inr (fun a v ha => ha)) (Or.inl hlast) d'.final _ _ rfl hrun
  · intro toks final r hok
    exact RunProperties.fields_direct toks.length toks le_rfl hok final r

/-- C18 at `repeatedRun`: its second `rPr` element, decoded to a value that
holds only the size, is what `RunProperties` ends up as. -/
theorem C18_last_metadata_wins_witness :
    Run.UnmarshalXML docEnv ⟨repeatedRun, Error.EOF⟩ {} =
      some (none, { RunProperties := some { Size := some { Val := "24" } },
                    InstrText := "DATE", Children := [Child.text "Hello"] }) ∧
    ({ RunProperties := some { Size := some { Val := "24" } },
       InstrText := "DATE", Children := [Child.text "Hello"] } :
      Run String (List Token)).RunProperties = some { Size := some { Val := "24" } } :=
  ⟨by decide,
    C18_last_metadata_wins.1 docEnv (repeatedRun.take 7) (repeatedRun.drop 8) ⟨w "rPr", []⟩
      Error.EOF {} _ { Size := some { Val := "24" } } none ⟨repeatedRun.drop 11, Error.EOF⟩
      (by decide) (by decide) (by decide) (by decide) (by decide) (by decide)⟩

/-- C19: `Run.UnmarshalXML` called on a Run `r` that already holds data returns
the error it returns on a fresh Run, keeps the Children of `r` as a prefix
followed by the children a fresh decoding yields, never changes `XMLName`,
leaves `RunProperties` as it was when the stream has no `rPr` start element and
`InstrText` as it was when it has no `instrText` start element; and decoding the
same stream again into the result of a fresh decoding doubles its Children. -/
theorem C19_existing_data_kept {T D : Type} (env : Env T D) (d : Decoder) (r : Run T D) :
    ∃ err r0 r', Run.UnmarshalXML env d {} = some (err, r0) ∧
      Run.UnmarshalXML env d r = some (err, r') ∧
      r'.Children = r.Children ++ r0.Children ∧ r'.XMLName = r.XMLName ∧
      (hasStart "rPr" d.toks = false → r'.RunProperties = r.RunProperties) ∧
      (hasStart "instrText" d.toks = false → r'.InstrText = r.InstrText) ∧
      ∃ r2, Run.UnmarshalXML env d r0 = some (err, r2) ∧
        r2.Children = r0.Children ++ r0.Children := by
  obtain ⟨err, r0, r', h1, h2, h3, h4⟩ := Run.children_append env d r
  obtain ⟨err', r0', r2, g1, g2, g3, -⟩ := Run.children_append env d r0
  rw [h1] at g1
  simp only [Option.some.injEq, Prod.mk.injEq] at g1
  obtain ⟨rfl, rfl⟩ := g1
  refine ⟨err, r0, r', h1, h2, h3, h4, ?_, ?_, r2, g2, g3⟩
  · intro hn
    exact Run.frame env (fun a => a.RunProperties = r.RunProperties) (fun a c ha => ha)
      d.toks.length d.toks le_rfl (Or.inl hn) (Or.inr (fun a v ha => ha)) d.final r _ rfl h2
  · intro hn
    exact Run.frame env (fun a => a.InstrText = r.InstrText) (fun a c ha => ha)
      d.toks.length d.toks le_rfl (Or.inr (fun a v ha => ha)) (Or.inl hn) d.final r _ rfl h2

/-- C19 at the stream `plainRun` decoded into `usedRun`: the old child stays
first, the properties, the field instruction and the name are untouched. -/
theorem C19_existing_data_kept_witness :
    Run.UnmarshalXML docEnv ⟨plainRun, Error.EOF⟩ usedRun =
      some (none, { usedRun with
        Children := [Child.text "old", Child.tab {}, Child.text "Hello"] }) ∧
    ∃ err r0 r', Run.UnmarshalXML docEnv ⟨plainRun, Error.EOF⟩ {} = some (err, r0) ∧
      Run.UnmarshalXML docEnv ⟨plainRun, Error.EOF⟩ usedRun = some (err, r') ∧
      r'.Children = usedRun.Children ++ r0.Children ∧ r'.XMLName = usedRun.XMLName ∧
      (hasStart "rPr" plainRun = false → r'.RunProperties = usedRun.RunProperties) ∧
      (hasStart "instrText" plainRun = false → r'.InstrText = usedRun.InstrText) ∧
      ∃ r2, Run.UnmarshalXML docEnv ⟨plainRun, Error.EOF⟩ r0 = some (err, r2) ∧
        r2.Children = r0.Children ++ r0.Children :=
  ⟨by decide, C19_existing_data_kept docEnv ⟨plainRun, Error.EOF⟩ usedRun⟩

end Docx
